import Mathlib

/-!
# Pacing forecaster: embedding of `src/src/App.jsx`

The numeric core of the application (`quantile`, `safeDiv`, `buildStats`,
`summarize` and the `forecast` computation) is embedded as executable
definitions over an exact model of JavaScript numbers.

## Number model

A JavaScript number is modelled by `JSNum`: a rational (`fin q`), `NaN`,
`+Infinity`, `-Infinity`, plus the value `undefined` that an out-of-range array
read yields.  Arithmetic on finite values is exact rational arithmetic (no
rounding, no overflow), special values follow IEEE-754 as JavaScript exposes
them, and `undefined` coerces to `NaN` in every numeric context.  Zero is
unsigned: `x / 0` takes the sign of `x` only.  `Math.sqrt` on a finite
non-negative argument is a parameter `sqrtQ : ℚ → ℚ` of the definitions that
use it.

## Sorting

`[...arr].sort((x, y) => x - y)` is modelled by a stable insertion sort in which a
`NaN` difference counts as `0`.  On an array of numbers without `NaN` every
conforming sort returns the ascending order, and on an array in which every
comparison is `NaN` or `0` every stable sort keeps the arrival order.  On any other
array that holds a `NaN` the comparator is not a consistent order, ECMAScript leaves
the result to the engine, and the order the model returns is its own, not that of a
particular engine.  The statements below that compute a quantile do so on arrays of
the first two kinds.
-/

namespace PacingForecaster

/-! ## JavaScript numbers -/

/-- A JavaScript number value with exact finite part, or `undefined`. -/
inductive JSNum where
  | fin (q : ℚ)
  | nan
  | posInf
  | negInf
  | undef
  deriving DecidableEq

namespace JSNum

instance : Inhabited JSNum := ⟨nan⟩

/-- The infinity carrying the sign of `s`; `NaN` when `s = 0`. -/
def infOfSign (s : ℚ) : JSNum :=
  if 0 < s then posInf else if s < 0 then negInf else nan

/-- Unary minus. -/
def neg : JSNum → JSNum
  | fin a => fin (-a)
  | posInf => negInf
  | negInf => posInf
  | _ => nan

/-- The operator `+` on numbers. -/
def add : JSNum → JSNum → JSNum
  | fin a, fin b => fin (a + b)
  | fin _, posInf => posInf
  | fin _, negInf => negInf
  | posInf, fin _ => posInf
  | posInf, posInf => posInf
  | negInf, fin _ => negInf
  | negInf, negInf => negInf
  | _, _ => nan

/-- The operator `-` on numbers. -/
def sub (x y : JSNum) : JSNum := add x (neg y)

/-- The operator `*` on numbers. -/
def mul : JSNum → JSNum → JSNum
  | fin a, fin b => fin (a * b)
  | fin a, posInf => infOfSign a
  | fin a, negInf => infOfSign (-a)
  | posInf, fin b => infOfSign b
  | negInf, fin b => infOfSign (-b)
  | posInf, posInf => posInf
  | posInf, negInf => negInf
  | negInf, posInf => negInf
  | negInf, negInf => posInf
  | _, _ => nan

/-- The operator `/` on numbers. -/
def div : JSNum → JSNum → JSNum
  | fin a, fin b => if b = 0 then infOfSign a else fin (a / b)
  | fin _, posInf => fin 0
  | fin _, negInf => fin 0
  | posInf, fin b => if 0 ≤ b then posInf else negInf
  | negInf, fin b => if 0 ≤ b then negInf else posInf
  | _, _ => nan

/-- The operator `<`. -/
def lt : JSNum → JSNum → Bool
  | fin a, fin b => decide (a < b)
  | fin _, posInf => true
  | negInf, fin _ => true
  | negInf, posInf => true
  | _, _ => false

/-- The operator `>`. -/
def gt (x y : JSNum) : Bool := lt y x

/-- The operator `<=`. -/
def le : JSNum → JSNum → Bool
  | fin a, fin b => decide (a ≤ b)
  | fin _, posInf => true
  | negInf, fin _ => true
  | negInf, posInf => true
  | posInf, posInf => true
  | negInf, negInf => true
  | _, _ => false

/-- The operator `>=`. -/
def ge (x y : JSNum) : Bool := le y x

/-- Both `isFinite(x)` and `Number.isFinite(x)`. -/
def isFinite : JSNum → Bool
  | fin _ => true
  | _ => false

/-- Truthiness of a number in a condition (`b ? … : …`). -/
def truthy : JSNum → Bool
  | fin a => decide (a ≠ 0)
  | posInf => true
  | negInf => true
  | _ => false

/-- The function `Math.abs`. -/
def abs : JSNum → JSNum
  | fin a => fin |a|
  | posInf => posInf
  | negInf => posInf
  | _ => nan

/-- The function `Math.max` of two arguments. -/
def max : JSNum → JSNum → JSNum
  | fin a, fin b => fin (Max.max a b)
  | fin _, posInf => posInf
  | posInf, fin _ => posInf
  | posInf, posInf => posInf
  | posInf, negInf => posInf
  | negInf, posInf => posInf
  | fin a, negInf => fin a
  | negInf, fin b => fin b
  | negInf, negInf => negInf
  | _, _ => nan

/-- The function `Math.min` of two arguments. -/
def min : JSNum → JSNum → JSNum
  | fin a, fin b => fin (Min.min a b)
  | fin _, negInf => negInf
  | negInf, fin _ => negInf
  | negInf, negInf => negInf
  | posInf, negInf => negInf
  | negInf, posInf => negInf
  | fin a, posInf => fin a
  | posInf, fin b => fin b
  | posInf, posInf => posInf
  | _, _ => nan

/-- The call `Math.pow(x, 2)`. -/
def pow2 : JSNum → JSNum
  | fin a => fin (a ^ 2)
  | posInf => posInf
  | negInf => posInf
  | _ => nan

/-- The function `Math.sqrt`, with `sqrtQ` its value on finite non-negative arguments. -/
def sqrt (sqrtQ : ℚ → ℚ) : JSNum → JSNum
  | fin a => if a < 0 then nan else fin (sqrtQ a)
  | posInf => posInf
  | _ => nan

end JSNum

open JSNum

/-- Array read `a[i]` at an integer index: `undefined` outside `0 .. a.length - 1`. -/
def getIdx (a : List JSNum) (i : ℤ) : JSNum :=
  if 0 ≤ i then a.getD i.toNat undef else undef

/-- Array read `a[h]` with a number as the key: only an integral `h` within
range names a slot. -/
def getAt {α : Type} (a : List α) (h : JSNum) : Option α :=
  match h with
  | fin q => if q.den = 1 ∧ 0 ≤ q.num then a.get? q.num.toNat else none
  | _ => none

/-! ## `quantile` and `safeDiv` (App.jsx 35-47) -/

/-- The comparator `(x, y) => x - y` places `x` no later than `y` unless `x - y > 0`
(a `NaN` difference counts as `0`). -/
def cmpLE (x y : JSNum) : Prop := gt (sub x y) (fin 0) = false

instance : DecidableRel cmpLE := fun x y => by unfold cmpLE; infer_instance

/-- The call `[...arr].sort((x, y) => x - y)`: a stable sort by the comparator.
For arrays without `NaN` the comparator is a total preorder and the result is the
ascending order.  With `NaN` present ECMAScript leaves the order to the engine: the
model inserts each element from the right into the sorted rest, which agrees with
every stable sort when all comparisons are `NaN` or `0` and need not agree with an
engine when a `NaN` sits among distinct values. -/
def sortAsc (arr : List JSNum) : List JSNum := arr.insertionSort cmpLE

/-- Source function `quantile(arr, q)`, for a finite `q` (the program passes the
literals 0.25, 0.5 and 0.75); `Math.floor` of the finite `pos` is `Rat.floor`. -/
def quantile (arr : List JSNum) (q : ℚ) : JSNum :=
  if arr.length = 0 then nan
  else
    let a := sortAsc arr
    let pos : ℚ := ((a.length : ℚ) - 1) * q
    let base : ℤ := Rat.floor pos
    let rest : ℚ := pos - base
    if getIdx a (base + 1) = undef then getIdx a base
    else add (getIdx a base) (mul (fin rest) (sub (getIdx a (base + 1)) (getIdx a base)))

/-- Source function `safeDiv(a, b)`. -/
def safeDiv (a b : JSNum) : JSNum :=
  if truthy b then div a b else nan

/-! ## Data model -/

/-- A JavaScript exception; the only one this code can raise is the `TypeError`
of a property read on `undefined`. -/
inductive JSError where
  | typeError
  deriving DecidableEq

/-- The four metrics. -/
inductive Metric where
  | revenue
  | impressions
  | clicks
  | sessions
  deriving DecidableEq

/-- An object with one field per metric (`{ revenue, impressions, clicks, sessions }`). -/
structure PerMetric (α : Type) where
  revenue : α
  impressions : α
  clicks : α
  sessions : α
  deriving DecidableEq

namespace PerMetric

variable {α β γ : Type}

/-- Field selection by metric. -/
def get (p : PerMetric α) : Metric → α
  | .revenue => p.revenue
  | .impressions => p.impressions
  | .clicks => p.clicks
  | .sessions => p.sessions

/-- The same value in all four fields. -/
def const (a : α) : PerMetric α := ⟨a, a, a, a⟩

/-- Field-wise application. -/
def map (f : α → β) (p : PerMetric α) : PerMetric β :=
  ⟨f p.revenue, f p.impressions, f p.clicks, f p.sessions⟩

/-- Field-wise combination. -/
def zipWith (f : α → β → γ) (p : PerMetric α) (q : PerMetric β) : PerMetric γ :=
  ⟨f p.revenue q.revenue, f p.impressions q.impressions, f p.clicks q.clicks,
    f p.sessions q.sessions⟩

end PerMetric

/-- One hourly slot `{ revenue, impressions, clicks, sessions }`. -/
abbrev HourlyMetrics := PerMetric JSNum

/-- An input row after the field lookups and `Number(…)` coercions of App.jsx 68-73:
`date` is `get('dh.date', 'date') || ''`, the other fields are the coerced numbers. -/
structure RawRow where
  date : String
  hour : JSNum
  metrics : PerMetric JSNum
  deriving DecidableEq

/-- A normalised row (App.jsx 74-81). -/
structure NormRow where
  date : String
  hour : JSNum
  metrics : HourlyMetrics
  deriving DecidableEq

/-- A day profile (App.jsx 89-95); `weekday` is the number `dayjs(date).day()`. -/
structure Day where
  date : String
  weekday : JSNum
  hours : List HourlyMetrics
  deriving DecidableEq

/-- Per-weekday accumulator (App.jsx 111-129). -/
structure Container where
  dayCount : ℕ
  dailyTotals : PerMetric (List JSNum)
  cumCompletion : PerMetric (List (List JSNum))
  hourly : PerMetric (List (List JSNum))
  share : PerMetric (List (List JSNum))
  deriving DecidableEq

/-- The object returned by `summarize`. -/
structure Summary where
  p25 : JSNum
  p50 : JSNum
  p75 : JSNum
  mean : JSNum
  std : JSNum
  deriving DecidableEq

/-- One entry `out[w]` of the result of `buildStats`. -/
structure WeekdayStats where
  dayCount : ℕ
  daily : PerMetric Summary
  hourly : PerMetric (List Summary)
  share : PerMetric (List Summary)
  cumCompletion : PerMetric (List Summary)
  deriving DecidableEq

/-! ## `buildStats` (App.jsx 56-225) -/

/-- The object built by the `.map` callback (App.jsx 74-81). -/
def normalize (r : RawRow) : NormRow :=
  { date := r.date.take 10
    hour := if isFinite r.hour then r.hour else nan
    metrics := r.metrics.map fun v => if isFinite v then v else fin 0 }

/-- The `.filter` predicate `r.date && r.hour >= 0 && r.hour <= 23`. -/
def keepRow (r : NormRow) : Bool :=
  r.date ≠ "" && ge r.hour (fin 0) && le r.hour (fin 23)

/-- The 24 zero slots of a fresh day (App.jsx 92-94). -/
def zeroHours : List HourlyMetrics := List.replicate 24 (PerMetric.const (fin 0))

/-- The assignment `d.hours[h] = v` for a number `h` that passed the filter: an
integral `h` overwrites slot `h`, a fractional `h` only adds a property that no
later read of slots `0..23` sees. -/
def setAt {α : Type} (a : List α) (h : JSNum) (v : α) : List α :=
  match h with
  | fin q => if q.den = 1 ∧ 0 ≤ q.num then a.set q.num.toNat v else a
  | _ => a

/-- Update of the day stored under `r.date` in the insertion-ordered map. -/
def updateDay (r : NormRow) : List Day → List Day
  | [] => []
  | d :: ds =>
    if d.date = r.date then { d with hours := setAt d.hours r.hour r.metrics } :: ds
    else d :: updateDay r ds

/-- One iteration of `for (const r of norm)` (App.jsx 87-104); `dayOfWeek date` is
`dayjs(date).day()`. -/
def addRow (dayOfWeek : String → JSNum) (byDate : List Day) (r : NormRow) : List Day :=
  let byDate1 :=
    if byDate.any (fun d => d.date = r.date) then byDate
    else byDate ++ [{ date := r.date, weekday := dayOfWeek r.date, hours := zeroHours }]
  updateDay r byDate1

/-- The array `days` (App.jsx 58-106). -/
def groupDays (dayOfWeek : String → JSNum) (rows : List RawRow) : List Day :=
  ((rows.map normalize).filter keepRow).foldl (addRow dayOfWeek) []

/-- A fresh container (App.jsx 111-129). -/
def emptyContainer : Container :=
  { dayCount := 0
    dailyTotals := PerMetric.const []
    cumCompletion := PerMetric.const (List.replicate 24 [])
    hourly := PerMetric.const (List.replicate 24 [])
    share := PerMetric.const (List.replicate 24 []) }

/-- The read `d.hours[h]` followed by a field read: a missing slot raises. -/
def hourSlot (d : Day) (h : ℕ) : Except JSError HourlyMetrics :=
  match d.hours.get? h with
  | some x => .ok x
  | none => .error .typeError

/-- The first hour loop (App.jsx 137-143): the daily totals. -/
def dayTotals (d : Day) : Except JSError (PerMetric JSNum) :=
  (List.range 24).foldlM
    (fun totals h => do
      let x ← hourSlot d h
      pure (PerMetric.zipWith add totals x))
    (PerMetric.const (fin 0))

/-- The call `table[h].push(v)`: a missing row raises. -/
def pushAt (table : List (List JSNum)) (h : ℕ) (v : JSNum) :
    Except JSError (List (List JSNum)) :=
  match table.get? h with
  | some row => .ok (table.set h (row ++ [v]))
  | none => .error .typeError

/-- The four pushes `table.<metric>[h].push(v.<metric>)`. -/
def pushAll (table : PerMetric (List (List JSNum))) (h : ℕ) (v : PerMetric JSNum) :
    Except JSError (PerMetric (List (List JSNum))) := do
  let r ← pushAt table.revenue h v.revenue
  let i ← pushAt table.impressions h v.impressions
  let c ← pushAt table.clicks h v.clicks
  let s ← pushAt table.sessions h v.sessions
  pure ⟨r, i, c, s⟩

/-- Body of the second hour loop (App.jsx 150-174); the state is the container
and the running sums `cum`. -/
def hourStep (d : Day) (totals : PerMetric JSNum) (st : Container × PerMetric JSNum)
    (h : ℕ) : Except JSError (Container × PerMetric JSNum) := do
  let x ← hourSlot d h
  let hourly ← pushAll st.1.hourly h x
  let share ← pushAll st.1.share h (PerMetric.zipWith safeDiv x totals)
  let cum := PerMetric.zipWith add st.2 x
  let cumCompletion ← pushAll st.1.cumCompletion h (PerMetric.zipWith safeDiv cum totals)
  pure ({ st.1 with hourly := hourly, share := share, cumCompletion := cumCompletion }, cum)

/-- Body of `for (const d of days)` on the container of the day (App.jsx 135-174). -/
def accumulateDay (container : Container) (d : Day) : Except JSError Container := do
  let c1 := { container with dayCount := container.dayCount + 1 }
  let totals ← dayTotals d
  let c2 :=
    { c1 with dailyTotals := PerMetric.zipWith (fun l v => l ++ [v]) c1.dailyTotals totals }
  let st ← (List.range 24).foldlM (hourStep d totals) (c2, PerMetric.const (fin 0))
  pure st.1

/-- One iteration of `for (const d of days)` (App.jsx 132-175): `stats[d.weekday]`
is `undefined` unless the weekday is one of `0..6`, and the update then raises. -/
def processDay (stats : List Container) (d : Day) : Except JSError (List Container) :=
  match getAt stats d.weekday with
  | none => .error .typeError
  | some container => do
    let c ← accumulateDay container d
    pure (setAt stats d.weekday c)

/-- The closure `summarize` (App.jsx 178-191). -/
def summarize (sqrtQ : ℚ → ℚ) (arr : List JSNum) : Summary :=
  let mean := if arr.length ≠ 0 then div (arr.foldl add (fin 0)) (fin arr.length) else nan
  let variance :=
    if arr.length ≠ 0 then
      div (arr.foldl (fun a b => add a (pow2 (sub b mean))) (fin 0)) (fin arr.length)
    else nan
  let std := if isFinite variance then sqrt sqrtQ variance else nan
  { p25 := quantile arr (1 / 4)
    p50 := quantile arr (1 / 2)
    p75 := quantile arr (3 / 4)
    mean := mean
    std := std }

/-- The expression `Array.from({length:24}, (_,h) => summarize(table[h]))`; `summarize`
of a missing row equals `summarize` of the empty array. -/
def summarizeTable (sqrtQ : ℚ → ℚ) (table : List (List JSNum)) : List Summary :=
  (List.range 24).map fun h => summarize sqrtQ (table.getD h [])

/-- The object `out[w]` built from the container `stats[w]` (App.jsx 196-222). -/
def summarizeContainer (sqrtQ : ℚ → ℚ) (s : Container) : WeekdayStats :=
  { dayCount := s.dayCount
    daily := s.dailyTotals.map (summarize sqrtQ)
    hourly := s.hourly.map (summarizeTable sqrtQ)
    share := s.share.map (summarizeTable sqrtQ)
    cumCompletion := s.cumCompletion.map (summarizeTable sqrtQ) }

/-- Source function `buildStats(rows)`; entry `w` of the result is `out[w]`. -/
def buildStats (dayOfWeek : String → JSNum) (sqrtQ : ℚ → ℚ) (rows : List RawRow) :
    Except JSError (List WeekdayStats) := do
  let days := groupDays dayOfWeek rows
  let stats ← days.foldlM processDay (List.replicate 7 emptyContainer)
  pure (stats.map (summarizeContainer sqrtQ))

/-! ## The `forecast` computation (App.jsx 327-476) -/

/-- The badge tones. -/
inductive Tone where
  | neutral
  | good
  | bad
  deriving DecidableEq

/-- The three values of `pacingLabel`: `On pace`, `Ahead of pace`, `Behind pace`. -/
inductive PacingLabel where
  | onPace
  | aheadOfPace
  | behindPace
  deriving DecidableEq

/-- What a warning is about: a traffic metric, revenue per session or revenue per click. -/
inductive WarningKind where
  | traffic (m : Metric)
  | revenuePerSession
  | revenuePerClick
  deriving DecidableEq

/-- A warning `{ tone, msg }`.  The message text is represented by the data it is
formatted from: its subject, whether it reads `below`/`lower` (else `above`/`higher`),
the magnitude `Math.abs(x * 100)` and, for traffic warnings, the hour. -/
structure Warning where
  tone : Tone
  kind : WarningKind
  below : Bool
  magnitude : JSNum
  hour : JSNum
  deriving DecidableEq

/-- One element of `hourRows`. -/
structure HourRow where
  hour : ℕ
  expCumRev : JSNum
  expHourRev : JSNum
  cumLow : JSNum
  cumHigh : JSNum
  hourLow : JSNum
  hourHigh : JSNum
  expCumImpr : JSNum
  expCumClicks : JSNum
  expCumSessions : JSNum
  deriving DecidableEq

/-- The object returned by the `forecast` computation. -/
structure Forecast where
  hourSelected : JSNum
  hour : JSNum
  eod : JSNum
  low : JSNum
  high : JSNum
  expectedByNow : JSNum
  delta : JSNum
  deltaPct : JSNum
  pacingTone : Tone
  pacingLabel : PacingLabel
  warnings : List Warning
  hourRows : List HourRow
  deriving DecidableEq

/-- The object `has` (App.jsx 334-339), one field at a time. -/
def has (v : JSNum) : Bool := isFinite v && gt v (fin 0)

/-- The effective hour `h` (App.jsx 343-344); `hour` is `Number(hour)`. -/
def effectiveHour (hour : JSNum) (includeCurrentHour : Bool) : JSNum :=
  let hSelected := JSNum.max (fin 0) (JSNum.min (fin 23) hour)
  if includeCurrentHour then hSelected else JSNum.max (fin 0) (sub hSelected (fin 1))

/-- A read `table[h]` whose result is dereferenced: a missing element raises. -/
def summaryAt (table : List Summary) (h : JSNum) : Except JSError Summary :=
  match getAt table h with
  | some s => .ok s
  | none => .error .typeError

/-- The pacing verdict (App.jsx 359-365). -/
def pacing (deltaPct : JSNum) : Tone × PacingLabel :=
  if isFinite deltaPct then
    if gt deltaPct (fin (5 / 100)) then (.good, .aheadOfPace)
    else if lt deltaPct (fin (-5 / 100)) then (.bad, .behindPace)
    else (.neutral, .onPace)
  else (.neutral, .onPace)

/-- One iteration of `for (const t of trafficChecks)` (App.jsx 374-386): the
warnings it pushes. -/
def trafficCheck (wStats : WeekdayStats) (inputs : PerMetric JSNum) (h : JSNum) (m : Metric) :
    Except JSError (List Warning) :=
  if has (inputs.get m) then do
    let s ← summaryAt (wStats.cumCompletion.get m) h
    let cumT := s.p50
    let expectedTByNow := mul (wStats.daily.get m).mean cumT
    let dT := sub (inputs.get m) expectedTByNow
    let dTPct := safeDiv dT expectedTByNow
    if isFinite dTPct && ge (JSNum.abs dTPct) (fin (8 / 100)) then
      pure [{ tone := if lt dTPct (fin 0) then .bad else .good
              kind := .traffic m
              below := lt dTPct (fin 0)
              magnitude := JSNum.abs (mul dTPct (fin 100))
              hour := h }]
    else pure []
  else pure []

/-- An efficiency check (App.jsx 389-399 for sessions, 400-410 for clicks). -/
def efficiencyCheck (wStats : WeekdayStats) (inputs : PerMetric JSNum) (h : JSNum)
    (m : Metric) (kind : WarningKind) : List Warning :=
  if has (inputs.get m) then
    let r := div inputs.revenue (inputs.get m)
    let hist := safeDiv wStats.daily.revenue.mean (wStats.daily.get m).mean
    let diff := safeDiv (sub r hist) hist
    if isFinite diff && ge (JSNum.abs diff) (fin (10 / 100)) then
      [{ tone := if lt diff (fin 0) then .bad else .good
         kind := kind
         below := lt diff (fin 0)
         magnitude := JSNum.abs (mul diff (fin 100))
         hour := h }]
    else []
  else []

/-- The warning layer (App.jsx 368-410). -/
def warningsOf (wStats : WeekdayStats) (inputs : PerMetric JSNum) (h : JSNum) :
    Except JSError (List Warning) := do
  let w1 ← trafficCheck wStats inputs h .impressions
  let w2 ← trafficCheck wStats inputs h .clicks
  let w3 ← trafficCheck wStats inputs h .sessions
  pure (w1 ++ w2 ++ w3
    ++ efficiencyCheck wStats inputs h .sessions .revenuePerSession
    ++ efficiencyCheck wStats inputs h .clicks .revenuePerClick)

/-- The closure `clamp01` (App.jsx 414). -/
def clamp01 (x : JSNum) : JSNum := JSNum.max (fin 0) (JSNum.min (fin 1) x)

/-- The expression `isFinite(x) ? x : 0`. -/
def finiteOrZero (x : JSNum) : JSNum := if isFinite x then x else fin 0

/-- The computation of one table row (App.jsx 425-464) from the five summaries read
for hour `hh` and the running traffic sums `cum`; returns the row and the new sums. -/
def hourRowOf (cumR shareR sImpr sClicks sSessions : Summary) (eod : JSNum)
    (cum : JSNum × JSNum × JSNum) (hh : ℕ) : HourRow × (JSNum × JSNum × JSNum) :=
  let cum50 := cumR.p50
  let hour50 := shareR.p50
  let cumMean := cumR.mean
  let cumStd := cumR.std
  let hourMean := shareR.mean
  let hourStd := shareR.std
  let expCumRev := mul eod cum50
  let expHourRev := mul eod hour50
  let cumLow := mul eod (clamp01 (sub cumMean (finiteOrZero cumStd)))
  let cumHigh := mul eod (clamp01 (add cumMean (finiteOrZero cumStd)))
  let hourLow := mul eod (clamp01 (sub hourMean (finiteOrZero hourStd)))
  let hourHigh := mul eod (clamp01 (add hourMean (finiteOrZero hourStd)))
  let cumImpr := add cum.1 (finiteOrZero sImpr.mean)
  let cumClicks := add cum.2.1 (finiteOrZero sClicks.mean)
  let cumSessions := add cum.2.2 (finiteOrZero sSessions.mean)
  ({ hour := hh
     expCumRev := expCumRev
     expHourRev := expHourRev
     cumLow := cumLow
     cumHigh := cumHigh
     hourLow := hourLow
     hourHigh := hourHigh
     expCumImpr := cumImpr
     expCumClicks := cumClicks
     expCumSessions := cumSessions }, (cumImpr, cumClicks, cumSessions))

/-- Body of the table loop (App.jsx 421-464): the five reads at hour `hh`, each of
which raises on a missing element, then the row. -/
def hourRow (wStats : WeekdayStats) (eod : JSNum) (cum : JSNum × JSNum × JSNum) (hh : ℕ) :
    Except JSError (HourRow × (JSNum × JSNum × JSNum)) := do
  let cumR ← summaryAt wStats.cumCompletion.revenue (fin hh)
  let shareR ← summaryAt wStats.share.revenue (fin hh)
  let sImpr ← summaryAt wStats.hourly.impressions (fin hh)
  let sClicks ← summaryAt wStats.hourly.clicks (fin hh)
  let sSessions ← summaryAt wStats.hourly.sessions (fin hh)
  pure (hourRowOf cumR shareR sImpr sClicks sSessions eod cum hh)

/-- The table loop over the hours `hs`, starting from the running sums `cum`. -/
def hourRowsFrom (wStats : WeekdayStats) (eod : JSNum) :
    List ℕ → JSNum × JSNum × JSNum → Except JSError (List HourRow)
  | [], _ => pure []
  | hh :: rest, cum => do
    let (row, cum1) ← hourRow wStats eod cum hh
    let rows ← hourRowsFrom wStats eod rest cum1
    pure (row :: rows)

/-- The array `rows` (App.jsx 415-465). -/
def hourRows (wStats : WeekdayStats) (eod : JSNum) : Except JSError (List HourRow) :=
  hourRowsFrom wStats eod (List.range 24) (fin 0, fin 0, fin 0)

/-- The `forecast` computation (App.jsx 341-476).  `wStats` is `none` when no
statistics are loaded, `hour` is `Number(hour)` and `inputs` holds the four
`Number(…)` of the so-far fields; the result `none` is `null`. -/
def forecast (wStats : Option WeekdayStats) (hour : JSNum) (includeCurrentHour : Bool)
    (inputs : PerMetric JSNum) : Except JSError (Option Forecast) :=
  match wStats with
  | none => pure none
  | some wStats =>
    if !has inputs.revenue then pure none
    else do
      let hSelected := JSNum.max (fin 0) (JSNum.min (fin 23) hour)
      let h := effectiveHour hour includeCurrentHour
      let cr ← summaryAt wStats.cumCompletion.revenue h
      let cr50 := cr.p50
      let cr25 := cr.p25
      let cr75 := cr.p75
      let eod := div inputs.revenue cr50
      let low := div inputs.revenue cr75
      let high := div inputs.revenue cr25
      let avgDaily := wStats.daily.revenue.mean
      let expectedByNow := mul avgDaily cr50
      let delta := sub inputs.revenue expectedByNow
      let deltaPct := safeDiv delta expectedByNow
      let verdict := pacing deltaPct
      let warnings ← warningsOf wStats inputs h
      let rows ← hourRows wStats eod
      pure (some
        { hourSelected := hSelected
          hour := h
          eod := eod
          low := low
          high := high
          expectedByNow := expectedByNow
          delta := delta
          deltaPct := deltaPct
          pacingTone := verdict.1
          pacingLabel := verdict.2
          warnings := warnings
          hourRows := rows })

/-- Well-formedness of a statistics entry: every per-hour array has 24 elements,
as `buildStats` builds them. -/
def WeekdayStats.WellFormed (w : WeekdayStats) : Prop :=
  ∀ m : Metric, (w.hourly.get m).length = 24 ∧ (w.share.get m).length = 24 ∧
    (w.cumCompletion.get m).length = 24

/-- An hour slot `0..23` as a number. -/
def IsHourSlot (h : JSNum) : Prop := ∃ n : ℕ, n < 24 ∧ h = fin (n : ℚ)

/-! ## Fixtures for concrete instances -/

/-- A summary with all three quantiles `p`, mean `mean` and standard deviation `0`. -/
def flatSummary (p mean : JSNum) : Summary :=
  { p25 := p, p50 := p, p75 := p, mean := mean, std := fin 0 }

/-- A statistics entry over three days with the same summary `cum` of the revenue
completion at every hour, `daily` as the daily revenue summary and zero traffic. -/
def uniformStats (daily cum : Summary) : WeekdayStats :=
  { dayCount := 3
    daily := ⟨daily, flatSummary (fin 0) (fin 0), flatSummary (fin 0) (fin 0),
      flatSummary (fin 0) (fin 0)⟩
    hourly := PerMetric.const (List.replicate 24 (flatSummary (fin 0) (fin 0)))
    share := PerMetric.const (List.replicate 24 (flatSummary (fin 0) (fin 0)))
    cumCompletion := ⟨List.replicate 24 cum, List.replicate 24 (flatSummary (fin 1) (fin 1)),
      List.replicate 24 (flatSummary (fin 1) (fin 1)),
      List.replicate 24 (flatSummary (fin 1) (fin 1))⟩ }

/-- The so-far inputs with only revenue entered (`Number('')` is `0` for the rest). -/
def revenueOnly (r : JSNum) : PerMetric JSNum := ⟨r, fin 0, fin 0, fin 0⟩

/-! ## Auxiliary notions for the per-day accumulation -/

/-- Well-formedness of a container: every per-hour table has its 24 rows, as
App.jsx 115-128 create them. -/
def Container.WellFormed (c : Container) : Prop :=
  ∀ m : Metric, (c.hourly.get m).length = 24 ∧ (c.share.get m).length = 24 ∧
    (c.cumCompletion.get m).length = 24

/-- Field-wise sum of a sequence of hourly slots, from `0`, in order. -/
def sumSlots (xs : List HourlyMetrics) : PerMetric JSNum :=
  xs.foldl (PerMetric.zipWith add) (PerMetric.const (fin 0))

/-- The slot of hour `h` of a day (all-zero outside the array; only read inside). -/
def Day.slot (d : Day) (h : ℕ) : HourlyMetrics := d.hours.getD h (PerMetric.const (fin 0))

/-- The table after one push: one more value in row `h`, the other rows unchanged. -/
def pushed (table : List (List JSNum)) (h : ℕ) (v : JSNum) : List (List JSNum) :=
  table.set h (table.getD h [] ++ [v])

/-- A day of the reference scenario: revenue 10 in each of the hours 0..9, nothing in
the hours 10..23, and no traffic. -/
def scenarioDay (date : String) (weekday : JSNum) : Day :=
  { date := date
    weekday := weekday
    hours := List.replicate 10 ⟨fin 10, fin 0, fin 0, fin 0⟩ ++
      List.replicate 14 (PerMetric.const (fin 0)) }

/-! ## The day series and the backtest (App.jsx 293-325, 478-505) -/

/-- One element of `daySeries` (App.jsx 311-316). -/
structure SeriesDay where
  date : String
  weekday : JSNum
  revenueByHour : List JSNum
  totalRevenue : JSNum
  deriving DecidableEq

/-- One element of the backtest `results` (App.jsx 502); `samples` is the sample count. -/
structure BacktestRow where
  hourSelected : ℤ
  effectiveHour : ℤ
  samples : ℕ
  mape : JSNum
  bias : JSNum
  deriving DecidableEq

/-- The operator `===` on numbers: `NaN` equals nothing. -/
def strictEq : JSNum → JSNum → Bool
  | fin a, fin b => decide (a = b)
  | posInf, posInf => true
  | negInf, negInf => true
  | undef, undef => true
  | _, _ => false

/-- Update of the series day stored under `date`: `d.revenueByHour[hour] = revenue`. -/
def updateSeriesDay (date : String) (hour revenue : JSNum) : List SeriesDay → List SeriesDay
  | [] => []
  | d :: ds =>
    if d.date = date then { d with revenueByHour := setAt d.revenueByHour hour revenue } :: ds
    else d :: updateSeriesDay date hour revenue ds

/-- One iteration of `for (const r of rawRows)` (App.jsx 297-320); the row fields are the
same lookups and coercions as in `buildStats`, and `Number(…) || 0` keeps a truthy number. -/
def seriesAddRow (dayOfWeek : String → JSNum) (byDate : List SeriesDay) (r : RawRow) :
    List SeriesDay :=
  let date := r.date.take 10
  let hour := r.hour
  if date = "" || !(ge hour (fin 0) && le hour (fin 23)) then byDate
  else
    let revenue := if truthy r.metrics.revenue then r.metrics.revenue else fin 0
    let byDate1 :=
      if byDate.any (fun d => d.date = date) then byDate
      else byDate ++ [{ date := date, weekday := dayOfWeek date,
                        revenueByHour := List.replicate 24 (fin 0), totalRevenue := fin 0 }]
    updateSeriesDay date hour revenue byDate1

/-- The memo `daySeries` (App.jsx 294-325); `none` is `null`. -/
def daySeries (dayOfWeek : String → JSNum) (rawRows : Option (List RawRow)) :
    Option (List SeriesDay) :=
  match rawRows with
  | none => none
  | some rows =>
    some ((rows.foldl (seriesAddRow dayOfWeek) []).map fun d =>
      { d with totalRevenue := d.revenueByHour.foldl add (fin 0) })

/-- The array `checkpoints` (App.jsx 484). -/
def checkpoints : List ℤ := [6, 9, 12, 15, 18, 21]

/-- The effective hour of a checkpoint (App.jsx 487), in integer arithmetic. -/
def backtestHour (includeCurrentHour : Bool) (hourSelected : ℤ) : ℤ :=
  if includeCurrentHour then hourSelected else Max.max 0 (hourSelected - 1)

/-- The expression `wStats.cumCompletion.revenue[effectiveHour]?.p50` (App.jsx 488). -/
def medianAt (wStats : WeekdayStats) (effectiveHour : ℤ) : JSNum :=
  if 0 ≤ effectiveHour then
    match wStats.cumCompletion.revenue.get? effectiveHour.toNat with
    | some s => s.p50
    | none => undef
  else undef

/-- The revenue so far of a day (App.jsx 493):
`d.revenueByHour.slice(0, effectiveHour + 1).reduce((a, b) => a + b, 0)`. -/
def soFar (d : SeriesDay) (effectiveHour : ℤ) : JSNum :=
  (d.revenueByHour.take (effectiveHour + 1).toNat).foldl add (fin 0)

/-- The error a day contributes to `errs` (App.jsx 493-497), if it contributes. -/
def dayError (cr50 : JSNum) (effectiveHour : ℤ) (d : SeriesDay) : Option JSNum :=
  if !(gt (soFar d effectiveHour) (fin 0)) then none
  else
    let pred := div (soFar d effectiveHour) cr50
    let err := safeDiv (sub pred d.totalRevenue) d.totalRevenue
    if isFinite err then some err else none

/-- Body of `for (const hourSelected of checkpoints)` (App.jsx 487-502): the row pushed,
if any. -/
def backtestRow (wStats : WeekdayStats) (days : List SeriesDay) (includeCurrentHour : Bool)
    (hourSelected : ℤ) : Option BacktestRow :=
  let effectiveHour := backtestHour includeCurrentHour hourSelected
  let cr50 := medianAt wStats effectiveHour
  if !isFinite cr50 || le cr50 (fin 0) then none
  else
    let errs := days.filterMap (dayError cr50 effectiveHour)
    if errs.length = 0 then none
    else
      some { hourSelected := hourSelected
             effectiveHour := effectiveHour
             samples := errs.length
             mape := div (errs.foldl (fun a e => add a (JSNum.abs e)) (fin 0)) (fin errs.length)
             bias := div (errs.foldl add (fin 0)) (fin errs.length) }

/-- The days kept by `daySeries.filter(…)` (App.jsx 481). -/
def qualifyingDays (ds : List SeriesDay) (weekday : JSNum) : List SeriesDay :=
  ds.filter fun d => strictEq d.weekday weekday && gt d.totalRevenue (fin 0)

/-- The memo `backtest` (App.jsx 479-505); `none` is `null`.  Every read in it is on an
object that exists or is guarded by `?.`, so it raises nothing. -/
def backtest (daySeries : Option (List SeriesDay)) (wStats : Option WeekdayStats)
    (weekday : JSNum) (includeCurrentHour : Bool) : Option (List BacktestRow) :=
  match daySeries, wStats with
  | some ds, some w =>
    let days := qualifyingDays ds weekday
    if days.length < 3 then none
    else
      let results := checkpoints.filterMap (backtestRow w days includeCurrentHour)
      if results.length = 0 then none else some results
  | _, _ => none

/-! ## Closed forms used in the statements -/

/-- The object with field `f m` for each metric `m`. -/
def PerMetric.ofFn {α : Type} (f : Metric → α) : PerMetric α :=
  ⟨f .revenue, f .impressions, f .clicks, f .sessions⟩

/-- The retained records of an input: the normalised rows that pass the filter. -/
def retained (rows : List RawRow) : List NormRow := (rows.map normalize).filter keepRow

/-- The distinct dates of a list of records, in order of first occurrence. -/
def datesOf (norm : List NormRow) : List String :=
  norm.foldl (fun acc r => if r.date ∈ acc then acc else acc ++ [r.date]) []

/-- The last record for a date and an hour slot, if any. -/
def lastFor (norm : List NormRow) (date : String) (h : ℕ) : Option NormRow :=
  (norm.filter fun r => r.date = date ∧ r.hour = fin (h : ℚ)).getLast?

/-- The metrics of the last record for a date and an hour slot, all-zero if there is none. -/
def slotOf (norm : List NormRow) (date : String) (h : ℕ) : HourlyMetrics :=
  match lastFor norm date h with
  | some r => r.metrics
  | none => PerMetric.const (fin 0)

/-- The day profile of a date: its weekday and its 24 slots. -/
def dayOf (dayOfWeek : String → JSNum) (norm : List NormRow) (date : String) : Day :=
  { date := date, weekday := dayOfWeek date, hours := (List.range 24).map (slotOf norm date) }

/-- The container holding, in order, what the days `ds` contribute. -/
def containerOf (ds : List Day) : Container :=
  { dayCount := ds.length
    dailyTotals := PerMetric.ofFn fun m => ds.map fun d => (sumSlots d.hours).get m
    cumCompletion := PerMetric.ofFn fun m => (List.range 24).map fun k => ds.map fun d =>
      safeDiv ((sumSlots (d.hours.take (k + 1))).get m) ((sumSlots d.hours).get m)
    hourly := PerMetric.ofFn fun m => (List.range 24).map fun k => ds.map fun d =>
      (d.slot k).get m
    share := PerMetric.ofFn fun m => (List.range 24).map fun k => ds.map fun d =>
      safeDiv ((d.slot k).get m) ((sumSlots d.hours).get m) }

/-- The days of weekday `w`, in order. -/
def bucket (days : List Day) (w : ℕ) : List Day :=
  days.filter fun d => d.weekday = fin (w : ℚ)

/-- The seven containers after the days `days` were processed. -/
def statsOf (days : List Day) : List Container :=
  (List.range 7).map fun w => containerOf (bucket days w)

/-- The rational value of a finite number (`0` for the others). -/
def JSNum.toRat : JSNum → ℚ
  | fin q => q
  | _ => 0

/-- The records of the reference scenario: three dates of the same weekday, each with
revenue 10 in the hours 0..9 and no record for the hours 10..23. -/
def scenarioRows : List RawRow :=
  (["2024-01-01", "2024-01-08", "2024-01-15"].map fun date =>
    (List.range 10).map fun h =>
      ({ date := date, hour := fin (h : ℚ), metrics := ⟨fin 10, fin 0, fin 0, fin 0⟩ } :
        RawRow)).flatten

/-- A weekday function that derives no weekday from the string `not a date` and Monday
from every other string. -/
def mondayUnlessInvalid (date : String) : JSNum :=
  if date = "not a date" then nan else fin 1

/-- Three single-record days of one weekday; the first has no sessions, so its sessions
ratios are `NaN`. -/
def mixedRows : List RawRow :=
  [⟨"2024-01-01", fin 0, ⟨fin 10, fin 100, fin 10, fin 0⟩⟩,
   ⟨"2024-01-08", fin 0, ⟨fin 10, fin 100, fin 10, fin 5⟩⟩,
   ⟨"2024-01-15", fin 0, ⟨fin 10, fin 100, fin 10, fin 5⟩⟩]

/-- The records of `mixedRows` with the first two exchanged. -/
def mixedRowsSwapped : List RawRow :=
  [⟨"2024-01-08", fin 0, ⟨fin 10, fin 100, fin 10, fin 5⟩⟩,
   ⟨"2024-01-01", fin 0, ⟨fin 10, fin 100, fin 10, fin 0⟩⟩,
   ⟨"2024-01-15", fin 0, ⟨fin 10, fin 100, fin 10, fin 5⟩⟩]

/-- The sessions completion median at hour 0 of the Monday entry of a result, when the
result has one. -/
def mondaySessionsMedian (r : Except JSError (List WeekdayStats)) : Option JSNum :=
  match r with
  | .ok out => ((out.get? 1).bind fun e => e.cumCompletion.sessions.get? 0).map fun s => s.p50
  | .error _ => none

/-- A statistics entry with traffic: mean daily revenue 100, impressions 1000, clicks 100
and sessions 10, every revenue completion quantile `1/2` and every traffic completion
quantile `1` at every hour. -/
def trafficStats : WeekdayStats :=
  { uniformStats (flatSummary (fin 100) (fin 100)) (flatSummary (fin (1 / 2)) (fin (1 / 2))) with
    daily := ⟨flatSummary (fin 100) (fin 100), flatSummary (fin 1000) (fin 1000),
      flatSummary (fin 100) (fin 100), flatSummary (fin 10) (fin 10)⟩ }

/-- The relative deviation of an observed traffic metric as the specification words it:
`(observed - expected) / expected` with `expected = mean daily total * p50` of the
metric's own cumulative completion summary `s`, by plain division. -/
def specDeviationPct (w : WeekdayStats) (inputs : PerMetric JSNum) (m : Metric) (s : Summary) :
    JSNum :=
  let expected := mul (w.daily.get m).mean s.p50
  div (sub (inputs.get m) expected) expected

/-- The relative efficiency difference as the specification words it:
`(revenueSoFar / observed - hist) / hist` with `hist = mean daily revenue / mean daily
total` of the metric, by plain division. -/
def specEfficiencyDiff (w : WeekdayStats) (inputs : PerMetric JSNum) (m : Metric) : JSNum :=
  let hist := div w.daily.revenue.mean (w.daily.get m).mean
  div (sub (div inputs.revenue (inputs.get m)) hist) hist

/-- Four days of one weekday for the backtest: three days of the reference scenario
(revenue 10 in the hours 0..9, total 100) and one day whose revenue of 100 arrives at
hour 20. -/
def backtestDays : List SeriesDay :=
  [⟨"2024-01-01", fin 1, List.replicate 10 (fin 10) ++ List.replicate 14 (fin 0), fin 100⟩,
   ⟨"2024-01-08", fin 1, List.replicate 10 (fin 10) ++ List.replicate 14 (fin 0), fin 100⟩,
   ⟨"2024-01-15", fin 1, List.replicate 10 (fin 10) ++ List.replicate 14 (fin 0), fin 100⟩,
   ⟨"2024-01-22", fin 1, List.replicate 20 (fin 0) ++ [fin 100, fin 0, fin 0, fin 0], fin 100⟩]

/-- Two records: one of a Monday and one whose date is the text `not a date`, with an hour
and metrics like any other record. -/
def invalidDateRows : List RawRow :=
  [⟨"2024-01-01", fin 3, ⟨fin 20, fin 200, fin 10, fin 5⟩⟩,
   ⟨"not a date", fin 5, ⟨fin 7, fin 70, fin 3, fin 2⟩⟩]

/-- The value of `quantile` at `q` on an ascending list `s` of rationals: the element at
`base = ⌊(n - 1) q⌋`, moved towards the next element by the fractional part of
`(n - 1) q` when there is a next element. -/
def quantileQ (s : List ℚ) (q : ℚ) : ℚ :=
  if ⌊((s.length : ℚ) - 1) * q⌋₊ + 1 < s.length then
    s.getD ⌊((s.length : ℚ) - 1) * q⌋₊ 0 +
      (((s.length : ℚ) - 1) * q - (⌊((s.length : ℚ) - 1) * q⌋₊ : ℚ)) *
        (s.getD (⌊((s.length : ℚ) - 1) * q⌋₊ + 1) 0 - s.getD ⌊((s.length : ℚ) - 1) * q⌋₊ 0)
  else s.getD ⌊((s.length : ℚ) - 1) * q⌋₊ 0

/-- The cumulative completion ratio of revenue that a day contributes at hour `k`, as a
rational (`0` when the ratio is not a finite number). -/
def completionOf (d : Day) (k : ℕ) : ℚ :=
  (safeDiv (sumSlots (d.hours.take (k + 1))).revenue (sumSlots d.hours).revenue).toRat

/-- One day of a Monday whose only record is revenue 10 at hour 5: nothing is earned in
the hours 0..4. -/
def lateRevenueRows : List RawRow :=
  [⟨"2024-01-01", fin 5, ⟨fin 10, fin 0, fin 0, fin 0⟩⟩]

/-- Three days of one weekday that earn at different speeds: revenue 10 in each of the
hours `0..4` on the first date, `0..9` on the second and `0..19` on the third. -/
def rampRows : List RawRow :=
  ([("2024-01-01", 5), ("2024-01-08", 10), ("2024-01-15", 20)].map fun p =>
    (List.range p.2).map fun h =>
      ({ date := p.1, hour := fin (h : ℚ), metrics := ⟨fin 10, fin 0, fin 0, fin 0⟩ } :
        RawRow)).flatten

/-- The relative error of a day at the effective hour against the median `cr50`
(App.jsx 494-496): `safeDiv(soFar / cr50 - total, total)`. -/
def relativeError (cr50 : JSNum) (effectiveHour : ℤ) (d : SeriesDay) : JSNum :=
  safeDiv (sub (div (soFar d effectiveHour) cr50) d.totalRevenue) d.totalRevenue

/-- The days whose error enters `errs` (App.jsx 492-498): the qualifying days with
`soFar > 0` and a finite relative error. -/
def includedDays (ds : List SeriesDay) (weekday cr50 : JSNum) (effectiveHour : ℤ) :
    List SeriesDay :=
  (qualifyingDays ds weekday).filter fun d =>
    gt (soFar d effectiveHour) (fin 0) && isFinite (relativeError cr50 effectiveHour d)

/-- The records of the reference scenario followed by a fourth date of the same weekday
with revenue 10 at hour 0 and the revenue cell `Infinity` at hour 20. -/
def infiniteRevenueRows : List RawRow :=
  scenarioRows ++
    [⟨"2024-01-22", fin 0, ⟨fin 10, fin 0, fin 0, fin 0⟩⟩,
     ⟨"2024-01-22", fin 20, ⟨posInf, fin 0, fin 0, fin 0⟩⟩]

/-- The day series of `infiniteRevenueRows`: three days with revenue 10 in the hours 0..9
and total 100, and the day with an infinite revenue at hour 20, whose total is
`+Infinity`. -/
def infiniteRevenueDays : List SeriesDay :=
  [⟨"2024-01-01", fin 1, List.replicate 10 (fin 10) ++ List.replicate 14 (fin 0), fin 100⟩,
   ⟨"2024-01-08", fin 1, List.replicate 10 (fin 10) ++ List.replicate 14 (fin 0), fin 100⟩,
   ⟨"2024-01-15", fin 1, List.replicate 10 (fin 10) ++ List.replicate 14 (fin 0), fin 100⟩,
   ⟨"2024-01-22", fin 1,
     [fin 10] ++ List.replicate 19 (fin 0) ++ [posInf, fin 0, fin 0, fin 0], posInf⟩]

/-! ## Basic lemmas -/

@[simp] theorem PerMetric.get_zipWith {α β γ : Type} (f : α → β → γ) (p : PerMetric α)
    (q : PerMetric β) (m : Metric) : (PerMetric.zipWith f p q).get m = f (p.get m) (q.get m) := by
  cases m <;> rfl

@[simp] theorem PerMetric.get_map {α β : Type} (f : α → β) (p : PerMetric α) (m : Metric) :
    (PerMetric.map f p).get m = f (p.get m) := by
  cases m <;> rfl

@[simp] theorem PerMetric.get_const {α : Type} (a : α) (m : Metric) :
    (PerMetric.const a).get m = a := by
  cases m <;> rfl

theorem getAt_natCast {α : Type} (a : List α) (n : ℕ) : getAt a (fin (n : ℚ)) = a.get? n := by
  simp [getAt]

theorem summaryAt_natCast (table : List Summary) (n : ℕ) (hn : n < table.length) :
    summaryAt table (fin (n : ℚ)) = .ok table[n] := by
  simp [summaryAt, getAt_natCast, List.getElem?_eq_getElem hn]

theorem uniformStats_wellFormed (daily cum : Summary) : (uniformStats daily cum).WellFormed := by
  intro m
  cases m <;> simp [uniformStats, PerMetric.get, PerMetric.const]

/-! ## The forecast on a well-formed entry -/

theorem trafficCheck_ok (w : WeekdayStats) (hw : w.WellFormed) (inputs : PerMetric JSNum)
    (n : ℕ) (hn : n < 24) (m : Metric) :
    ∃ ws, trafficCheck w inputs (fin (n : ℚ)) m = .ok ws := by
  have hlen : n < (w.cumCompletion.get m).length := by rw [(hw m).2.2]; exact hn
  unfold trafficCheck
  split
  · rw [summaryAt_natCast _ _ hlen]
    simp only [bind, Except.bind]
    split <;> exact ⟨_, rfl⟩
  · exact ⟨_, rfl⟩

theorem warningsOf_ok (w : WeekdayStats) (hw : w.WellFormed) (inputs : PerMetric JSNum)
    (n : ℕ) (hn : n < 24) :
    ∃ ws, warningsOf w inputs (fin (n : ℚ)) = .ok ws := by
  obtain ⟨w1, h1⟩ := trafficCheck_ok w hw inputs n hn .impressions
  obtain ⟨w2, h2⟩ := trafficCheck_ok w hw inputs n hn .clicks
  obtain ⟨w3, h3⟩ := trafficCheck_ok w hw inputs n hn .sessions
  unfold warningsOf
  rw [h1, h2, h3]
  exact ⟨_, rfl⟩

/-- On a well-formed entry the five reads of the table loop at an hour below 24
succeed and the row is the one `hourRowOf` computes. -/
theorem hourRow_ok (w : WeekdayStats) (hw : w.WellFormed) (eod : JSNum)
    (cum : JSNum × JSNum × JSNum) (hh : ℕ) (hh24 : hh < 24) :
    ∃ cumR shareR sI sC sS,
      w.cumCompletion.revenue.get? hh = some cumR ∧ w.share.revenue.get? hh = some shareR ∧
      w.hourly.impressions.get? hh = some sI ∧ w.hourly.clicks.get? hh = some sC ∧
      w.hourly.sessions.get? hh = some sS ∧
      hourRow w eod cum hh = .ok (hourRowOf cumR shareR sI sC sS eod cum hh) := by
  have h1 : hh < w.cumCompletion.revenue.length := by
    have := (hw .revenue).2.2; simp only [PerMetric.get] at this; omega
  have h2 : hh < w.share.revenue.length := by
    have := (hw .revenue).2.1; simp only [PerMetric.get] at this; omega
  have h3 : hh < w.hourly.impressions.length := by
    have := (hw .impressions).1; simp only [PerMetric.get] at this; omega
  have h4 : hh < w.hourly.clicks.length := by
    have := (hw .clicks).1; simp only [PerMetric.get] at this; omega
  have h5 : hh < w.hourly.sessions.length := by
    have := (hw .sessions).1; simp only [PerMetric.get] at this; omega
  refine ⟨w.cumCompletion.revenue[hh], w.share.revenue[hh], w.hourly.impressions[hh],
    w.hourly.clicks[hh], w.hourly.sessions[hh], ?_, ?_, ?_, ?_, ?_, ?_⟩
  · simp [List.getElem?_eq_getElem h1]
  · simp [List.getElem?_eq_getElem h2]
  · simp [List.getElem?_eq_getElem h3]
  · simp [List.getElem?_eq_getElem h4]
  · simp [List.getElem?_eq_getElem h5]
  · unfold hourRow
    rw [summaryAt_natCast _ _ h1, summaryAt_natCast _ _ h2, summaryAt_natCast _ _ h3,
      summaryAt_natCast _ _ h4, summaryAt_natCast _ _ h5]
    rfl

/-- On a well-formed entry the table loop over hours below 24 returns one row per
hour, each computed by `hourRowOf` from the summaries of its hour. -/
theorem hourRowsFrom_ok (w : WeekdayStats) (hw : w.WellFormed) (eod : JSNum) :
    ∀ (hs : List ℕ) (cum : JSNum × JSNum × JSNum), (∀ x ∈ hs, x < 24) →
      ∃ rows, hourRowsFrom w eod hs cum = .ok rows ∧ rows.length = hs.length ∧
        ∀ i hh, hs.get? i = some hh →
          ∃ cumR shareR sI sC sS cum1,
            w.cumCompletion.revenue.get? hh = some cumR ∧
            w.share.revenue.get? hh = some shareR ∧
            w.hourly.impressions.get? hh = some sI ∧ w.hourly.clicks.get? hh = some sC ∧
            w.hourly.sessions.get? hh = some sS ∧
            rows.get? i = some (hourRowOf cumR shareR sI sC sS eod cum1 hh).1 := by
  intro hs
  induction hs with
  | nil => intro cum _; exact ⟨[], rfl, rfl, by simp⟩
  | cons x rest ih =>
    intro cum hlt
    obtain ⟨cumR, shareR, sI, sC, sS, g1, g2, g3, g4, g5, hrow⟩ :=
      hourRow_ok w hw eod cum x (hlt x (by simp))
    obtain ⟨rows, hrows, hlen, hall⟩ :=
      ih (hourRowOf cumR shareR sI sC sS eod cum x).2 (fun y hy => hlt y (by simp [hy]))
    refine ⟨(hourRowOf cumR shareR sI sC sS eod cum x).1 :: rows, ?_, by simp [hlen], ?_⟩
    · simp only [hourRowsFrom, hrow, bind, Except.bind, hrows]
      rfl
    · intro i hh hi
      cases i with
      | zero =>
        simp at hi
        subst hi
        exact ⟨cumR, shareR, sI, sC, sS, cum, g1, g2, g3, g4, g5, by simp⟩
      | succ j =>
        simp at hi
        obtain ⟨a, b, c, d, e, f, k1, k2, k3, k4, k5, k6⟩ := hall j hh (by simpa using hi)
        exact ⟨a, b, c, d, e, f, k1, k2, k3, k4, k5, by simpa using k6⟩

/-- On a well-formed entry the expectation table has 24 rows, row `hh` being
computed by `hourRowOf` from the summaries of hour `hh`. -/
theorem hourRows_ok (w : WeekdayStats) (hw : w.WellFormed) (eod : JSNum) :
    ∃ rows, hourRows w eod = .ok rows ∧ rows.length = 24 ∧
      ∀ hh, hh < 24 →
        ∃ cumR shareR sI sC sS cum1,
          w.cumCompletion.revenue.get? hh = some cumR ∧
          w.share.revenue.get? hh = some shareR ∧
          w.hourly.impressions.get? hh = some sI ∧ w.hourly.clicks.get? hh = some sC ∧
          w.hourly.sessions.get? hh = some sS ∧
          rows.get? hh = some (hourRowOf cumR shareR sI sC sS eod cum1 hh).1 := by
  obtain ⟨rows, h1, h2, h3⟩ := hourRowsFrom_ok w hw eod (List.range 24) (fin 0, fin 0, fin 0)
    (fun x hx => List.mem_range.mp hx)
  refine ⟨rows, h1, by simpa using h2, fun hh hlt => h3 hh hh ?_⟩
  simp [List.getElem?_range hlt]

theorem has_eq_true_iff (v : JSNum) : has v = true ↔ ∃ r : ℚ, 0 < r ∧ v = fin r := by
  cases v <;> simp [has, isFinite, gt, lt]

/-- Every integral input hour is clamped to a slot. -/
theorem effectiveHour_isHourSlot (k : ℤ) (inc : Bool) :
    IsHourSlot (effectiveHour (fin (k : ℚ)) inc) := by
  have key : ∃ n : ℕ, n < 24 ∧ (Max.max (0:ℚ) (Min.min 23 (k : ℚ))) = (n : ℚ) := by
    refine ⟨(Max.max 0 (Min.min 23 k)).toNat, ?_, ?_⟩
    · omega
    · have : (0:ℤ) ≤ Max.max 0 (Min.min 23 k) := le_max_left _ _
      rw [← Int.cast_natCast, Int.toNat_of_nonneg this]
      push_cast
      rfl
  obtain ⟨n, hn, hk⟩ := key
  cases inc with
  | true => exact ⟨n, hn, by simp [effectiveHour, JSNum.max, JSNum.min, hk]⟩
  | false =>
    refine ⟨n - 1, by omega, ?_⟩
    simp only [effectiveHour, JSNum.max, JSNum.min, hk, sub, neg, add, Bool.false_eq_true,
      if_false]
    congr 1
    rcases Nat.eq_zero_or_pos n with h0 | hpos
    · subst h0; norm_num
    · rw [Nat.cast_sub hpos]
      have : (1:ℚ) ≤ n := by exact_mod_cast hpos
      rw [max_eq_right]
      · push_cast; ring
      · linarith

/-- Shape of the forecast on a well-formed entry at a valid slot with revenue entered. -/
theorem forecast_ok (w : WeekdayStats) (hw : w.WellFormed) (hour : JSNum) (inc : Bool)
    (inputs : PerMetric JSNum) (n : ℕ) (hn : n < 24)
    (hh : effectiveHour hour inc = fin (n : ℚ)) (hrev : has inputs.revenue = true) :
    ∃ cr ws rows, w.cumCompletion.revenue.get? n = some cr ∧
      warningsOf w inputs (fin (n : ℚ)) = .ok ws ∧
      hourRows w (div inputs.revenue cr.p50) = .ok rows ∧
      forecast (some w) hour inc inputs = .ok (some
        { hourSelected := JSNum.max (fin 0) (JSNum.min (fin 23) hour)
          hour := fin (n : ℚ)
          eod := div inputs.revenue cr.p50
          low := div inputs.revenue cr.p75
          high := div inputs.revenue cr.p25
          expectedByNow := mul w.daily.revenue.mean cr.p50
          delta := sub inputs.revenue (mul w.daily.revenue.mean cr.p50)
          deltaPct := safeDiv (sub inputs.revenue (mul w.daily.revenue.mean cr.p50))
            (mul w.daily.revenue.mean cr.p50)
          pacingTone := (pacing (safeDiv (sub inputs.revenue (mul w.daily.revenue.mean cr.p50))
            (mul w.daily.revenue.mean cr.p50))).1
          pacingLabel := (pacing (safeDiv (sub inputs.revenue (mul w.daily.revenue.mean cr.p50))
            (mul w.daily.revenue.mean cr.p50))).2
          warnings := ws
          hourRows := rows }) := by
  have h1 : n < w.cumCompletion.revenue.length := by
    have := (hw .revenue).2.2; simp only [PerMetric.get] at this; omega
  obtain ⟨ws, hws⟩ := warningsOf_ok w hw inputs n hn
  obtain ⟨rows, hrows, -, -⟩ := hourRows_ok w hw (div inputs.revenue w.cumCompletion.revenue[n].p50)
  refine ⟨w.cumCompletion.revenue[n], ws, rows, by simp [List.getElem?_eq_getElem h1], hws,
    hrows, ?_⟩
  simp only [forecast, hrev, hh, summaryAt_natCast _ _ h1, hws, hrows, bind, Except.bind, pure,
    Except.pure, Bool.not_true, Bool.false_eq_true, if_false]

/-- Whatever the inputs, a forecast object is assembled from the summary read at the
effective hour exactly as lines 345-365 of the source do. -/
theorem forecast_some_inv (wStats : Option WeekdayStats) (hour : JSNum) (inc : Bool)
    (inputs : PerMetric JSNum) (f : Forecast)
    (hf : forecast wStats hour inc inputs = .ok (some f)) :
    ∃ w cr, wStats = some w ∧ has inputs.revenue = true ∧
      getAt w.cumCompletion.revenue (effectiveHour hour inc) = some cr ∧
      f.hour = effectiveHour hour inc ∧
      f.eod = div inputs.revenue cr.p50 ∧ f.low = div inputs.revenue cr.p75 ∧
      f.high = div inputs.revenue cr.p25 ∧
      f.expectedByNow = mul w.daily.revenue.mean cr.p50 ∧
      f.delta = sub inputs.revenue f.expectedByNow ∧
      f.deltaPct = safeDiv f.delta f.expectedByNow ∧
      (f.pacingTone, f.pacingLabel) = pacing f.deltaPct ∧
      hourRows w f.eod = .ok f.hourRows := by
  cases wStats with
  | none => simp [forecast, pure, Except.pure] at hf
  | some w =>
    cases hrev : has inputs.revenue with
    | false => simp [forecast, hrev, pure, Except.pure] at hf
    | true =>
      simp only [forecast, hrev, Bool.not_true, Bool.false_eq_true, if_false] at hf
      cases hg : getAt w.cumCompletion.revenue (effectiveHour hour inc) with
      | none => simp [summaryAt, hg, bind, Except.bind] at hf
      | some cr =>
        simp only [summaryAt, hg, bind, Except.bind] at hf
        cases hws : warningsOf w inputs (effectiveHour hour inc) with
        | error e => simp [hws] at hf
        | ok ws =>
          simp only [hws] at hf
          cases hrows : hourRows w (div inputs.revenue cr.p50) with
          | error e => simp [hrows] at hf
          | ok rows =>
            simp only [hrows, pure, Except.pure, Except.ok.injEq, Option.some.injEq] at hf
            subst hf
            exact ⟨w, cr, rfl, rfl, hg, rfl, rfl, rfl, rfl, rfl, rfl, rfl, rfl, hrows⟩

/-! ## Claims about the forecast -/

/-- C1: on every well-formed weekday entry, at every effective hour slot `n` and for
every positive finite revenue so far `r`, the forecast exists and its estimate is
`eod = r / cr50`, `low = r / cr75`, `high = r / cr25`, with `cr25`, `cr50`, `cr75` the
quantiles stored for the revenue cumulative completion at hour `n`. -/
theorem forecast_estimate (w : WeekdayStats) (hw : w.WellFormed) (hour : JSNum) (inc : Bool)
    (inputs : PerMetric JSNum) (n : ℕ) (hn : n < 24)
    (hh : effectiveHour hour inc = fin (n : ℚ)) (r : ℚ) (hr : 0 < r)
    (hrev : inputs.revenue = fin r) :
    ∃ f cr, forecast (some w) hour inc inputs = .ok (some f) ∧
      w.cumCompletion.revenue.get? n = some cr ∧ f.hour = fin (n : ℚ) ∧
      f.eod = div (fin r) cr.p50 ∧ f.low = div (fin r) cr.p75 ∧
      f.high = div (fin r) cr.p25 := by
  obtain ⟨cr, ws, rows, h1, -, -, h4⟩ := forecast_ok w hw hour inc inputs n hn hh
    ((has_eq_true_iff _).2 ⟨r, hr, hrev⟩)
  exact ⟨_, cr, h4, h1, rfl, by rw [hrev], by rw [hrev], by rw [hrev]⟩

/-- Instance of C1: quantiles 2/5, 1/2, 5/8 at hour 9 and revenue 50 give the
estimate 100 with range 80 to 125. -/
theorem forecast_estimate_witness :
    ∃ f cr, forecast (some (uniformStats (flatSummary (fin 100) (fin 100))
          ⟨fin (2 / 5), fin (1 / 2), fin (5 / 8), fin (1 / 2), fin 0⟩)) (fin 9) true
          (revenueOnly (fin 50)) = .ok (some f) ∧
      (uniformStats (flatSummary (fin 100) (fin 100))
          ⟨fin (2 / 5), fin (1 / 2), fin (5 / 8), fin (1 / 2), fin 0⟩).cumCompletion.revenue.get?
          9 = some cr ∧ f.hour = fin ((9 : ℕ) : ℚ) ∧
      f.eod = div (fin 50) cr.p50 ∧ f.low = div (fin 50) cr.p75 ∧
      f.high = div (fin 50) cr.p25 :=
  forecast_estimate _ (uniformStats_wellFormed _ _) (fin 9) true (revenueOnly (fin 50)) 9
    (by norm_num) (by norm_num [effectiveHour, JSNum.max, JSNum.min]) 50 (by norm_num) rfl

/-- C2: round trip.  For positive finite revenue so far `r` and a finite non-zero
median `c` at the effective hour, `eod * c = r` exactly, and the expectation-table
row of the effective hour has expected cumulative revenue `r`. -/
theorem forecast_round_trip (w : WeekdayStats) (hw : w.WellFormed) (hour : JSNum) (inc : Bool)
    (inputs : PerMetric JSNum) (n : ℕ) (hn : n < 24)
    (hh : effectiveHour hour inc = fin (n : ℚ)) (r : ℚ) (hr : 0 < r)
    (hrev : inputs.revenue = fin r) (cr : Summary)
    (hcr : w.cumCompletion.revenue.get? n = some cr) (c : ℚ) (hc : c ≠ 0)
    (hp50 : cr.p50 = fin c) :
    ∃ f row, forecast (some w) hour inc inputs = .ok (some f) ∧
      f.eod = div (fin r) (fin c) ∧ mul f.eod (fin c) = fin r ∧
      f.hourRows.get? n = some row ∧ row.hour = n ∧ row.expCumRev = fin r := by
  obtain ⟨cr1, ws, rows, h1, -, h3, h4⟩ := forecast_ok w hw hour inc inputs n hn hh
    ((has_eq_true_iff _).2 ⟨r, hr, hrev⟩)
  have hcr1 : cr1 = cr := by rw [hcr] at h1; exact (Option.some.inj h1).symm
  subst hcr1
  obtain ⟨rows1, g1, -, g3⟩ := hourRows_ok w hw (div inputs.revenue cr1.p50)
  have hrows : rows1 = rows := by rw [h3] at g1; exact (Except.ok.inj g1).symm
  subst hrows
  obtain ⟨cumR, shareR, sI, sC, sS, cum1, k1, -, -, -, -, k6⟩ := g3 n hn
  have hcumR : cumR = cr1 := by rw [hcr] at k1; exact (Option.some.inj k1).symm
  subst hcumR
  have hmul : mul (div (fin r) (fin c)) (fin c) = fin r := by
    simp [div, mul, hc]
  refine ⟨_, _, h4, ?_, ?_, k6, rfl, ?_⟩
  · simp only [hrev, hp50]
  · simp only [hrev, hp50]; exact hmul
  · simp only [hourRowOf, hrev, hp50]; exact hmul

/-- Instance of C2: median 1/2 at hour 9 and revenue 50. -/
theorem forecast_round_trip_witness :
    ∃ f row, forecast (some (uniformStats (flatSummary (fin 100) (fin 100))
          ⟨fin (2 / 5), fin (1 / 2), fin (5 / 8), fin (1 / 2), fin 0⟩)) (fin 9) true
          (revenueOnly (fin 50)) = .ok (some f) ∧
      f.eod = div (fin 50) (fin (1 / 2)) ∧ mul f.eod (fin (1 / 2)) = fin 50 ∧
      f.hourRows.get? 9 = some row ∧ row.hour = 9 ∧ row.expCumRev = fin 50 :=
  forecast_round_trip _ (uniformStats_wellFormed _ _) (fin 9) true (revenueOnly (fin 50)) 9
    (by norm_num) (by norm_num [effectiveHour, JSNum.max, JSNum.min]) 50 (by norm_num) rfl
    ⟨fin (2 / 5), fin (1 / 2), fin (5 / 8), fin (1 / 2), fin 0⟩
    (by simp [uniformStats]) (1 / 2) (by norm_num) rfl

/-- C3: whatever the statistics, hour and other inputs, the forecast is `null` when
the revenue so far is not a positive finite number. -/
theorem forecast_null_of_no_revenue (wStats : Option WeekdayStats) (hour : JSNum)
    (inc : Bool) (inputs : PerMetric JSNum)
    (h : ¬ ∃ r : ℚ, 0 < r ∧ inputs.revenue = fin r) :
    forecast wStats hour inc inputs = .ok none := by
  have hfalse : has inputs.revenue = false := by
    cases hrev : has inputs.revenue with
    | false => rfl
    | true => exact absurd ((has_eq_true_iff _).1 hrev) h
  cases wStats with
  | none => rfl
  | some w => simp [forecast, hfalse, pure, Except.pure]

/-- Instances of C3: revenue so far zero, negative, `NaN` and infinite. -/
theorem forecast_null_of_no_revenue_witness :
    forecast (some (uniformStats (flatSummary (fin 100) (fin 100))
        (flatSummary (fin 1) (fin 1)))) (fin 9) true (revenueOnly (fin 0)) = .ok none ∧
    forecast (some (uniformStats (flatSummary (fin 100) (fin 100))
        (flatSummary (fin 1) (fin 1)))) (fin 9) true (revenueOnly (fin (-3))) = .ok none ∧
    forecast (some (uniformStats (flatSummary (fin 100) (fin 100))
        (flatSummary (fin 1) (fin 1)))) (fin 9) true (revenueOnly nan) = .ok none ∧
    forecast (some (uniformStats (flatSummary (fin 100) (fin 100))
        (flatSummary (fin 1) (fin 1)))) (fin 9) true (revenueOnly posInf) = .ok none :=
  ⟨forecast_null_of_no_revenue _ _ _ _ (by simp [revenueOnly]),
    forecast_null_of_no_revenue _ _ _ _ (by
      rintro ⟨r, hr, h⟩
      simp only [revenueOnly, fin.injEq] at h
      linarith),
    forecast_null_of_no_revenue _ _ _ _ (by simp [revenueOnly]),
    forecast_null_of_no_revenue _ _ _ _ (by simp [revenueOnly])⟩

theorem summarize_nil (sqrtQ : ℚ → ℚ) : summarize sqrtQ [] = ⟨nan, nan, nan, nan, nan⟩ := by
  simp [summarize, quantile, isFinite]

theorem summarizeTable_replicate_nil (sqrtQ : ℚ → ℚ) :
    summarizeTable sqrtQ (List.replicate 24 []) =
      List.replicate 24 ⟨nan, nan, nan, nan, nan⟩ := by
  rw [List.eq_replicate_iff]
  refine ⟨by simp only [summarizeTable, List.length_map, List.length_range], ?_⟩
  intro b hb
  simp only [summarizeTable, List.mem_map, List.mem_range] at hb
  obtain ⟨h, -, rfl⟩ := hb
  have hget : (List.replicate 24 ([] : List JSNum)).getD h [] = [] := by
    rw [List.getD_eq_getElem?_getD, List.getElem?_replicate]
    split <;> rfl
  rw [hget, summarize_nil]

/-- The entry built from a container that received no day: `dayCount` is `0` and
every summary is all-`NaN`. -/
theorem summarizeContainer_empty (sqrtQ : ℚ → ℚ) :
    summarizeContainer sqrtQ emptyContainer =
      { dayCount := 0
        daily := PerMetric.const ⟨nan, nan, nan, nan, nan⟩
        hourly := PerMetric.const (List.replicate 24 ⟨nan, nan, nan, nan, nan⟩)
        share := PerMetric.const (List.replicate 24 ⟨nan, nan, nan, nan, nan⟩)
        cumCompletion := PerMetric.const (List.replicate 24 ⟨nan, nan, nan, nan, nan⟩) } := by
  simp only [summarizeContainer, emptyContainer, PerMetric.map, PerMetric.const, summarize_nil,
    summarizeTable_replicate_nil]

theorem summarizeContainer_empty_wellFormed (sqrtQ : ℚ → ℚ) :
    (summarizeContainer sqrtQ emptyContainer).WellFormed := by
  rw [summarizeContainer_empty]
  intro m
  simp

/-- C4 as stated fails: on the entry of a weekday without days (all medians `NaN`)
and revenue so far 50 at hour 9, the forecast is an object, not `null`. -/
theorem forecast_nonfinite_median_not_null :
    (∀ s ∈ (summarizeContainer Rat.sqrt emptyContainer).cumCompletion.revenue,
        isFinite s.p50 = false) ∧
      has (revenueOnly (fin 50)).revenue = true ∧
      forecast (some (summarizeContainer Rat.sqrt emptyContainer)) (fin 9) true
        (revenueOnly (fin 50)) ≠ .ok none := by
  refine ⟨?_, ?_, ?_⟩
  · rw [summarizeContainer_empty]
    intro s hs
    simp only [PerMetric.const, List.mem_replicate] at hs
    rw [hs.2]
    rfl
  · simp [has, revenueOnly, isFinite, gt, lt]
  · obtain ⟨cr, ws, rows, -, -, -, h4⟩ := forecast_ok _
      (summarizeContainer_empty_wellFormed Rat.sqrt) (fin 9) true (revenueOnly (fin 50)) 9
      (by norm_num) (by norm_num [effectiveHour, JSNum.max, JSNum.min])
      (by simp [has, revenueOnly, isFinite, gt, lt])
    rw [h4]
    simp

/-- C4, amended: on every well-formed weekday entry whose revenue completion median
at the effective hour is not finite, and for every positive finite revenue so far,
the forecast does not raise and returns an object whose `eod` is `revenueSoFar / cr50`:
`NaN` when the median is `NaN` or missing, `0` when it is infinite. -/
theorem forecast_nonfinite_median (w : WeekdayStats) (hw : w.WellFormed) (hour : JSNum)
    (inc : Bool) (inputs : PerMetric JSNum) (n : ℕ) (hn : n < 24)
    (hh : effectiveHour hour inc = fin (n : ℚ)) (r : ℚ) (hr : 0 < r)
    (hrev : inputs.revenue = fin r) (cr : Summary)
    (hcr : w.cumCompletion.revenue.get? n = some cr) (hnf : isFinite cr.p50 = false) :
    ∃ f, forecast (some w) hour inc inputs = .ok (some f) ∧
      f.eod = div (fin r) cr.p50 ∧
      ((cr.p50 = nan ∨ cr.p50 = undef) → f.eod = nan) ∧
      ((cr.p50 = posInf ∨ cr.p50 = negInf) → f.eod = fin 0) ∧
      (f.eod = nan ∨ f.eod = fin 0) := by
  obtain ⟨cr1, ws, rows, h1, -, -, h4⟩ := forecast_ok w hw hour inc inputs n hn hh
    ((has_eq_true_iff _).2 ⟨r, hr, hrev⟩)
  have hcr1 : cr1 = cr := by rw [hcr] at h1; exact (Option.some.inj h1).symm
  subst hcr1
  refine ⟨_, h4, by simp only [hrev], ?_, ?_, ?_⟩
  · rintro (h | h) <;> simp [hrev, h, div]
  · rintro (h | h) <;> simp [hrev, h, div]
  · cases hp : cr1.p50 <;> simp [hp, isFinite] at hnf <;> simp [hrev, hp, div]

/-- Instance of the amended C4: the entry of a weekday without days, hour 9,
revenue so far 50: the forecast is an object with `eod = NaN`. -/
theorem forecast_nonfinite_median_witness :
    ∃ f, forecast (some (summarizeContainer Rat.sqrt emptyContainer)) (fin 9) true
        (revenueOnly (fin 50)) = .ok (some f) ∧ f.eod = nan := by
  obtain ⟨f, h1, -, h3, -, -⟩ :=
    forecast_nonfinite_median _ (summarizeContainer_empty_wellFormed Rat.sqrt) (fin 9) true
      (revenueOnly (fin 50)) 9 (by norm_num)
      (by norm_num [effectiveHour, JSNum.max, JSNum.min])
      50 (by norm_num) rfl ⟨nan, nan, nan, nan, nan⟩
      (by rw [summarizeContainer_empty]; simp [PerMetric.const]) rfl
  exact ⟨f, h1, h3 (Or.inl rfl)⟩

/-- With a finite left operand, `safeDiv (r - e) e` is a finite number or `NaN`. -/
theorem safeDiv_sub_fin (r : ℚ) (e : JSNum) :
    (∃ d : ℚ, safeDiv (sub (fin r) e) e = fin d) ∨ safeDiv (sub (fin r) e) e = nan := by
  cases e with
  | fin b =>
    by_cases hb : b = 0
    · right; simp [safeDiv, truthy, hb]
    · left; exact ⟨(r + -b) / b, by simp [safeDiv, truthy, hb, sub, neg, add, div]⟩
  | nan => right; simp [safeDiv, truthy]
  | posInf => right; simp [safeDiv, truthy, sub, neg, add, div]
  | negInf => right; simp [safeDiv, truthy, sub, neg, add, div]
  | undef => right; simp [safeDiv, truthy]

/-- The verdict as a function of a finite or `NaN` relative delta. -/
theorem pacing_label (d : JSNum) (hd : (∃ q : ℚ, d = fin q) ∨ d = nan) :
    ((pacing d).2 = .aheadOfPace ↔ gt d (fin (5 / 100)) = true) ∧
    ((pacing d).2 = .behindPace ↔ lt d (fin (-5 / 100)) = true) ∧
    ((pacing d).2 = .onPace ↔ gt d (fin (5 / 100)) = false ∧ lt d (fin (-5 / 100)) = false) := by
  rcases hd with ⟨q, rfl⟩ | rfl
  · simp only [pacing, isFinite, if_true, gt, lt, decide_eq_true_eq, decide_eq_false_iff_not,
      not_lt]
    by_cases h1 : (5 / 100 : ℚ) < q
    · have h2 : ¬ q < -5 / 100 := by linarith
      simp [h1, h2]
    · by_cases h2 : q < -5 / 100
      · simp [h1, h2]
      · simp [h1, h2]
        constructor <;> linarith
  · simp [pacing, isFinite, gt, lt]

/-- C5 as stated fails where `expectedByNow` is `0`: with mean daily revenue 100, median
`0` at hour 0 and revenue so far 50, the quotient `delta / expectedByNow` is `+Infinity`
(above 0.05) while the forecast has `deltaPct = NaN` and the verdict `On pace`. -/
theorem forecast_pacing_zero_expected :
    ∃ f, forecast (some (uniformStats (flatSummary (fin 100) (fin 100))
          (flatSummary (fin 0) (fin 0)))) (fin 0) true (revenueOnly (fin 50)) = .ok (some f) ∧
      f.expectedByNow = fin 0 ∧ f.delta = fin 50 ∧
      div f.delta f.expectedByNow = posInf ∧ f.deltaPct = nan ∧
      f.deltaPct ≠ div f.delta f.expectedByNow ∧
      gt (div f.delta f.expectedByNow) (fin (5 / 100)) = true ∧
      f.pacingLabel = .onPace := by
  obtain ⟨cr, ws, rows, h1, -, -, h4⟩ := forecast_ok
    (uniformStats (flatSummary (fin 100) (fin 100)) (flatSummary (fin 0) (fin 0)))
    (uniformStats_wellFormed _ _) (fin 0) true (revenueOnly (fin 50)) 0
    (by norm_num) (by norm_num [effectiveHour, JSNum.max, JSNum.min])
    (by simp [has, revenueOnly, isFinite, gt, lt])
  have hcr : cr = flatSummary (fin 0) (fin 0) := by
    simp [uniformStats] at h1; exact h1.symm
  subst hcr
  refine ⟨_, h4, ?_, ?_, ?_, ?_, ?_, ?_, ?_⟩ <;>
    simp [uniformStats, flatSummary, revenueOnly, mul, sub, neg, add, div, infOfSign, safeDiv,
      truthy, gt, lt, pacing, isFinite]

/-- C5, amended: for every forecast, `expectedByNow = mean daily revenue * cr50`,
`delta = revenueSoFar - expectedByNow`, `deltaPct` is `delta / expectedByNow` when
`expectedByNow` is a non-zero number and `NaN` otherwise, and the verdict is `ahead`
iff `deltaPct > 0.05`, `behind` iff `deltaPct < -0.05`, `on pace` otherwise; a
`deltaPct` of exactly 0.05 gives `on pace`, one of 0.0500001 gives `ahead`. -/
theorem forecast_pacing (wStats : Option WeekdayStats) (hour : JSNum) (inc : Bool)
    (inputs : PerMetric JSNum) (f : Forecast)
    (hf : forecast wStats hour inc inputs = .ok (some f)) :
    ∃ w cr, wStats = some w ∧
      getAt w.cumCompletion.revenue (effectiveHour hour inc) = some cr ∧
      f.expectedByNow = mul w.daily.revenue.mean cr.p50 ∧
      f.delta = sub inputs.revenue f.expectedByNow ∧
      (truthy f.expectedByNow = true → f.deltaPct = div f.delta f.expectedByNow) ∧
      (truthy f.expectedByNow = false → f.deltaPct = nan) ∧
      (f.pacingLabel = .aheadOfPace ↔ gt f.deltaPct (fin (5 / 100)) = true) ∧
      (f.pacingLabel = .behindPace ↔ lt f.deltaPct (fin (-5 / 100)) = true) ∧
      (f.pacingLabel = .onPace ↔
        gt f.deltaPct (fin (5 / 100)) = false ∧ lt f.deltaPct (fin (-5 / 100)) = false) ∧
      (f.deltaPct = fin (5 / 100) → f.pacingLabel = .onPace) ∧
      (f.deltaPct = fin (500001 / 10000000) → f.pacingLabel = .aheadOfPace) := by
  obtain ⟨w, cr, hw, hrev, hg, -, -, -, -, he, hd, hp, hv, -⟩ :=
    forecast_some_inv wStats hour inc inputs f hf
  obtain ⟨r, -, hr⟩ := (has_eq_true_iff _).1 hrev
  have hfin : (∃ q : ℚ, f.deltaPct = fin q) ∨ f.deltaPct = nan := by
    rw [hp, hd, hr]; exact safeDiv_sub_fin r f.expectedByNow
  have hlabel : f.pacingLabel = (pacing f.deltaPct).2 := by rw [← hv]
  obtain ⟨p1, p2, p3⟩ := pacing_label f.deltaPct hfin
  rw [← hlabel] at p1 p2 p3
  refine ⟨w, cr, hw, hg, he, hd, ?_, ?_, p1, p2, p3, ?_, ?_⟩
  · intro ht; rw [hp, safeDiv, if_pos ht]
  · intro ht; rw [hp, safeDiv, if_neg (by simp [ht])]
  · intro h; rw [p3, h]; norm_num [gt, lt]
  · intro h; rw [p1, h]; norm_num [gt, lt]

/-- Instances of the amended C5 at the boundary: mean daily revenue 100 and median 1 at
hour 9; revenue so far 105 gives `deltaPct = 0.05` and `On pace`, revenue so far
105.00001 gives `deltaPct = 0.0500001` and `Ahead of pace`. -/
theorem forecast_pacing_witness :
    (∃ f, forecast (some (uniformStats (flatSummary (fin 100) (fin 100))
          (flatSummary (fin 1) (fin 1)))) (fin 9) true (revenueOnly (fin 105)) = .ok (some f) ∧
        f.deltaPct = fin (5 / 100) ∧ f.pacingLabel = .onPace) ∧
    (∃ f, forecast (some (uniformStats (flatSummary (fin 100) (fin 100))
          (flatSummary (fin 1) (fin 1)))) (fin 9) true
          (revenueOnly (fin (10500001 / 100000))) = .ok (some f) ∧
        f.deltaPct = fin (500001 / 10000000) ∧ f.pacingLabel = .aheadOfPace) := by
  constructor
  · obtain ⟨cr, ws, rows, h1, -, -, h4⟩ := forecast_ok
      (uniformStats (flatSummary (fin 100) (fin 100)) (flatSummary (fin 1) (fin 1)))
      (uniformStats_wellFormed _ _) (fin 9) true (revenueOnly (fin 105)) 9
      (by norm_num) (by norm_num [effectiveHour, JSNum.max, JSNum.min])
      (by simp [has, revenueOnly, isFinite, gt, lt])
    have hcr : cr = flatSummary (fin 1) (fin 1) := by
      simp [uniformStats] at h1; exact h1.symm
    subst hcr
    obtain ⟨-, -, -, -, -, -, -, -, -, -, -, g1, -⟩ := forecast_pacing _ _ _ _ _ h4
    have hd : safeDiv (sub (revenueOnly (fin 105)).revenue
        (mul (uniformStats (flatSummary (fin 100) (fin 100))
          (flatSummary (fin 1) (fin 1))).daily.revenue.mean (flatSummary (fin 1) (fin 1)).p50))
        (mul (uniformStats (flatSummary (fin 100) (fin 100))
          (flatSummary (fin 1) (fin 1))).daily.revenue.mean (flatSummary (fin 1) (fin 1)).p50)
        = fin (5 / 100) := by
      norm_num [uniformStats, flatSummary, revenueOnly, mul, sub, neg, add, div, safeDiv, truthy]
    exact ⟨_, h4, hd, g1 hd⟩
  · obtain ⟨cr, ws, rows, h1, -, -, h4⟩ := forecast_ok
      (uniformStats (flatSummary (fin 100) (fin 100)) (flatSummary (fin 1) (fin 1)))
      (uniformStats_wellFormed _ _) (fin 9) true (revenueOnly (fin (10500001 / 100000))) 9
      (by norm_num) (by norm_num [effectiveHour, JSNum.max, JSNum.min])
      (by norm_num [has, revenueOnly, isFinite, gt, lt])
    have hcr : cr = flatSummary (fin 1) (fin 1) := by
      simp [uniformStats] at h1; exact h1.symm
    subst hcr
    obtain ⟨-, -, -, -, -, -, -, -, -, -, -, -, g2⟩ := forecast_pacing _ _ _ _ _ h4
    have hd : safeDiv (sub (revenueOnly (fin (10500001 / 100000))).revenue
        (mul (uniformStats (flatSummary (fin 100) (fin 100))
          (flatSummary (fin 1) (fin 1))).daily.revenue.mean (flatSummary (fin 1) (fin 1)).p50))
        (mul (uniformStats (flatSummary (fin 100) (fin 100))
          (flatSummary (fin 1) (fin 1))).daily.revenue.mean (flatSummary (fin 1) (fin 1)).p50)
        = fin (500001 / 10000000) := by
      norm_num [uniformStats, flatSummary, revenueOnly, mul, sub, neg, add, div, safeDiv, truthy]
    exact ⟨_, h4, hd, g2 hd⟩

/-! ## `quantile` on finite numbers -/

theorem cmpLE_fin (a b : ℚ) : cmpLE (fin a) (fin b) ↔ a ≤ b := by
  simp only [cmpLE, gt, lt, sub, neg, add, decide_eq_false_iff_not, not_lt]
  constructor <;> intro h <;> linarith

/-- On finite numbers the comparator sort is the ascending sort of the values. -/
theorem sortAsc_map_fin (qs : List ℚ) :
    sortAsc (qs.map fin) = (qs.insertionSort (· ≤ ·)).map fin := by
  unfold sortAsc
  symm
  apply List.map_insertionSort
  intro a _ b _
  exact (cmpLE_fin a b).symm

/-- The ascending sort is the only sorted rearrangement. -/
theorem sortAsc_map_fin_of_sorted (qs s : List ℚ) (hperm : s.Perm qs)
    (hsorted : s.Sorted (· ≤ ·)) : sortAsc (qs.map fin) = s.map fin := by
  rw [sortAsc_map_fin]
  congr 1
  exact List.eq_of_perm_of_sorted ((List.perm_insertionSort _ qs).trans hperm.symm)
    (List.sorted_insertionSort _ qs) hsorted

theorem getIdx_map_fin_lt (s : List ℚ) (k : ℕ) (hk : k < s.length) :
    getIdx (s.map fin) (k : ℤ) = fin (s.getD k 0) := by
  have h0 : (0 : ℤ) ≤ (k : ℤ) := Int.natCast_nonneg k
  simp only [getIdx, h0, if_true, Int.toNat_natCast]
  rw [List.getD_eq_getElem _ _ (by simpa using hk), List.getD_eq_getElem _ _ hk]
  simp

theorem getIdx_map_fin_ge (s : List ℚ) (k : ℕ) (hk : s.length ≤ k) :
    getIdx (s.map fin) (k : ℤ) = undef := by
  have h0 : (0 : ℤ) ≤ (k : ℤ) := Int.natCast_nonneg k
  simp only [getIdx, h0, if_true, Int.toNat_natCast]
  rw [List.getD_eq_default]
  simpa using hk

theorem ratFloor_eq_natFloor (x : ℚ) (hx : 0 ≤ x) : Rat.floor x = ((⌊x⌋₊ : ℕ) : ℤ) := by
  have h : Rat.floor x = ⌊x⌋ := rfl
  rw [h, Int.natCast_floor_eq_floor hx]

/-- The interpolation formula of `quantile` on a non-empty array of finite numbers,
in terms of the ascending rearrangement `s`. -/
theorem quantile_map_fin (qs s : List ℚ) (hne : qs ≠ []) (hperm : s.Perm qs)
    (hsorted : s.Sorted (· ≤ ·)) (q : ℚ) (h0 : 0 ≤ q) (h1 : q ≤ 1) :
    ⌊((qs.length : ℚ) - 1) * q⌋₊ < qs.length ∧
    quantile (qs.map fin) q =
      fin (if ⌊((qs.length : ℚ) - 1) * q⌋₊ + 1 < qs.length then
          s.getD ⌊((qs.length : ℚ) - 1) * q⌋₊ 0 +
            (((qs.length : ℚ) - 1) * q - (⌊((qs.length : ℚ) - 1) * q⌋₊ : ℚ)) *
              (s.getD (⌊((qs.length : ℚ) - 1) * q⌋₊ + 1) 0 -
                s.getD ⌊((qs.length : ℚ) - 1) * q⌋₊ 0)
        else s.getD ⌊((qs.length : ℚ) - 1) * q⌋₊ 0) := by
  have hlen : s.length = qs.length := hperm.length_eq
  have hpos : 0 < qs.length := List.length_pos.mpr hne
  have hn1 : (1 : ℚ) ≤ qs.length := by exact_mod_cast hpos
  have hp0 : 0 ≤ ((qs.length : ℚ) - 1) * q := mul_nonneg (by linarith) h0
  have hple : ((qs.length : ℚ) - 1) * q ≤ ((qs.length - 1 : ℕ) : ℚ) := by
    rw [Nat.cast_sub hpos]
    push_cast
    nlinarith
  have hb : ⌊((qs.length : ℚ) - 1) * q⌋₊ < qs.length := by
    have : ⌊((qs.length : ℚ) - 1) * q⌋₊ ≤ qs.length - 1 := by
      calc ⌊((qs.length : ℚ) - 1) * q⌋₊ ≤ ⌊((qs.length - 1 : ℕ) : ℚ)⌋₊ := Nat.floor_mono hple
        _ = qs.length - 1 := Nat.floor_natCast _
    omega
  refine ⟨hb, ?_⟩
  have hlen0 : ¬ (qs.map fin).length = 0 := by simp; exact hne
  unfold quantile
  rw [if_neg hlen0]
  simp only
  rw [sortAsc_map_fin_of_sorted qs s hperm hsorted]
  simp only [List.length_map, hlen]
  rw [ratFloor_eq_natFloor _ hp0]
  have hcast : ((⌊((qs.length : ℚ) - 1) * q⌋₊ : ℕ) : ℤ) + 1
      = ((⌊((qs.length : ℚ) - 1) * q⌋₊ + 1 : ℕ) : ℤ) := by push_cast; rfl
  rw [hcast]
  rw [getIdx_map_fin_lt s ⌊((qs.length : ℚ) - 1) * q⌋₊ (by rw [hlen]; exact hb)]
  by_cases hnext : ⌊((qs.length : ℚ) - 1) * q⌋₊ + 1 < qs.length
  · rw [getIdx_map_fin_lt s (⌊((qs.length : ℚ) - 1) * q⌋₊ + 1) (by rw [hlen]; exact hnext),
      if_pos hnext, if_neg (by simp)]
    simp only [sub, neg, add, mul]
    congr 1
    push_cast
    ring
  · rw [getIdx_map_fin_ge s (⌊((qs.length : ℚ) - 1) * q⌋₊ + 1) (by rw [hlen]; omega),
      if_neg hnext, if_pos rfl]

theorem quantile_nil (q : ℚ) : quantile [] q = nan := by
  simp [quantile]

/-- The first element of the ascending rearrangement is a least element. -/
theorem sorted_getD_zero_le (qs s : List ℚ) (hne : qs ≠ []) (hperm : s.Perm qs)
    (hsorted : s.Sorted (· ≤ ·)) : s.getD 0 0 ∈ qs ∧ ∀ x ∈ qs, s.getD 0 0 ≤ x := by
  cases s with
  | nil => exact absurd (hperm.symm.eq_nil) hne
  | cons a t =>
    refine ⟨hperm.mem_iff.1 (by simp), fun x hx => ?_⟩
    have hx' : x ∈ a :: t := hperm.mem_iff.2 hx
    rcases List.mem_cons.1 hx' with rfl | hxt
    · simp
    · simpa using List.rel_of_sorted_cons hsorted x hxt

/-- The last element of the ascending rearrangement is a greatest element. -/
theorem sorted_getD_last_ge (qs s : List ℚ) (hne : qs ≠ []) (hperm : s.Perm qs)
    (hsorted : s.Sorted (· ≤ ·)) :
    s.getD (qs.length - 1) 0 ∈ qs ∧ ∀ x ∈ qs, x ≤ s.getD (qs.length - 1) 0 := by
  have hlen : s.length = qs.length := hperm.length_eq
  have hpos : 0 < qs.length := List.length_pos.mpr hne
  have hlast : qs.length - 1 < s.length := by omega
  rw [List.getD_eq_getElem _ _ hlast]
  refine ⟨hperm.mem_iff.1 (List.getElem_mem _), fun x hx => ?_⟩
  obtain ⟨i, hi, rfl⟩ := List.getElem_of_mem (hperm.mem_iff.2 hx)
  have := hsorted.rel_get_of_le (a := ⟨i, hi⟩) (b := ⟨qs.length - 1, hlast⟩)
    (by simp only [Fin.mk_le_mk]; omega)
  simpa using this

/-- C6: for a non-empty array of finite numbers with ascending rearrangement `s`,
`quantile(arr, 0)` is the minimum, `quantile(arr, 1)` the maximum, and
`quantile(arr, 0.5)` the median: the middle element of `s` for odd length, the average
of the two middle elements for even length. -/
theorem quantile_min_max_median (qs s : List ℚ) (hne : qs ≠ []) (hperm : s.Perm qs)
    (hsorted : s.Sorted (· ≤ ·)) :
    (∃ m ∈ qs, (∀ x ∈ qs, m ≤ x) ∧ quantile (qs.map fin) 0 = fin m) ∧
    (∃ M ∈ qs, (∀ x ∈ qs, x ≤ M) ∧ quantile (qs.map fin) 1 = fin M) ∧
    (qs.length % 2 = 1 →
      quantile (qs.map fin) (1 / 2) = fin (s.getD (qs.length / 2) 0)) ∧
    (qs.length % 2 = 0 →
      quantile (qs.map fin) (1 / 2) =
        fin ((s.getD (qs.length / 2 - 1) 0 + s.getD (qs.length / 2) 0) / 2)) := by
  have hpos : 0 < qs.length := List.length_pos.mpr hne
  refine ⟨?_, ?_, ?_, ?_⟩
  · obtain ⟨hm, hle⟩ := sorted_getD_zero_le qs s hne hperm hsorted
    refine ⟨s.getD 0 0, hm, hle, ?_⟩
    rw [(quantile_map_fin qs s hne hperm hsorted 0 le_rfl zero_le_one).2]
    simp
  · obtain ⟨hM, hge⟩ := sorted_getD_last_ge qs s hne hperm hsorted
    refine ⟨s.getD (qs.length - 1) 0, hM, hge, ?_⟩
    rw [(quantile_map_fin qs s hne hperm hsorted 1 zero_le_one le_rfl).2]
    have hfl : ⌊((qs.length : ℚ) - 1) * 1⌋₊ = qs.length - 1 := by
      rw [mul_one]
      have : ((qs.length : ℚ) - 1) = ((qs.length - 1 : ℕ) : ℚ) := by
        rw [Nat.cast_sub hpos]; push_cast; rfl
      rw [this, Nat.floor_natCast]
    rw [hfl, if_neg (by omega)]
  · intro hodd
    rw [(quantile_map_fin qs s hne hperm hsorted (1 / 2) (by norm_num) (by norm_num)).2]
    have hq : ((qs.length : ℚ) - 1) * (1 / 2) = ((qs.length / 2 : ℕ) : ℚ) := by
      have h2 : qs.length = 2 * (qs.length / 2) + 1 := by omega
      have h3 : (qs.length : ℚ) = 2 * ((qs.length / 2 : ℕ) : ℚ) + 1 := by exact_mod_cast h2
      linarith
    rw [hq, Nat.floor_natCast]
    simp
  · intro heven
    rw [(quantile_map_fin qs s hne hperm hsorted (1 / 2) (by norm_num) (by norm_num)).2]
    have h2 : qs.length = 2 * (qs.length / 2) := by omega
    have hk : 1 ≤ qs.length / 2 := by omega
    have h3 : (qs.length : ℚ) = 2 * ((qs.length / 2 : ℕ) : ℚ) := by exact_mod_cast h2
    have hk' : ((qs.length / 2 - 1 : ℕ) : ℚ) = ((qs.length / 2 : ℕ) : ℚ) - 1 := by
      rw [Nat.cast_sub hk]; push_cast; rfl
    have hq : ((qs.length : ℚ) - 1) * (1 / 2) = ((qs.length / 2 - 1 : ℕ) : ℚ) + 1 / 2 := by
      rw [hk']; linarith
    have hfl : ⌊((qs.length : ℚ) - 1) * (1 / 2)⌋₊ = qs.length / 2 - 1 := by
      rw [hq, Nat.floor_eq_iff (by positivity)]
      constructor <;> linarith
    rw [hfl, if_pos (by omega), hq]
    have hidx : qs.length / 2 - 1 + 1 = qs.length / 2 := by omega
    rw [hidx]
    congr 1
    ring

/-- Instance of C6: the array `[2, 1, 3, 10]`, with minimum 1, maximum 10 and even
length, and the odd-length array `[2, 1, 3]` with median 2. -/
theorem quantile_min_max_median_witness :
    ((∃ m ∈ [(2 : ℚ), 1, 3, 10], (∀ x ∈ [(2 : ℚ), 1, 3, 10], m ≤ x) ∧
        quantile ([(2 : ℚ), 1, 3, 10].map fin) 0 = fin m) ∧
      (∃ M ∈ [(2 : ℚ), 1, 3, 10], (∀ x ∈ [(2 : ℚ), 1, 3, 10], x ≤ M) ∧
        quantile ([(2 : ℚ), 1, 3, 10].map fin) 1 = fin M) ∧
      quantile ([(2 : ℚ), 1, 3, 10].map fin) (1 / 2) = fin (5 / 2)) ∧
    quantile ([(2 : ℚ), 1, 3].map fin) (1 / 2) = fin 2 := by
  have hA := quantile_min_max_median [2, 1, 3, 10] [1, 2, 3, 10] (by simp)
    (List.Perm.swap 2 1 [3, 10]) (by norm_num [List.Sorted])
  have hB := quantile_min_max_median [2, 1, 3] [1, 2, 3] (by simp)
    (List.Perm.swap 2 1 [3]) (by norm_num [List.Sorted])
  refine ⟨⟨hA.1, hA.2.1, ?_⟩, ?_⟩
  · rw [hA.2.2.2 (by simp)]
    norm_num
  · rw [hB.2.2.1 (by simp)]
    norm_num

/-- C7: for a non-empty array of `n` finite numbers with ascending rearrangement `s`
and `q` in `[0, 1]`, with `pos = (n - 1) * q` and `b = floor(pos)`, `quantile(arr, q)`
is `s[b] + (pos - b) * (s[b+1] - s[b])`, and just `s[b]` when `b` is the last index;
for the empty array `quantile` returns `NaN`. -/
theorem quantile_interpolation (qs s : List ℚ) (hne : qs ≠ []) (hperm : s.Perm qs)
    (hsorted : s.Sorted (· ≤ ·)) (q : ℚ) (h0 : 0 ≤ q) (h1 : q ≤ 1) :
    (∀ q' : ℚ, quantile [] q' = nan) ∧
    ⌊((qs.length : ℚ) - 1) * q⌋₊ < qs.length ∧
    quantile (qs.map fin) q =
      fin (if ⌊((qs.length : ℚ) - 1) * q⌋₊ + 1 < qs.length then
          s.getD ⌊((qs.length : ℚ) - 1) * q⌋₊ 0 +
            (((qs.length : ℚ) - 1) * q - (⌊((qs.length : ℚ) - 1) * q⌋₊ : ℚ)) *
              (s.getD (⌊((qs.length : ℚ) - 1) * q⌋₊ + 1) 0 -
                s.getD ⌊((qs.length : ℚ) - 1) * q⌋₊ 0)
        else s.getD ⌊((qs.length : ℚ) - 1) * q⌋₊ 0) :=
  ⟨quantile_nil, quantile_map_fin qs s hne hperm hsorted q h0 h1⟩

/-- Instance of C7: the lower quartile of `[2, 1, 3, 10]` is `1 + 3/4 * (2 - 1) = 7/4`. -/
theorem quantile_interpolation_witness :
    quantile ([(2 : ℚ), 1, 3, 10].map fin) (1 / 4) = fin (7 / 4) := by
  have h := (quantile_interpolation [2, 1, 3, 10] [1, 2, 3, 10] (by simp)
    (List.Perm.swap 2 1 [3, 10]) (by norm_num [List.Sorted]) (1 / 4) (by norm_num)
    (by norm_num)).2.2
  have hfl : ⌊(((([(2 : ℚ), 1, 3, 10] : List ℚ).length : ℕ) : ℚ) - 1) * (1 / 4)⌋₊ = 0 := by
    rw [Nat.floor_eq_zero]
    norm_num
  rw [h, hfl]
  norm_num

/-! ## The per-day accumulation of `buildStats` -/

theorem emptyContainer_wellFormed : emptyContainer.WellFormed := by
  intro m
  simp [emptyContainer]

theorem hourSlot_ok (d : Day) (h : ℕ) (hh : h < d.hours.length) :
    hourSlot d h = .ok (d.slot h) := by
  simp [hourSlot, Day.slot, List.getElem?_eq_getElem hh]

theorem take_succ_slot (d : Day) (n : ℕ) (hn : n < d.hours.length) :
    d.hours.take (n + 1) = d.hours.take n ++ [d.slot n] := by
  rw [List.take_succ]
  simp [Day.slot, List.getElem?_eq_getElem hn]

/-- The first hour loop, run over the first `n` hours. -/
theorem dayTotals_loop (d : Day) :
    ∀ n, n ≤ d.hours.length → ∀ init : PerMetric JSNum,
      (List.range n).foldlM
        (fun totals h => do
          let x ← hourSlot d h
          pure (PerMetric.zipWith add totals x)) init
        = (.ok ((d.hours.take n).foldl (PerMetric.zipWith add) init) : Except JSError _) := by
  intro n
  induction n with
  | zero => intro _ init; rfl
  | succ k ih =>
    intro hk init
    rw [List.range_succ, List.foldlM_append, ih (by omega) init]
    rw [take_succ_slot d k (by omega), List.foldl_append]
    simp only [bind, Except.bind, List.foldlM, hourSlot_ok d k (by omega), pure, Except.pure,
      List.foldl]

/-- The daily totals of a day with 24 slots. -/
theorem dayTotals_ok (d : Day) (hlen : d.hours.length = 24) :
    dayTotals d = .ok (sumSlots d.hours) := by
  unfold dayTotals sumSlots
  rw [dayTotals_loop d 24 (by omega)]
  rw [List.take_of_length_le (by omega)]

theorem pushAt_ok (table : List (List JSNum)) (h : ℕ) (v : JSNum) (hh : h < table.length) :
    pushAt table h v = .ok (table.set h (table.getD h [] ++ [v])) := by
  simp [pushAt, List.getElem?_eq_getElem hh, List.getD_eq_getElem _ _ hh]

theorem length_pushed (table : List (List JSNum)) (h : ℕ) (v : JSNum) :
    (pushed table h v).length = table.length := by
  simp [pushed]

theorem getD_pushed (table : List (List JSNum)) (h k : ℕ) (v : JSNum) (hh : h < table.length) :
    (pushed table h v).getD k [] = table.getD k [] ++ (if k = h then [v] else []) := by
  unfold pushed
  simp only [List.getD_eq_getElem?_getD, List.getElem?_set]
  by_cases hk : h = k
  · subst hk
    simp [hh]
  · have hk' : ¬ k = h := fun e => hk e.symm
    simp [hk, hk']

theorem pushAll_ok (t : PerMetric (List (List JSNum))) (h : ℕ) (v : PerMetric JSNum)
    (hh : ∀ m, h < (t.get m).length) :
    pushAll t h v = .ok (PerMetric.zipWith (fun tm vm => pushed tm h vm) t v) := by
  have h1 := hh .revenue
  have h2 := hh .impressions
  have h3 := hh .clicks
  have h4 := hh .sessions
  simp only [PerMetric.get] at h1 h2 h3 h4
  simp only [pushAll, pushAt_ok _ _ _ h1, pushAt_ok _ _ _ h2, pushAt_ok _ _ _ h3,
    pushAt_ok _ _ _ h4, bind, Except.bind, pure, Except.pure, PerMetric.zipWith, pushed]

/-- One iteration of the second hour loop on a well-formed container. -/
theorem hourStep_ok (d : Day) (totals : PerMetric JSNum) (c : Container)
    (cum : PerMetric JSNum) (hc : c.WellFormed) (h : ℕ) (h24 : h < 24)
    (hlen : d.hours.length = 24) :
    hourStep d totals (c, cum) h = .ok
      ({ c with
          hourly := PerMetric.zipWith (fun tm vm => pushed tm h vm) c.hourly (d.slot h)
          share := PerMetric.zipWith (fun tm vm => pushed tm h vm) c.share
            (PerMetric.zipWith safeDiv (d.slot h) totals)
          cumCompletion := PerMetric.zipWith (fun tm vm => pushed tm h vm) c.cumCompletion
            (PerMetric.zipWith safeDiv (PerMetric.zipWith add cum (d.slot h)) totals) },
        PerMetric.zipWith add cum (d.slot h)) := by
  unfold hourStep
  rw [hourSlot_ok d h (by omega)]
  simp only [bind, Except.bind]
  rw [pushAll_ok _ _ _ (fun m => by rw [(hc m).1]; exact h24)]
  simp only
  rw [pushAll_ok _ _ _ (fun m => by rw [(hc m).2.1]; exact h24)]
  simp only
  rw [pushAll_ok _ _ _ (fun m => by rw [(hc m).2.2]; exact h24)]
  rfl

/-- State of the second hour loop after the first `n` hours. -/
theorem hourLoop_ok (d : Day) (totals : PerMetric JSNum) (c : Container) (hc : c.WellFormed)
    (hlen : d.hours.length = 24) :
    ∀ n, n ≤ 24 →
      ∃ st, (List.range n).foldlM (hourStep d totals) (c, PerMetric.const (fin 0)) = .ok st ∧
        st.2 = sumSlots (d.hours.take n) ∧ st.1.WellFormed ∧
        st.1.dayCount = c.dayCount ∧ st.1.dailyTotals = c.dailyTotals ∧
        ∀ (m : Metric) (k : ℕ),
          (st.1.hourly.get m).getD k [] =
            (c.hourly.get m).getD k [] ++ (if k < n then [(d.slot k).get m] else []) ∧
          (st.1.share.get m).getD k [] =
            (c.share.get m).getD k [] ++
              (if k < n then [safeDiv ((d.slot k).get m) (totals.get m)] else []) ∧
          (st.1.cumCompletion.get m).getD k [] =
            (c.cumCompletion.get m).getD k [] ++
              (if k < n then
                [safeDiv ((sumSlots (d.hours.take (k + 1))).get m) (totals.get m)] else []) := by
  intro n
  induction n with
  | zero =>
    intro _
    exact ⟨(c, PerMetric.const (fin 0)), rfl, rfl, hc, rfl, rfl, fun m k => by simp⟩
  | succ j ih =>
    intro hj
    obtain ⟨st, hst, hcum, hwf, hdc, hdt, hrows⟩ := ih (by omega)
    obtain ⟨c1, cum1⟩ := st
    simp only at hcum hwf hdc hdt hrows
    rw [List.range_succ, List.foldlM_append, hst]
    simp only [bind, Except.bind, List.foldlM]
    rw [hourStep_ok d totals c1 cum1 hwf j (by omega) hlen]
    simp only [pure, Except.pure]
    refine ⟨_, rfl, ?_, ?_, hdc, hdt, ?_⟩
    · simp only [sumSlots] at hcum ⊢
      rw [take_succ_slot d j (by omega), List.foldl_append, hcum]
      rfl
    · intro m
      simp only [PerMetric.get_zipWith, length_pushed]
      exact hwf m
    · intro m k
      obtain ⟨r1, r2, r3⟩ := hrows m k
      have l1 : j < (c1.hourly.get m).length := by rw [(hwf m).1]; omega
      have l2 : j < (c1.share.get m).length := by rw [(hwf m).2.1]; omega
      have l3 : j < (c1.cumCompletion.get m).length := by rw [(hwf m).2.2]; omega
      have hsum : PerMetric.zipWith add cum1 (d.slot j) = sumSlots (d.hours.take (j + 1)) := by
        simp only [sumSlots] at hcum ⊢
        rw [take_succ_slot d j (by omega), List.foldl_append, hcum]
        rfl
      simp only [PerMetric.get_zipWith, getD_pushed _ _ _ _ l1, getD_pushed _ _ _ _ l2,
        getD_pushed _ _ _ _ l3, r1, r2, r3, List.append_assoc]
      rw [← PerMetric.get_zipWith add, hsum]
      by_cases hk : k = j
      · subst hk
        simp
      · have hlt : k < j + 1 ↔ k < j := by omega
        simp [hk, hlt]

/-- What `accumulateDay` records for a day with 24 slots on a well-formed container:
the day count, the daily total, and per hour the value, the share and the
cumulative completion ratio of every metric. -/
theorem accumulateDay_ok (c : Container) (hc : c.WellFormed) (d : Day)
    (hlen : d.hours.length = 24) :
    ∃ c1, accumulateDay c d = .ok c1 ∧ c1.WellFormed ∧ c1.dayCount = c.dayCount + 1 ∧
      ∀ m : Metric,
        c1.dailyTotals.get m = c.dailyTotals.get m ++ [(sumSlots d.hours).get m] ∧
        ∀ k, k < 24 →
          (c1.hourly.get m).getD k [] = (c.hourly.get m).getD k [] ++ [(d.slot k).get m] ∧
          (c1.share.get m).getD k [] =
            (c.share.get m).getD k [] ++
              [safeDiv ((d.slot k).get m) ((sumSlots d.hours).get m)] ∧
          (c1.cumCompletion.get m).getD k [] =
            (c.cumCompletion.get m).getD k [] ++
              [safeDiv ((sumSlots (d.hours.take (k + 1))).get m)
                ((sumSlots d.hours).get m)] := by
  obtain ⟨st, hst, -, hwf, hdc, hdt, hrows⟩ :=
    hourLoop_ok d (sumSlots d.hours)
      { c with
        dayCount := c.dayCount + 1
        dailyTotals := PerMetric.zipWith (fun l v => l ++ [v]) c.dailyTotals (sumSlots d.hours) }
      hc hlen 24 le_rfl
  refine ⟨st.1, ?_, hwf, hdc, fun m => ⟨?_, fun k hk => ?_⟩⟩
  · unfold accumulateDay
    rw [dayTotals_ok d hlen]
    simp only [bind, Except.bind]
    rw [hst]
    rfl
  · rw [hdt]
    simp
  · obtain ⟨r1, r2, r3⟩ := hrows m k
    simp only [hk, if_true] at r1 r2 r3
    exact ⟨r1, r2, r3⟩

/-! ## Finite values -/

theorem foldl_add_map_fin (vs : List ℚ) :
    ∀ a : ℚ, (vs.map fin).foldl add (fin a) = fin (a + vs.sum) := by
  induction vs with
  | nil => intro a; simp
  | cons v t ih =>
    intro a
    simp only [List.map_cons, List.foldl_cons, add, ih, List.sum_cons]
    congr 1
    ring

theorem foldl_zipWith_add_get (xs : List HourlyMetrics) (m : Metric) :
    ∀ init : PerMetric JSNum,
      (xs.foldl (PerMetric.zipWith add) init).get m =
        (xs.map fun x => x.get m).foldl add (init.get m) := by
  induction xs with
  | nil => intro init; rfl
  | cons x t ih =>
    intro init
    simp only [List.foldl_cons, List.map_cons, ih, PerMetric.get_zipWith]

/-- The sum of the slots, for a metric whose values are the finite numbers `vs`. -/
theorem sumSlots_get_fin (xs : List HourlyMetrics) (m : Metric) (vs : List ℚ)
    (hvs : (xs.map fun x => x.get m) = vs.map fin) : (sumSlots xs).get m = fin vs.sum := by
  unfold sumSlots
  rw [foldl_zipWith_add_get, hvs, PerMetric.get_const, foldl_add_map_fin]
  simp

theorem sumSlots_take_get_fin (xs : List HourlyMetrics) (m : Metric) (vs : List ℚ)
    (hvs : (xs.map fun x => x.get m) = vs.map fin) (n : ℕ) :
    (sumSlots (xs.take n)).get m = fin (vs.take n).sum := by
  apply sumSlots_get_fin
  rw [List.map_take, hvs, List.map_take]

theorem slot_get_fin (d : Day) (m : Metric) (vs : List ℚ)
    (hvs : (d.hours.map fun x => x.get m) = vs.map fin) (k : ℕ) (hk : k < d.hours.length) :
    (d.slot k).get m = fin (vs.getD k 0) := by
  have hl : vs.length = d.hours.length := by
    have := congrArg List.length hvs
    simpa using this.symm
  have h1 : (d.hours.map fun x => x.get m)[k]? = (vs.map fin)[k]? := by rw [hvs]
  simp only [List.getElem?_map, List.getElem?_eq_getElem hk,
    List.getElem?_eq_getElem (hl ▸ hk : k < vs.length), Option.map_some',
    Option.some.injEq] at h1
  simp only [Day.slot, List.getD_eq_getElem _ _ hk,
    List.getD_eq_getElem _ _ (hl ▸ hk : k < vs.length)]
  exact h1

theorem sum_map_div (vs : List ℚ) (s : ℚ) : (vs.map fun v => v / s).sum = vs.sum / s := by
  induction vs with
  | nil => simp
  | cons v t ih => simp only [List.map_cons, List.sum_cons, ih]; ring

/-! ## Claims about `summarize` and the per-day accumulation -/

/-- C8: for a non-empty array of `n` finite numbers, `summarize` returns
`mean = sum / n`, `std = sqrt(sum of (x - mean)^2 / n)` (divisor `n`), and the three
quantiles at 0.25, 0.5 and 0.75. -/
theorem summarize_finite (sqrtQ : ℚ → ℚ) (qs : List ℚ) (hne : qs ≠ []) :
    summarize sqrtQ (qs.map fin) =
      { p25 := quantile (qs.map fin) (1 / 4)
        p50 := quantile (qs.map fin) (1 / 2)
        p75 := quantile (qs.map fin) (3 / 4)
        mean := fin (qs.sum / qs.length)
        std := fin (sqrtQ ((qs.map fun x => (x - qs.sum / qs.length) ^ 2).sum / qs.length)) } ∧
    (0 : ℚ) ≤ (qs.map fun x => (x - qs.sum / qs.length) ^ 2).sum / (qs.length : ℚ) := by
  have hpos : 0 < qs.length := List.length_pos.mpr hne
  have hn : (qs.length : ℚ) ≠ 0 := by exact_mod_cast hpos.ne'
  have hlen : ¬ (qs.map fin).length = 0 := by simpa using hne
  have hmean : div ((qs.map fin).foldl add (fin 0)) (fin (qs.map fin).length)
      = fin (qs.sum / qs.length) := by
    rw [foldl_add_map_fin]
    simp [div, hn]
  have hstep : ∀ a v μ : ℚ,
      add (fin a) (pow2 (sub (fin v) (fin μ))) = fin (a + (v - μ) ^ 2) := by
    intro a v μ
    simp only [sub, neg, add, pow2]
    congr 1
    ring
  have hfold : ∀ (l : List ℚ) (μ a : ℚ),
      (l.map fin).foldl (fun a b => add a (pow2 (sub b (fin μ)))) (fin a)
        = fin (a + (l.map fun x => (x - μ) ^ 2).sum) := by
    intro l μ
    induction l with
    | nil => intro a; simp
    | cons v t ih =>
      intro a
      simp only [List.map_cons, List.foldl_cons, hstep, ih, List.sum_cons]
      congr 1
      ring
  have hvar0 : (0 : ℚ) ≤
      (qs.map fun x => (x - qs.sum / qs.length) ^ 2).sum / (qs.length : ℚ) := by
    apply div_nonneg
    · apply List.sum_nonneg
      intro x hx
      obtain ⟨y, -, rfl⟩ := List.mem_map.1 hx
      positivity
    · positivity
  refine ⟨?_, hvar0⟩
  unfold summarize
  simp only [ne_eq, hlen, not_false_eq_true, if_true, hmean, hfold]
  simp only [List.length_map, div, hn, if_false, zero_add, isFinite, if_true, JSNum.sqrt,
    not_lt.mpr hvar0]

/-- Instance of C8: the values 2, 4, 4, 4, 5, 5, 7, 9 have mean 5 and population
standard deviation 2. -/
theorem summarize_finite_witness :
    (summarize Rat.sqrt ([(2 : ℚ), 4, 4, 4, 5, 5, 7, 9].map fin)).mean = fin 5 ∧
    (summarize Rat.sqrt ([(2 : ℚ), 4, 4, 4, 5, 5, 7, 9].map fin)).std = fin 2 := by
  have h := (summarize_finite Rat.sqrt [2, 4, 4, 4, 5, 5, 7, 9] (by simp)).1
  rw [h]
  have h4 : Rat.sqrt 4 = 2 := by
    rw [show (4 : ℚ) = 2 * 2 by norm_num, Rat.sqrt_eq]
    norm_num
  constructor
  · norm_num
  · norm_num [h4]

/-- C9: for a day with 24 slots and a metric with finite hourly values `vs` whose
total is positive, `accumulateDay` records the total, records `1` as the cumulative
completion ratio at hour 23, and the 24 shares it records sum to `1`. -/
theorem accumulateDay_completion (c : Container) (hc : c.WellFormed) (d : Day)
    (hlen : d.hours.length = 24) (m : Metric) (vs : List ℚ)
    (hvs : (d.hours.map fun x => x.get m) = vs.map fin) (htotal : 0 < vs.sum) :
    ∃ (c1 : Container) (shares : List ℚ), accumulateDay c d = .ok c1 ∧
      c1.dailyTotals.get m = c.dailyTotals.get m ++ [fin vs.sum] ∧
      (c1.cumCompletion.get m).getD 23 [] = (c.cumCompletion.get m).getD 23 [] ++ [fin 1] ∧
      shares.length = 24 ∧
      (∀ k, k < 24 →
        (c1.share.get m).getD k [] = (c.share.get m).getD k [] ++ [fin (shares.getD k 0)]) ∧
      shares.sum = 1 := by
  obtain ⟨c1, hacc, -, -, hrec⟩ := accumulateDay_ok c hc d hlen
  obtain ⟨htot, hrows⟩ := hrec m
  have hl : vs.length = 24 := by
    have := congrArg List.length hvs
    simp only [List.length_map] at this
    omega
  have hS : (sumSlots d.hours).get m = fin vs.sum := sumSlots_get_fin d.hours m vs hvs
  have hne : vs.sum ≠ 0 := htotal.ne'
  refine ⟨c1, vs.map fun v => v / vs.sum, hacc, ?_, ?_, by simp [hl], ?_, ?_⟩
  · rw [htot, hS]
  · rw [(hrows 23 (by norm_num)).2.2, hS, sumSlots_take_get_fin d.hours m vs hvs,
      List.take_of_length_le (by omega)]
    simp [safeDiv, truthy, hne, div]
  · intro k hk
    rw [(hrows k hk).2.1, hS, slot_get_fin d m vs hvs k (by omega)]
    have hk' : k < vs.length := by omega
    simp [safeDiv, truthy, hne, div, List.getD_eq_getElem?_getD, List.getElem?_map,
      List.getElem?_eq_getElem hk']
  · rw [sum_map_div, div_self hne]

theorem scenarioDay_length (date : String) (weekday : JSNum) :
    (scenarioDay date weekday).hours.length = 24 := by
  simp [scenarioDay]

/-- Instance of C9: a day of the reference scenario (revenue 10 in hours 0..9) on a
fresh container. -/
theorem accumulateDay_completion_witness :
    ∃ (c1 : Container) (shares : List ℚ), accumulateDay emptyContainer (scenarioDay "2024-01-01" (fin 1)) = .ok c1 ∧
      c1.dailyTotals.get .revenue = emptyContainer.dailyTotals.get .revenue ++
        [fin (List.replicate 10 (10 : ℚ) ++ List.replicate 14 0).sum] ∧
      (c1.cumCompletion.get .revenue).getD 23 [] =
        (emptyContainer.cumCompletion.get .revenue).getD 23 [] ++ [fin 1] ∧
      shares.length = 24 ∧
      (∀ k, k < 24 →
        (c1.share.get .revenue).getD k [] =
          (emptyContainer.share.get .revenue).getD k [] ++ [fin (shares.getD k 0)]) ∧
      shares.sum = 1 :=
  accumulateDay_completion emptyContainer emptyContainer_wellFormed
    (scenarioDay "2024-01-01" (fin 1)) (scenarioDay_length _ _) .revenue
    (List.replicate 10 10 ++ List.replicate 14 0)
    (by simp [scenarioDay, PerMetric.get, PerMetric.const])
    (by norm_num)

/-- C10: for a day with 24 slots that are all zero for a metric, `accumulateDay`
records the daily total `0` and records `NaN`, not `0`, as the share and as the
cumulative completion ratio at every hour `0..23`. -/
theorem accumulateDay_all_zero (c : Container) (hc : c.WellFormed) (d : Day)
    (hlen : d.hours.length = 24) (m : Metric) (hzero : ∀ x ∈ d.hours, x.get m = fin 0) :
    ∃ c1, accumulateDay c d = .ok c1 ∧
      c1.dailyTotals.get m = c.dailyTotals.get m ++ [fin 0] ∧
      ∀ k, k < 24 →
        (c1.share.get m).getD k [] = (c.share.get m).getD k [] ++ [nan] ∧
        (c1.cumCompletion.get m).getD k [] = (c.cumCompletion.get m).getD k [] ++ [nan] := by
  obtain ⟨c1, hacc, -, -, hrec⟩ := accumulateDay_ok c hc d hlen
  obtain ⟨htot, hrows⟩ := hrec m
  have hvs : (d.hours.map fun x => x.get m) = (List.replicate 24 (0 : ℚ)).map fin := by
    rw [List.map_replicate, List.eq_replicate_iff]
    refine ⟨by simp [hlen], fun b hb => ?_⟩
    obtain ⟨x, hx, rfl⟩ := List.mem_map.1 hb
    exact hzero x hx
  have hS : (sumSlots d.hours).get m = fin 0 := by
    rw [sumSlots_get_fin d.hours m _ hvs]
    simp
  refine ⟨c1, hacc, by rw [htot, hS], fun k hk => ?_⟩
  rw [(hrows k hk).2.1, (hrows k hk).2.2, hS]
  simp [safeDiv, truthy]

/-- Instance of C10: the impressions of a day of the reference scenario are all zero. -/
theorem accumulateDay_all_zero_witness :
    ∃ c1, accumulateDay emptyContainer (scenarioDay "2024-01-01" (fin 1)) = .ok c1 ∧
      c1.dailyTotals.get .impressions = emptyContainer.dailyTotals.get .impressions ++ [fin 0] ∧
      ∀ k, k < 24 →
        (c1.share.get .impressions).getD k [] =
          (emptyContainer.share.get .impressions).getD k [] ++ [nan] ∧
        (c1.cumCompletion.get .impressions).getD k [] =
          (emptyContainer.cumCompletion.get .impressions).getD k [] ++ [nan] :=
  accumulateDay_all_zero emptyContainer emptyContainer_wellFormed
    (scenarioDay "2024-01-01" (fin 1)) (scenarioDay_length _ _) .impressions
    (by
      intro x hx
      simp only [scenarioDay, List.mem_append, List.mem_replicate] at hx
      rcases hx with ⟨-, rfl⟩ | ⟨-, rfl⟩ <;> rfl)

/-! ## The day aggregator in closed form -/

theorem datesOf_append_singleton (l : List NormRow) (r : NormRow) :
    datesOf (l ++ [r]) = if r.date ∈ datesOf l then datesOf l else datesOf l ++ [r.date] := by
  simp [datesOf, List.foldl_append]

theorem mem_datesOf (l : List NormRow) (s : String) :
    s ∈ datesOf l ↔ ∃ r ∈ l, r.date = s := by
  induction l using List.reverseRecOn with
  | nil => simp [datesOf]
  | append_singleton l r ih =>
    rw [datesOf_append_singleton]
    by_cases hr : r.date ∈ datesOf l
    · rw [if_pos hr, ih]
      constructor
      · rintro ⟨x, hx, rfl⟩
        exact ⟨x, by simp [hx], rfl⟩
      · rintro ⟨x, hx, rfl⟩
        rcases List.mem_append.1 hx with h | h
        · exact ⟨x, h, rfl⟩
        · simp only [List.mem_singleton] at h
          subst h
          exact (ih).1 hr
    · rw [if_neg hr, List.mem_append, ih]
      constructor
      · rintro (⟨x, hx, rfl⟩ | h)
        · exact ⟨x, by simp [hx], rfl⟩
        · simp only [List.mem_singleton] at h
          exact ⟨r, by simp, h.symm⟩
      · rintro ⟨x, hx, rfl⟩
        rcases List.mem_append.1 hx with h | h
        · exact Or.inl ⟨x, h, rfl⟩
        · simp only [List.mem_singleton] at h
          subst h
          exact Or.inr (by simp)

theorem nodup_datesOf (l : List NormRow) : (datesOf l).Nodup := by
  induction l using List.reverseRecOn with
  | nil => simp [datesOf]
  | append_singleton l r ih =>
    rw [datesOf_append_singleton]
    by_cases hr : r.date ∈ datesOf l
    · rw [if_pos hr]; exact ih
    · rw [if_neg hr]
      exact List.Nodup.append ih (by simp) (by
        intro a ha hb
        simp only [List.mem_singleton] at hb
        subst hb
        exact hr ha)

theorem slotOf_append_singleton (l : List NormRow) (r : NormRow) (s : String) (h : ℕ) :
    slotOf (l ++ [r]) s h =
      if r.date = s ∧ r.hour = fin (h : ℚ) then r.metrics else slotOf l s h := by
  unfold slotOf lastFor
  rw [List.filter_append]
  by_cases hc : r.date = s ∧ r.hour = fin (h : ℚ)
  · simp [hc]
  · simp [hc]

/-- With distinct dates, `updateDay` rewrites the slot of the one day of that date. -/
theorem updateDay_eq_map (r : NormRow) (days : List Day) (hnd : (days.map Day.date).Nodup) :
    updateDay r days = days.map fun d =>
      if d.date = r.date then { d with hours := setAt d.hours r.hour r.metrics } else d := by
  induction days with
  | nil => rfl
  | cons d ds ih =>
    simp only [List.map_cons, List.nodup_cons] at hnd
    by_cases hd : d.date = r.date
    · simp only [updateDay, hd, if_true, List.map_cons]
      congr 1
      have hid : ∀ x ∈ ds, (if x.date = r.date then
          { x with hours := setAt x.hours r.hour r.metrics } else x) = x := by
        intro x hx
        have hne : x.date ≠ r.date := by
          intro e
          exact hnd.1 (by rw [hd, ← e]; exact List.mem_map_of_mem _ hx)
        rw [if_neg hne]
      rw [List.map_congr_left hid, List.map_id']
    · simp only [updateDay, hd, if_false, List.map_cons, ih hnd.2]

theorem keepRow_iff (n : NormRow) :
    keepRow n = true ↔ n.date ≠ "" ∧ ∃ q : ℚ, n.hour = fin q ∧ 0 ≤ q ∧ q ≤ 23 := by
  unfold keepRow
  cases hh : n.hour <;> simp [ge, le, hh, and_assoc]

theorem rat_eq_natCast_iff (q : ℚ) : (q.den = 1 ∧ 0 ≤ q.num) ↔ ∃ k : ℕ, q = (k : ℚ) := by
  constructor
  · rintro ⟨hd, hn⟩
    refine ⟨q.num.toNat, ?_⟩
    have h1 : q = (q.num : ℚ) := by
      have := Rat.num_div_den q
      rw [hd] at this
      simpa using this.symm
    rw [← Int.cast_natCast, Int.toNat_of_nonneg hn]
    exact h1
  · rintro ⟨k, rfl⟩
    simp

/-- The slot assignment on an array of 24 computed slots, for an hour in `[0, 23]`. -/
theorem setAt_range_map {α : Type} (f : ℕ → α) (q : ℚ) (h0 : 0 ≤ q) (h23 : q ≤ 23) (v : α) :
    setAt ((List.range 24).map f) (fin q) v =
      (List.range 24).map fun h : ℕ => if fin q = fin (h : ℚ) then v else f h := by
  simp only [setAt]
  by_cases hint : q.den = 1 ∧ 0 ≤ q.num
  · rw [if_pos hint]
    obtain ⟨k, hk⟩ := (rat_eq_natCast_iff q).1 hint
    subst hk
    have hk24 : k < 24 := by
      have : (k : ℚ) ≤ 23 := h23
      have : k ≤ 23 := by exact_mod_cast this
      omega
    simp only [Rat.num_natCast, Int.toNat_natCast]
    apply List.ext_getElem?
    intro i
    simp only [List.getElem?_set, List.getElem?_map, List.length_map, List.length_range]
    by_cases hki : k = i
    · subst hki
      simp [hk24, List.getElem?_range hk24]
    · rw [if_neg hki]
      by_cases hi : i < 24
      · have hne : ¬ (fin (k : ℚ) = fin (i : ℚ)) := by
          intro e
          simp only [fin.injEq, Nat.cast_inj] at e
          exact hki e
        simp [List.getElem?_range hi, hki]
      · simp [List.getElem?_eq_none (l := List.range 24) (by simpa using hi)]
  · rw [if_neg hint]
    apply List.map_congr_left
    intro h _
    have hne : ¬ (fin q = fin (h : ℚ)) := by
      intro e
      simp only [fin.injEq] at e
      exact hint ((rat_eq_natCast_iff q).2 ⟨h, e⟩)
    rw [if_neg hne]

theorem slotOf_of_not_mem (l : List NormRow) (s : String) (h : ℕ) (hs : s ∉ datesOf l) :
    slotOf l s h = PerMetric.const (fin 0) := by
  have hnil : (l.filter fun r => r.date = s ∧ r.hour = fin (h : ℚ)) = [] := by
    rw [List.filter_eq_nil_iff]
    intro r hr
    simp only [decide_eq_true_eq, not_and]
    intro e
    exact absurd ((mem_datesOf l s).2 ⟨r, hr, e⟩) hs
  unfold slotOf lastFor
  rw [hnil]
  rfl

theorem zeroHours_eq : zeroHours = (List.range 24).map fun _ => (PerMetric.const (fin 0) : HourlyMetrics) := by
  decide!

/-- The profile of a date after one more retained record. -/
theorem dayOf_append_singleton (dw : String → JSNum) (l : List NormRow) (r : NormRow)
    (hr : keepRow r = true) (s : String) :
    dayOf dw (l ++ [r]) s =
      if s = r.date then
        { dayOf dw l s with hours := setAt (dayOf dw l s).hours r.hour r.metrics }
      else dayOf dw l s := by
  obtain ⟨-, q, hq, h0, h23⟩ := (keepRow_iff r).1 hr
  by_cases hs : s = r.date
  · rw [if_pos hs]
    simp only [dayOf, hq, setAt_range_map _ q h0 h23]
    congr 1
    apply List.map_congr_left
    intro h _
    rw [slotOf_append_singleton, hq]
    simp [hs]
  · rw [if_neg hs]
    simp only [dayOf]
    congr 1
    apply List.map_congr_left
    intro h _
    rw [slotOf_append_singleton]
    have : ¬ (r.date = s ∧ r.hour = fin (h : ℚ)) := fun e => hs e.1.symm
    rw [if_neg this]

/-- Closed form of the grouping loop over retained records. -/
theorem foldl_addRow (dw : String → JSNum) (norm : List NormRow)
    (hkeep : ∀ r ∈ norm, keepRow r = true) :
    norm.foldl (addRow dw) [] = (datesOf norm).map (dayOf dw norm) := by
  induction norm using List.reverseRecOn with
  | nil => rfl
  | append_singleton l r ih =>
    have hr : keepRow r = true := hkeep r (by simp)
    rw [List.foldl_append, ih (fun x hx => hkeep x (by simp [hx]))]
    simp only [List.foldl_cons, List.foldl_nil]
    have hdates : ((datesOf l).map (dayOf dw l)).map Day.date = datesOf l := by
      rw [List.map_map]
      exact List.map_id'' (fun s => rfl) _
    have hany : (((datesOf l).map (dayOf dw l)).any fun d => decide (d.date = r.date)) = true ↔
        r.date ∈ datesOf l := by
      simp only [List.any_eq_true, List.mem_map, decide_eq_true_eq]
      constructor
      · rintro ⟨d, ⟨s, hs, rfl⟩, hd⟩
        simp only [dayOf] at hd
        rw [← hd]; exact hs
      · intro hin
        exact ⟨dayOf dw l r.date, ⟨r.date, hin, rfl⟩, rfl⟩
    rw [datesOf_append_singleton]
    unfold addRow
    by_cases hin : r.date ∈ datesOf l
    · rw [if_pos hin]
      simp only [hany.2 hin, if_true]
      rw [updateDay_eq_map r _ (by rw [hdates]; exact nodup_datesOf l), List.map_map]
      apply List.map_congr_left
      intro s _
      simp only [Function.comp]
      rw [dayOf_append_singleton dw l r hr s]
      rfl
    · rw [if_neg hin]
      have hany' : (((datesOf l).map (dayOf dw l)).any fun d => decide (d.date = r.date))
          = false := by
        cases hb : (((datesOf l).map (dayOf dw l)).any fun d => decide (d.date = r.date)) with
        | false => rfl
        | true => exact absurd (hany.1 hb) hin
      simp only [hany', Bool.false_eq_true, if_false]
      have hnd : ((((datesOf l).map (dayOf dw l)) ++
          [({ date := r.date, weekday := dw r.date, hours := zeroHours } : Day)]).map
            Day.date).Nodup := by
        rw [List.map_append, hdates]
        simp only [List.map_cons, List.map_nil]
        exact List.Nodup.append (nodup_datesOf l) (by simp) (by
          intro a ha hb
          simp only [List.mem_singleton] at hb
          subst hb
          exact hin ha)
      rw [updateDay_eq_map r _ hnd, List.map_append, List.map_append, List.map_map]
      congr 1
      · apply List.map_congr_left
        intro s _
        simp only [Function.comp]
        rw [dayOf_append_singleton dw l r hr s]
        rfl
      · simp only [List.map_cons, List.map_nil, if_true]
        rw [dayOf_append_singleton dw l r hr r.date, if_pos rfl]
        have hz : dayOf dw l r.date =
            { date := r.date, weekday := dw r.date, hours := zeroHours } := by
          simp only [dayOf, zeroHours_eq]
          congr 1
          apply List.map_congr_left
          intro h _
          exact slotOf_of_not_mem l r.date h hin
        rw [hz]

/-- Closed form of the day aggregator: one profile per distinct retained date, in order
of first occurrence, with the slots of `slotOf`. -/
theorem groupDays_eq (dw : String → JSNum) (rows : List RawRow) :
    groupDays dw rows = (datesOf (retained rows)).map (dayOf dw (retained rows)) := by
  unfold groupDays
  exact foldl_addRow dw (retained rows) (fun r hr => (List.mem_filter.1 hr).2)

/-! ## The accumulation over all days in closed form -/

@[simp] theorem PerMetric.get_ofFn {α : Type} (f : Metric → α) (m : Metric) :
    (PerMetric.ofFn f).get m = f m := by
  cases m <;> rfl

theorem PerMetric.ext_get {α : Type} (p q : PerMetric α) (h : ∀ m, p.get m = q.get m) :
    p = q := by
  have h1 := h .revenue
  have h2 := h .impressions
  have h3 := h .clicks
  have h4 := h .sessions
  simp only [PerMetric.get] at h1 h2 h3 h4
  cases p
  cases q
  simp only [PerMetric.mk.injEq]
  exact ⟨h1, h2, h3, h4⟩

theorem table_ext (t1 t2 : List (List JSNum)) (h1 : t1.length = 24) (h2 : t2.length = 24)
    (h : ∀ k, k < 24 → t1.getD k [] = t2.getD k []) : t1 = t2 := by
  apply List.ext_getElem (by rw [h1, h2])
  intro k hk1 hk2
  have := h k (by omega)
  rwa [List.getD_eq_getElem _ _ hk1, List.getD_eq_getElem _ _ hk2] at this

theorem getD_range_map {α : Type} (f : ℕ → List α) (n k : ℕ) (hk : k < n) :
    ((List.range n).map f).getD k [] = f k := by
  rw [List.getD_eq_getElem _ _ (by simpa using hk)]
  simp

/-- Two well-formed containers with the same count, totals and rows are equal. -/
theorem container_ext (c1 c2 : Container) (h1 : c1.WellFormed) (h2 : c2.WellFormed)
    (hd : c1.dayCount = c2.dayCount)
    (ht : ∀ m, c1.dailyTotals.get m = c2.dailyTotals.get m)
    (hr : ∀ m k, k < 24 →
      (c1.hourly.get m).getD k [] = (c2.hourly.get m).getD k [] ∧
      (c1.share.get m).getD k [] = (c2.share.get m).getD k [] ∧
      (c1.cumCompletion.get m).getD k [] = (c2.cumCompletion.get m).getD k []) :
    c1 = c2 := by
  have e1 : c1.dailyTotals = c2.dailyTotals := PerMetric.ext_get _ _ ht
  have e2 : c1.hourly = c2.hourly := PerMetric.ext_get _ _ fun m =>
    table_ext _ _ (h1 m).1 (h2 m).1 fun k hk => (hr m k hk).1
  have e3 : c1.share = c2.share := PerMetric.ext_get _ _ fun m =>
    table_ext _ _ (h1 m).2.1 (h2 m).2.1 fun k hk => (hr m k hk).2.1
  have e4 : c1.cumCompletion = c2.cumCompletion := PerMetric.ext_get _ _ fun m =>
    table_ext _ _ (h1 m).2.2 (h2 m).2.2 fun k hk => (hr m k hk).2.2
  cases c1
  cases c2
  simp only [Container.mk.injEq]
  exact ⟨hd, e1, e4, e2, e3⟩

theorem containerOf_wellFormed (ds : List Day) : (containerOf ds).WellFormed := by
  intro m
  simp [containerOf]

theorem containerOf_nil : containerOf [] = emptyContainer := by
  decide!

/-- Accumulating one more day extends the closed form. -/
theorem accumulateDay_containerOf (ds : List Day) (d : Day) (hlen : d.hours.length = 24) :
    accumulateDay (containerOf ds) d = .ok (containerOf (ds ++ [d])) := by
  obtain ⟨c1, hacc, hwf, hdc, hrec⟩ :=
    accumulateDay_ok (containerOf ds) (containerOf_wellFormed ds) d hlen
  rw [hacc]
  congr 1
  apply container_ext c1 _ hwf (containerOf_wellFormed _)
  · rw [hdc]; simp [containerOf]
  · intro m
    rw [(hrec m).1]
    simp [containerOf]
  · intro m k hk
    obtain ⟨r1, r2, r3⟩ := (hrec m).2 k hk
    rw [r1, r2, r3]
    simp only [containerOf, PerMetric.get_ofFn, getD_range_map _ 24 k hk, List.map_append,
      List.map_cons, List.map_nil, and_self]

theorem length_statsOf (days : List Day) : (statsOf days).length = 7 := by
  simp [statsOf]

theorem statsOf_nil : statsOf [] = List.replicate 7 emptyContainer := by
  decide!

theorem bucket_append_singleton (pre : List Day) (d : Day) (w : ℕ) :
    bucket (pre ++ [d]) w =
      if d.weekday = fin (w : ℚ) then bucket pre w ++ [d] else bucket pre w := by
  unfold bucket
  rw [List.filter_append]
  by_cases h : d.weekday = fin (w : ℚ) <;> simp [h]

/-- A weekday that is not one of `0..6` names no container. -/
theorem getAt_length_seven_none {α : Type} (l : List α) (hl : l.length = 7) (x : JSNum)
    (hx : ¬ ∃ w : ℕ, w < 7 ∧ x = fin (w : ℚ)) : getAt l x = none := by
  cases x with
  | fin q =>
    simp only [getAt]
    by_cases hint : q.den = 1 ∧ 0 ≤ q.num
    · rw [if_pos hint]
      obtain ⟨k, rfl⟩ := (rat_eq_natCast_iff q).1 hint
      simp only [Rat.num_natCast, Int.toNat_natCast]
      have hk : ¬ k < 7 := fun h => hx ⟨k, h, rfl⟩
      have hlk : l.length ≤ k := by omega
      simp [List.getElem?_eq_none hlk]
    · rw [if_neg hint]
  | nan => rfl
  | posInf => rfl
  | negInf => rfl
  | undef => rfl

/-- Processing a day of weekday `w0` with 24 slots extends the closed form. -/
theorem processDay_statsOf (pre : List Day) (d : Day) (w0 : ℕ) (hw0 : w0 < 7)
    (hwd : d.weekday = fin (w0 : ℚ)) (hlen : d.hours.length = 24) :
    processDay (statsOf pre) d = .ok (statsOf (pre ++ [d])) := by
  have hget : getAt (statsOf pre) d.weekday = some (containerOf (bucket pre w0)) := by
    rw [hwd, getAt_natCast]
    simp [statsOf, List.getElem?_range hw0, hw0]
  unfold processDay
  rw [hget]
  simp only [bind, Except.bind, accumulateDay_containerOf _ d hlen, pure, Except.pure]
  congr 1
  rw [hwd]
  simp only [setAt, Rat.den_natCast, Rat.num_natCast, Int.natCast_nonneg, and_self, if_true,
    Int.toNat_natCast]
  apply List.ext_getElem?
  intro i
  simp only [statsOf, List.getElem?_set, List.length_map, List.length_range, List.getElem?_map]
  by_cases hi : w0 = i
  · subst hi
    simp [hw0, List.getElem?_range hw0, bucket_append_singleton, hwd]
  · rw [if_neg hi]
    by_cases hi7 : i < 7
    · have hne : ¬ (fin (w0 : ℚ) = fin (i : ℚ)) := by
        intro e
        simp only [fin.injEq, Nat.cast_inj] at e
        exact hi e
      simp [List.getElem?_range hi7, bucket_append_singleton, hwd, hi]
    · simp [List.getElem?_eq_none (l := List.range 7) (by simpa using hi7)]

/-- A day whose weekday is not one of `0..6` makes `processDay` raise. -/
theorem processDay_invalid (stats : List Container) (hl : stats.length = 7) (d : Day)
    (hwd : ¬ ∃ w : ℕ, w < 7 ∧ d.weekday = fin (w : ℚ)) :
    processDay stats d = .error .typeError := by
  unfold processDay
  rw [getAt_length_seven_none stats hl d.weekday hwd]

/-- The day loop of `buildStats` on days with 24 slots: the closed form when every
weekday is one of `0..6`, a `TypeError` otherwise. -/
theorem foldlM_processDay (rest : List Day) (hlen : ∀ d ∈ rest, d.hours.length = 24) :
    ∀ pre : List Day,
      rest.foldlM processDay (statsOf pre) =
        if ∀ d ∈ rest, ∃ w : ℕ, w < 7 ∧ d.weekday = fin (w : ℚ) then
          .ok (statsOf (pre ++ rest))
        else .error .typeError := by
  induction rest with
  | nil => intro pre; simp [pure, Except.pure]
  | cons d ds ih =>
    intro pre
    simp only [List.foldlM, bind, Except.bind]
    by_cases hd : ∃ w : ℕ, w < 7 ∧ d.weekday = fin (w : ℚ)
    · obtain ⟨w0, hw0, hwd⟩ := hd
      rw [processDay_statsOf pre d w0 hw0 hwd (hlen d (by simp))]
      simp only
      rw [ih (fun x hx => hlen x (by simp [hx])) (pre ++ [d])]
      have hiff : (∀ x ∈ d :: ds, ∃ w : ℕ, w < 7 ∧ x.weekday = fin (w : ℚ)) ↔
          (∀ x ∈ ds, ∃ w : ℕ, w < 7 ∧ x.weekday = fin (w : ℚ)) := by
        constructor
        · intro h x hx; exact h x (by simp [hx])
        · intro h x hx
          rcases List.mem_cons.1 hx with rfl | hx
          · exact ⟨w0, hw0, hwd⟩
          · exact h x hx
      by_cases hall : ∀ x ∈ ds, ∃ w : ℕ, w < 7 ∧ x.weekday = fin (w : ℚ)
      · rw [if_pos hall, if_pos (hiff.2 hall)]
        simp
      · rw [if_neg hall, if_neg (fun h => hall (hiff.1 h))]
    · rw [processDay_invalid _ (length_statsOf pre) d hd]
      have : ¬ ∀ x ∈ d :: ds, ∃ w : ℕ, w < 7 ∧ x.weekday = fin (w : ℚ) :=
        fun h => hd (h d (by simp))
      rw [if_neg this]

theorem length_hours_groupDays (dw : String → JSNum) (rows : List RawRow) :
    ∀ d ∈ groupDays dw rows, d.hours.length = 24 := by
  intro d hd
  rw [groupDays_eq] at hd
  obtain ⟨s, -, rfl⟩ := List.mem_map.1 hd
  simp [dayOf]

/-- Closed form of `buildStats`: the summaries of the seven containers when every day
has a weekday `0..6`, a `TypeError` otherwise. -/
theorem buildStats_eq (dw : String → JSNum) (sqrtQ : ℚ → ℚ) (rows : List RawRow) :
    buildStats dw sqrtQ rows =
      if ∀ d ∈ groupDays dw rows, ∃ w : ℕ, w < 7 ∧ d.weekday = fin (w : ℚ) then
        .ok ((statsOf (groupDays dw rows)).map (summarizeContainer sqrtQ))
      else .error .typeError := by
  unfold buildStats
  simp only [bind, Except.bind]
  rw [← statsOf_nil, foldlM_processDay _ (length_hours_groupDays dw rows) []]
  by_cases h : ∀ d ∈ groupDays dw rows, ∃ w : ℕ, w < 7 ∧ d.weekday = fin (w : ℚ)
  · rw [if_pos h, if_pos h]
    rfl
  · rw [if_neg h, if_neg h]

theorem summarizeContainer_wellFormed (sqrtQ : ℚ → ℚ) (c : Container) :
    (summarizeContainer sqrtQ c).WellFormed := by
  intro m
  simp [summarizeContainer, summarizeTable]

theorem weekday_groupDays (dw : String → JSNum) (rows : List RawRow) :
    ∀ d ∈ groupDays dw rows, d.weekday = dw d.date ∧ ∃ r ∈ retained rows, r.date = d.date := by
  intro d hd
  rw [groupDays_eq] at hd
  obtain ⟨s, hs, rfl⟩ := List.mem_map.1 hd
  exact ⟨rfl, (mem_datesOf _ s).1 hs⟩

/-! ## Claims about `buildStats` -/

/-- C11 at the failing input: a single retained record whose date gives no weekday
`0..6`.  The claim has `buildStats` return its seven entries for every row sequence
without raising; here it raises a `TypeError`. -/
theorem buildStats_invalid_date_raises :
    keepRow (normalize ⟨"not a date", fin 0, ⟨fin 10, fin 0, fin 0, fin 0⟩⟩) = true ∧
    buildStats mondayUnlessInvalid Rat.sqrt
      [⟨"not a date", fin 0, ⟨fin 10, fin 0, fin 0, fin 0⟩⟩] = .error .typeError := by
  refine ⟨by decide!, ?_⟩
  rw [buildStats_eq, if_neg (by decide!)]

/-- For every row sequence whose retained dates all give a weekday `0..6`, `buildStats`
raises nothing and returns seven entries, each with 24 summaries per metric in each of
its three per-hour tables; entry `w` counts the days of weekday `w`, and with no such
day its `dayCount` is `0` and every field of every summary is `NaN`. -/
theorem buildStats_entries (dw : String → JSNum) (sqrtQ : ℚ → ℚ) (rows : List RawRow)
    (hvalid : ∀ r ∈ retained rows, ∃ w : ℕ, w < 7 ∧ dw r.date = fin (w : ℚ)) :
    ∃ out, buildStats dw sqrtQ rows = .ok out ∧ out.length = 7 ∧
      (∀ e ∈ out, e.WellFormed) ∧
      ∀ w, w < 7 → ∃ e, out.get? w = some e ∧
        e.dayCount = (bucket (groupDays dw rows) w).length ∧
        (bucket (groupDays dw rows) w = [] →
          e = { dayCount := 0
                daily := PerMetric.const ⟨nan, nan, nan, nan, nan⟩
                hourly := PerMetric.const (List.replicate 24 ⟨nan, nan, nan, nan, nan⟩)
                share := PerMetric.const (List.replicate 24 ⟨nan, nan, nan, nan, nan⟩)
                cumCompletion :=
                  PerMetric.const (List.replicate 24 ⟨nan, nan, nan, nan, nan⟩) }) := by
  have hall : ∀ d ∈ groupDays dw rows, ∃ w : ℕ, w < 7 ∧ d.weekday = fin (w : ℚ) := by
    intro d hd
    obtain ⟨h1, r, hr, hrd⟩ := weekday_groupDays dw rows d hd
    obtain ⟨w, hw, hdw⟩ := hvalid r hr
    exact ⟨w, hw, by rw [h1, ← hrd, hdw]⟩
  refine ⟨_, by rw [buildStats_eq, if_pos hall], by simp [statsOf], ?_, ?_⟩
  · intro e he
    obtain ⟨c, -, rfl⟩ := List.mem_map.1 he
    exact summarizeContainer_wellFormed sqrtQ c
  · intro w hw
    refine ⟨summarizeContainer sqrtQ (containerOf (bucket (groupDays dw rows) w)), ?_, ?_, ?_⟩
    · simp [statsOf, List.getElem?_range hw, hw]
    · simp [summarizeContainer, containerOf]
    · intro hnil
      rw [hnil, containerOf_nil, summarizeContainer_empty]

/-- The reference scenario has days on Monday only, so the entry of weekday 0 is empty. -/
theorem buildStats_entries_scenario :
    ∃ out e, buildStats (fun _ => fin 1) Rat.sqrt scenarioRows = .ok out ∧ out.length = 7 ∧
      out.get? 0 = some e ∧ e.dayCount = 0 ∧
      e.daily = PerMetric.const ⟨nan, nan, nan, nan, nan⟩ ∧
      e.cumCompletion = PerMetric.const (List.replicate 24 ⟨nan, nan, nan, nan, nan⟩) := by
  obtain ⟨out, h1, h2, -, h4⟩ := buildStats_entries (fun _ => fin 1) Rat.sqrt scenarioRows
    (fun r _ => ⟨1, by norm_num, by norm_num⟩)
  obtain ⟨e, he, hc, hempty⟩ := h4 0 (by norm_num)
  have hb : bucket (groupDays (fun _ => fin 1) scenarioRows) 0 = [] := by decide!
  have he' := hempty hb
  exact ⟨out, e, h1, h2, he, by rw [he'], by rw [he'], by rw [he']⟩

theorem get?_summarizeTable (sqrtQ : ℚ → ℚ) (table : List (List JSNum)) (k : ℕ) (hk : k < 24) :
    (summarizeTable sqrtQ table).get? k = some (summarize sqrtQ (table.getD k [])) := by
  simp [summarizeTable, List.getElem?_range hk, hk]

theorem groupDays_scenarioRows :
    groupDays (fun _ => fin 1) scenarioRows =
      [scenarioDay "2024-01-01" (fin 1), scenarioDay "2024-01-08" (fin 1),
        scenarioDay "2024-01-15" (fin 1)] := by
  decide!

/-- C12: the reference scenario.  For three days of one weekday, each with revenue 10 in
the hours 0..9 and none afterwards, `buildStats` gives that weekday a revenue completion
median of 0.1 at hour 0 and 1 at hour 9, and the forecast for revenue so far 50 at
checkpoint hour 9 with the current hour included has `eod = 50`. -/
theorem scenario_forecast (sqrtQ : ℚ → ℚ) :
    ∃ out entry s0 s9 f, buildStats (fun _ => fin 1) sqrtQ scenarioRows = .ok out ∧
      out.get? 1 = some entry ∧ entry.dayCount = 3 ∧
      entry.cumCompletion.revenue.get? 0 = some s0 ∧ s0.p50 = fin (1 / 10) ∧
      entry.cumCompletion.revenue.get? 9 = some s9 ∧ s9.p50 = fin 1 ∧
      forecast (some entry) (fin 9) true (revenueOnly (fin 50)) = .ok (some f) ∧
      f.eod = fin 50 := by
  have hall : ∀ d ∈ groupDays (fun _ => fin 1) scenarioRows,
      ∃ w : ℕ, w < 7 ∧ d.weekday = fin (w : ℚ) := by
    intro d hd
    obtain ⟨h1, -⟩ := weekday_groupDays (fun _ => fin 1) scenarioRows d hd
    exact ⟨1, by norm_num, by rw [h1]; norm_num⟩
  have hb : bucket (groupDays (fun _ => fin 1) scenarioRows) 1 =
      [scenarioDay "2024-01-01" (fin 1), scenarioDay "2024-01-08" (fin 1),
        scenarioDay "2024-01-15" (fin 1)] := by
    decide!
  have hentry : ((statsOf (groupDays (fun _ => fin 1) scenarioRows)).map
      (summarizeContainer sqrtQ)).get? 1 =
      some (summarizeContainer sqrtQ (containerOf
        [scenarioDay "2024-01-01" (fin 1), scenarioDay "2024-01-08" (fin 1),
          scenarioDay "2024-01-15" (fin 1)])) := by
    rw [← hb]
    simp [statsOf, List.getElem?_range (show 1 < 7 by norm_num)]
  have h0 : (summarizeContainer sqrtQ (containerOf
        [scenarioDay "2024-01-01" (fin 1), scenarioDay "2024-01-08" (fin 1),
          scenarioDay "2024-01-15" (fin 1)])).cumCompletion.revenue.get? 0 =
      some (summarize sqrtQ [fin (1 / 10), fin (1 / 10), fin (1 / 10)]) := by
    simp only [summarizeContainer, PerMetric.map]
    rw [get?_summarizeTable _ _ 0 (by norm_num)]
    congr 2
    decide!
  have h9 : (summarizeContainer sqrtQ (containerOf
        [scenarioDay "2024-01-01" (fin 1), scenarioDay "2024-01-08" (fin 1),
          scenarioDay "2024-01-15" (fin 1)])).cumCompletion.revenue.get? 9 =
      some (summarize sqrtQ [fin 1, fin 1, fin 1]) := by
    simp only [summarizeContainer, PerMetric.map]
    rw [get?_summarizeTable _ _ 9 (by norm_num)]
    congr 2
    decide!
  obtain ⟨cr, ws, rows, g1, -, -, g4⟩ := forecast_ok
    (summarizeContainer sqrtQ (containerOf
        [scenarioDay "2024-01-01" (fin 1), scenarioDay "2024-01-08" (fin 1),
          scenarioDay "2024-01-15" (fin 1)]))
    (summarizeContainer_wellFormed sqrtQ _) (fin 9) true (revenueOnly (fin 50)) 9
    (by norm_num) (by norm_num [effectiveHour, JSNum.max, JSNum.min])
    (by simp [has, revenueOnly, isFinite, gt, lt])
  have hcr : cr = summarize sqrtQ [fin 1, fin 1, fin 1] := by
    rw [h9] at g1
    exact (Option.some.inj g1).symm
  have hq0 : quantile [fin (1 / 10), fin (1 / 10), fin (1 / 10)] (1 / 2) = fin (1 / 10) := by
    decide!
  have hq9 : quantile [fin 1, fin 1, fin 1] (1 / 2) = fin 1 := by decide!
  refine ⟨_, _, _, _, _, by rw [buildStats_eq, if_pos hall], hentry, ?_, h0, hq0, h9, hq9, g4,
    ?_⟩
  · simp [summarizeContainer, containerOf]
  · show div (revenueOnly (fin 50)).revenue cr.p50 = fin 50
    rw [hcr]
    show div (fin 50) (quantile [fin 1, fin 1, fin 1] (1 / 2)) = fin 50
    rw [hq9]
    simp [div]

/-! ## Claims about the day aggregator -/

/-- C18: the day aggregator keeps exactly the records with a non-blank date and an hour
in `[0, 23]`, raises nothing, creates one profile per distinct retained date, and every
profile has 24 slots, slot `h` holding the metrics of the last retained record for its
date and hour `h`, all-zero if there is none. -/
theorem groupDays_profiles (dw : String → JSNum) (rows : List RawRow) :
    (∀ n : NormRow,
      keepRow n = true ↔ n.date ≠ "" ∧ ∃ q : ℚ, n.hour = fin q ∧ 0 ≤ q ∧ q ≤ 23) ∧
    groupDays dw rows = ((rows.map normalize).filter keepRow).foldl (addRow dw) [] ∧
    ((groupDays dw rows).map Day.date).Nodup ∧
    (∀ s, s ∈ (groupDays dw rows).map Day.date ↔
      ∃ r ∈ (rows.map normalize).filter keepRow, r.date = s) ∧
    ∀ d ∈ groupDays dw rows, d.weekday = dw d.date ∧ d.hours.length = 24 ∧
      ∀ h, h < 24 →
        d.hours.get? h = some
          (match lastFor ((rows.map normalize).filter keepRow) d.date h with
            | some r => r.metrics
            | none => PerMetric.const (fin 0)) := by
  have hdates : (groupDays dw rows).map Day.date = datesOf (retained rows) := by
    rw [groupDays_eq, List.map_map]
    exact List.map_id'' (fun s => rfl) _
  refine ⟨keepRow_iff, rfl, ?_, ?_, ?_⟩
  · rw [hdates]; exact nodup_datesOf _
  · intro s
    rw [hdates]
    exact mem_datesOf _ s
  · intro d hd
    rw [groupDays_eq] at hd
    obtain ⟨s, -, rfl⟩ := List.mem_map.1 hd
    refine ⟨rfl, by simp [dayOf], ?_⟩
    intro h hh
    simp only [dayOf, List.get?_eq_getElem?, List.getElem?_map, List.getElem?_range hh,
      Option.map_some']
    rfl

/-! ## Rearranging an array of finite numbers -/

theorem add_comm_js (x y : JSNum) : add x y = add y x := by
  cases x <;> cases y <;> simp [add, add_comm]

theorem add_assoc_js (x y z : JSNum) : add (add x y) z = add x (add y z) := by
  cases x <;> cases y <;> cases z <;> simp [add, add_assoc]

theorem add_right_comm_js (a x y : JSNum) : add (add a x) y = add (add a y) x := by
  rw [add_assoc_js, add_comm_js x y, ← add_assoc_js]

/-- A sum folded with `+` does not depend on the order of the terms. -/
theorem foldl_add_perm (g : JSNum → JSNum) {l1 l2 : List JSNum} (hperm : l1.Perm l2)
    (a : JSNum) :
    l1.foldl (fun acc b => add acc (g b)) a = l2.foldl (fun acc b => add acc (g b)) a :=
  hperm.foldl_eq' (fun x _ y _ z => add_right_comm_js z (g x) (g y)) a

theorem eq_map_fin_of_finite (l : List JSNum) (hfin : ∀ x ∈ l, isFinite x = true) :
    l = (l.map JSNum.toRat).map fin := by
  rw [List.map_map]
  symm
  rw [List.map_congr_left (g := id), List.map_id]
  intro x hx
  have := hfin x hx
  cases x <;> simp [isFinite] at this
  rfl

/-- The comparator sort of finite numbers does not depend on their order. -/
theorem sortAsc_perm {l1 l2 : List JSNum} (hperm : l1.Perm l2)
    (hfin : ∀ x ∈ l1, isFinite x = true) : sortAsc l1 = sortAsc l2 := by
  have hfin2 : ∀ x ∈ l2, isFinite x = true := fun x hx => hfin x (hperm.mem_iff.2 hx)
  rw [eq_map_fin_of_finite l1 hfin, eq_map_fin_of_finite l2 hfin2]
  have hs : (l1.map JSNum.toRat).insertionSort (· ≤ ·) = (l2.map JSNum.toRat).insertionSort (· ≤ ·) :=
    List.eq_of_perm_of_sorted
      (((List.perm_insertionSort _ _).trans (hperm.map _)).trans
        (List.perm_insertionSort _ _).symm)
      (List.sorted_insertionSort _ _) (List.sorted_insertionSort _ _)
  rw [sortAsc_map_fin, sortAsc_map_fin, hs]

theorem quantile_perm {l1 l2 : List JSNum} (hperm : l1.Perm l2)
    (hfin : ∀ x ∈ l1, isFinite x = true) (q : ℚ) : quantile l1 q = quantile l2 q := by
  unfold quantile
  rw [sortAsc_perm hperm hfin, hperm.length_eq]

/-- The summary of an array of finite numbers does not depend on their order. -/
theorem summarize_perm (sqrtQ : ℚ → ℚ) {l1 l2 : List JSNum} (hperm : l1.Perm l2)
    (hfin : ∀ x ∈ l1, isFinite x = true) : summarize sqrtQ l1 = summarize sqrtQ l2 := by
  have hsum : l1.foldl add (fin 0) = l2.foldl add (fin 0) :=
    foldl_add_perm (fun b => b) hperm (fin 0)
  unfold summarize
  simp only [quantile_perm hperm hfin, hperm.length_eq, hsum]
  have hvar : ∀ μ : JSNum,
      l1.foldl (fun a b => add a (pow2 (sub b μ))) (fin 0) =
        l2.foldl (fun a b => add a (pow2 (sub b μ))) (fin 0) :=
    fun μ => foldl_add_perm (fun b => pow2 (sub b μ)) hperm (fin 0)
  simp only [hvar]

/-! ## Order independence of `buildStats` -/

theorem retained_perm {rows1 rows2 : List RawRow} (hperm : rows1.Perm rows2) :
    (retained rows1).Perm (retained rows2) :=
  (hperm.map normalize).filter keepRow

theorem datesOf_perm {l1 l2 : List NormRow} (hperm : l1.Perm l2) :
    (datesOf l1).Perm (datesOf l2) := by
  rw [List.perm_ext_iff_of_nodup (nodup_datesOf l1) (nodup_datesOf l2)]
  intro s
  rw [mem_datesOf, mem_datesOf]
  constructor
  · rintro ⟨r, hr, e⟩; exact ⟨r, hperm.mem_iff.1 hr, e⟩
  · rintro ⟨r, hr, e⟩; exact ⟨r, hperm.mem_iff.2 hr, e⟩

theorem perm_eq_of_length_le_one {α : Type} {a b : List α} (hp : a.Perm b)
    (hl : a.length ≤ 1) : a = b := by
  match a, hp, hl with
  | [], hp, _ => exact hp.symm.eq_nil.symm
  | [x], hp, _ => exact (List.perm_singleton.1 hp.symm).symm
  | x :: y :: t, _, hl => simp at hl

theorem length_le_one_of_nodup_map {α β : Type} (f : α → β) (c : β) (l : List α)
    (hc : ∀ x ∈ l, f x = c) (hnd : (l.map f).Nodup) : l.length ≤ 1 := by
  match l, hc, hnd with
  | [], _, _ => simp
  | [_], _, _ => simp
  | x :: y :: t, hc, hnd =>
    exfalso
    simp only [List.map_cons, List.nodup_cons, List.mem_cons, not_or] at hnd
    exact hnd.1.1 (by rw [hc x (by simp), hc y (by simp)])

/-- With at most one record per date and hour, the record found for a slot does not
depend on the order of the records. -/
theorem lastFor_perm {l1 l2 : List NormRow} (hperm : l1.Perm l2)
    (huniq : (l1.map fun r => (r.date, r.hour)).Nodup) (s : String) (h : ℕ) :
    lastFor l1 s h = lastFor l2 s h := by
  have hF : (l1.filter fun r => r.date = s ∧ r.hour = fin (h : ℚ)) =
      (l2.filter fun r => r.date = s ∧ r.hour = fin (h : ℚ)) := by
    apply perm_eq_of_length_le_one (hperm.filter _)
    apply length_le_one_of_nodup_map (fun r => (r.date, r.hour)) (s, fin (h : ℚ))
    · intro x hx
      have := (List.mem_filter.1 hx).2
      simp only [decide_eq_true_eq] at this
      rw [this.1, this.2]
    · exact huniq.sublist ((List.filter_sublist l1).map _)
  unfold lastFor
  rw [hF]

theorem dayOf_perm (dw : String → JSNum) {l1 l2 : List NormRow} (hperm : l1.Perm l2)
    (huniq : (l1.map fun r => (r.date, r.hour)).Nodup) (s : String) :
    dayOf dw l1 s = dayOf dw l2 s := by
  simp only [dayOf]
  congr 1
  apply List.map_congr_left
  intro h _
  unfold slotOf
  rw [lastFor_perm hperm huniq]

/-- Permuted records with at most one retained record per date and hour give the same
day profiles, up to their order. -/
theorem groupDays_perm (dw : String → JSNum) {rows1 rows2 : List RawRow}
    (hperm : rows1.Perm rows2)
    (huniq : ((retained rows1).map fun r => (r.date, r.hour)).Nodup) :
    (groupDays dw rows1).Perm (groupDays dw rows2) := by
  rw [groupDays_eq, groupDays_eq]
  have hfun : dayOf dw (retained rows1) = dayOf dw (retained rows2) :=
    funext fun s => dayOf_perm dw (retained_perm hperm) huniq s
  rw [hfun]
  exact (datesOf_perm (retained_perm hperm)).map _

theorem normalize_metrics_finite (r : RawRow) (m : Metric) :
    isFinite ((normalize r).metrics.get m) = true := by
  simp only [normalize, PerMetric.get_map]
  split
  · assumption
  · rfl

/-- Every slot of every day profile holds finite numbers. -/
theorem slot_finite_groupDays (dw : String → JSNum) (rows : List RawRow) :
    ∀ d ∈ groupDays dw rows, ∀ x ∈ d.hours, ∀ m : Metric, isFinite (x.get m) = true := by
  intro d hd x hx m
  rw [groupDays_eq] at hd
  obtain ⟨s, -, rfl⟩ := List.mem_map.1 hd
  simp only [dayOf, List.mem_map, List.mem_range] at hx
  obtain ⟨h, -, rfl⟩ := hx
  unfold slotOf
  cases hl : lastFor (retained rows) s h with
  | none => simp [isFinite]
  | some r =>
    simp only
    have hr : r ∈ retained rows := by
      unfold lastFor at hl
      exact (List.mem_filter.1 (List.mem_of_mem_getLast? hl)).1
    obtain ⟨raw, -, rfl⟩ := List.mem_map.1 (List.mem_filter.1 hr).1
    exact normalize_metrics_finite raw m

theorem foldl_add_finite (l : List JSNum) (hfin : ∀ x ∈ l, isFinite x = true) :
    isFinite (l.foldl add (fin 0)) = true := by
  rw [eq_map_fin_of_finite l hfin, foldl_add_map_fin]
  rfl

theorem sumSlots_finite (xs : List HourlyMetrics)
    (hfin : ∀ x ∈ xs, ∀ m : Metric, isFinite (x.get m) = true) (m : Metric) :
    isFinite ((sumSlots xs).get m) = true := by
  unfold sumSlots
  rw [foldl_zipWith_add_get, PerMetric.get_const]
  apply foldl_add_finite
  intro v hv
  obtain ⟨x, hx, rfl⟩ := List.mem_map.1 hv
  exact hfin x hx m

theorem slot_finite (d : Day) (hfin : ∀ x ∈ d.hours, ∀ m : Metric, isFinite (x.get m) = true)
    (k : ℕ) (m : Metric) : isFinite ((d.slot k).get m) = true := by
  unfold Day.slot
  by_cases hk : k < d.hours.length
  · rw [List.getD_eq_getElem _ _ hk]
    exact hfin _ (List.getElem_mem _) m
  · rw [List.getD_eq_default _ _ (by omega)]
    simp [isFinite]

theorem safeDiv_finite (a b : JSNum) (ha : isFinite a = true) (hb : isFinite b = true)
    (ht : truthy b = true) : isFinite (safeDiv a b) = true := by
  cases a <;> simp [isFinite] at ha
  cases b <;> simp [isFinite] at hb
  simp only [truthy, decide_eq_true_eq] at ht
  simp [safeDiv, truthy, ht, div, isFinite]

/-- The summaries of a container do not depend on the order of its days, when every
day has finite slots and non-zero daily totals. -/
theorem summarizeContainer_perm (sqrtQ : ℚ → ℚ) {ds1 ds2 : List Day} (hperm : ds1.Perm ds2)
    (hfin : ∀ d ∈ ds1, ∀ x ∈ d.hours, ∀ m : Metric, isFinite (x.get m) = true)
    (hnz : ∀ d ∈ ds1, ∀ m : Metric, truthy ((sumSlots d.hours).get m) = true) :
    summarizeContainer sqrtQ (containerOf ds1) = summarizeContainer sqrtQ (containerOf ds2) := by
  have htake : ∀ d ∈ ds1, ∀ k, ∀ x ∈ d.hours.take k, ∀ m : Metric, isFinite (x.get m) = true :=
    fun d hd k x hx m => hfin d hd x (List.mem_of_mem_take hx) m
  have e0 : ds1.length = ds2.length := hperm.length_eq
  have e1 : ∀ m, summarize sqrtQ (ds1.map fun d => (sumSlots d.hours).get m) =
      summarize sqrtQ (ds2.map fun d => (sumSlots d.hours).get m) := fun m =>
    summarize_perm sqrtQ (hperm.map _) (by
      intro v hv
      obtain ⟨d, hd, rfl⟩ := List.mem_map.1 hv
      exact sumSlots_finite _ (hfin d hd) m)
  have e2 : ∀ m k, summarize sqrtQ (ds1.map fun d => (d.slot k).get m) =
      summarize sqrtQ (ds2.map fun d => (d.slot k).get m) := fun m k =>
    summarize_perm sqrtQ (hperm.map _) (by
      intro v hv
      obtain ⟨d, hd, rfl⟩ := List.mem_map.1 hv
      exact slot_finite d (hfin d hd) k m)
  have e3 : ∀ m k, summarize sqrtQ (ds1.map fun d =>
        safeDiv ((d.slot k).get m) ((sumSlots d.hours).get m)) =
      summarize sqrtQ (ds2.map fun d =>
        safeDiv ((d.slot k).get m) ((sumSlots d.hours).get m)) := fun m k =>
    summarize_perm sqrtQ (hperm.map _) (by
      intro v hv
      obtain ⟨d, hd, rfl⟩ := List.mem_map.1 hv
      exact safeDiv_finite _ _ (slot_finite d (hfin d hd) k m)
        (sumSlots_finite _ (hfin d hd) m) (hnz d hd m))
  have e4 : ∀ m k, summarize sqrtQ (ds1.map fun d =>
        safeDiv ((sumSlots (d.hours.take (k + 1))).get m) ((sumSlots d.hours).get m)) =
      summarize sqrtQ (ds2.map fun d =>
        safeDiv ((sumSlots (d.hours.take (k + 1))).get m) ((sumSlots d.hours).get m)) :=
    fun m k => summarize_perm sqrtQ (hperm.map _) (by
      intro v hv
      obtain ⟨d, hd, rfl⟩ := List.mem_map.1 hv
      exact safeDiv_finite _ _ (sumSlots_finite _ (htake d hd (k + 1)) m)
        (sumSlots_finite _ (hfin d hd) m) (hnz d hd m))
  have htab : ∀ (F1 F2 : ℕ → List JSNum),
      (∀ k, summarize sqrtQ (F1 k) = summarize sqrtQ (F2 k)) →
      summarizeTable sqrtQ ((List.range 24).map F1) =
        summarizeTable sqrtQ ((List.range 24).map F2) := by
    intro F1 F2 hF
    unfold summarizeTable
    apply List.map_congr_left
    intro k hk
    rw [getD_range_map F1 24 k (List.mem_range.1 hk),
      getD_range_map F2 24 k (List.mem_range.1 hk)]
    exact hF k
  simp only [summarizeContainer, containerOf, e0]
  congr 1
  · apply PerMetric.ext_get
    intro m
    simp only [PerMetric.get_map, PerMetric.get_ofFn]
    exact e1 m
  · apply PerMetric.ext_get
    intro m
    simp only [PerMetric.get_map, PerMetric.get_ofFn]
    exact htab _ _ (e2 m)
  · apply PerMetric.ext_get
    intro m
    simp only [PerMetric.get_map, PerMetric.get_ofFn]
    exact htab _ _ (e3 m)
  · apply PerMetric.ext_get
    intro m
    simp only [PerMetric.get_map, PerMetric.get_ofFn]
    exact htab _ _ (e4 m)

/-- C19 at the failing input: three single-record days, the first without sessions (so
its sessions ratios are `NaN`), in two orders.  The claim has `buildStats` return equal
statistics for the two orders; the sessions completion median is `1` in one and `NaN`
in the other. -/
theorem buildStats_order_dependent :
    mixedRows.Perm mixedRowsSwapped ∧
    ((retained mixedRows).map fun r => (r.date, r.hour)).Nodup ∧
    mondaySessionsMedian (buildStats (fun _ => fin 1) Rat.sqrt mixedRows) = some (fin 1) ∧
    mondaySessionsMedian (buildStats (fun _ => fin 1) Rat.sqrt mixedRowsSwapped) = some nan ∧
    buildStats (fun _ => fin 1) Rat.sqrt mixedRows ≠
      buildStats (fun _ => fin 1) Rat.sqrt mixedRowsSwapped := by
  have h1 : mondaySessionsMedian (buildStats (fun _ => fin 1) Rat.sqrt mixedRows) =
      some (fin 1) := by decide!
  have h2 : mondaySessionsMedian (buildStats (fun _ => fin 1) Rat.sqrt mixedRowsSwapped) =
      some nan := by decide!
  refine ⟨List.Perm.swap _ _ _, by decide!, h1, h2, ?_⟩
  intro e
  rw [e, h2] at h1
  exact absurd h1 (by decide)

/-- For two record sequences that are permutations of each other, with at most one
retained record per date and hour and with a non-zero daily total of every metric on
every day, `buildStats` returns the same result: the same `dayCount` and the same
summaries for every weekday. -/
theorem buildStats_perm (dw : String → JSNum) (sqrtQ : ℚ → ℚ) (rows1 rows2 : List RawRow)
    (hperm : rows1.Perm rows2)
    (huniq : ((retained rows1).map fun r => (r.date, r.hour)).Nodup)
    (hnz : ∀ d ∈ groupDays dw rows1, ∀ m : Metric,
      truthy ((sumSlots d.hours).get m) = true) :
    buildStats dw sqrtQ rows1 = buildStats dw sqrtQ rows2 := by
  have hdays : (groupDays dw rows1).Perm (groupDays dw rows2) := groupDays_perm dw hperm huniq
  have hvalid : (∀ d ∈ groupDays dw rows1, ∃ w : ℕ, w < 7 ∧ d.weekday = fin (w : ℚ)) ↔
      (∀ d ∈ groupDays dw rows2, ∃ w : ℕ, w < 7 ∧ d.weekday = fin (w : ℚ)) := by
    constructor
    · intro h d hd; exact h d (hdays.mem_iff.2 hd)
    · intro h d hd; exact h d (hdays.mem_iff.1 hd)
  rw [buildStats_eq, buildStats_eq]
  by_cases hv : ∀ d ∈ groupDays dw rows1, ∃ w : ℕ, w < 7 ∧ d.weekday = fin (w : ℚ)
  · rw [if_pos hv, if_pos (hvalid.1 hv)]
    congr 1
    simp only [statsOf, List.map_map]
    apply List.map_congr_left
    intro w _
    simp only [Function.comp]
    apply summarizeContainer_perm sqrtQ (hdays.filter _)
    · intro d hd
      exact slot_finite_groupDays dw rows1 d (List.mem_filter.1 hd).1
    · intro d hd
      exact hnz d (List.mem_filter.1 hd).1
  · rw [if_neg hv, if_neg (fun h => hv (hvalid.2 h))]

/-- Two days with all four metrics recorded give the same result in either order. -/
theorem buildStats_perm_two_days :
    buildStats (fun _ => fin 1) Rat.sqrt
        [⟨"2024-01-08", fin 0, ⟨fin 10, fin 100, fin 10, fin 5⟩⟩,
         ⟨"2024-01-15", fin 3, ⟨fin 20, fin 50, fin 4, fin 2⟩⟩] =
      buildStats (fun _ => fin 1) Rat.sqrt
        [⟨"2024-01-15", fin 3, ⟨fin 20, fin 50, fin 4, fin 2⟩⟩,
         ⟨"2024-01-08", fin 0, ⟨fin 10, fin 100, fin 10, fin 5⟩⟩] :=
  buildStats_perm _ _ _ _ (List.Perm.swap _ _ _) (by decide!) (by
    intro d hd m
    revert d
    cases m <;> decide!)

/-! ## The warning layer -/

/-- The forecast is `null` exactly when the guard of App.jsx 342 fires. -/
theorem forecast_none_iff (wStats : Option WeekdayStats) (hour : JSNum) (inc : Bool)
    (inputs : PerMetric JSNum) :
    forecast wStats hour inc inputs = .ok none ↔
      wStats = none ∨ has inputs.revenue = false := by
  cases wStats with
  | none => simp [forecast, pure, Except.pure]
  | some w =>
    cases hrev : has inputs.revenue with
    | false => simp [forecast, hrev, pure, Except.pure]
    | true =>
      simp only [forecast, hrev, Bool.not_true, Bool.false_eq_true, if_false, or_self,
        iff_false, reduceCtorEq]
      cases hg : summaryAt w.cumCompletion.revenue (effectiveHour hour inc) with
      | error e => simp [bind, Except.bind]
      | ok cr =>
        simp only [bind, Except.bind]
        cases hws : warningsOf w inputs (effectiveHour hour inc) with
        | error e => simp
        | ok ws =>
          simp only
          cases hrows : hourRows w (div inputs.revenue cr.p50) with
          | error e => simp
          | ok rows => simp [pure, Except.pure]

/-- The hour fields and the warnings of a forecast object. -/
theorem forecast_some_warnings (wStats : Option WeekdayStats) (hour : JSNum) (inc : Bool)
    (inputs : PerMetric JSNum) (f : Forecast)
    (hf : forecast wStats hour inc inputs = .ok (some f)) :
    ∃ w, wStats = some w ∧
      f.hourSelected = JSNum.max (fin 0) (JSNum.min (fin 23) hour) ∧
      warningsOf w inputs (effectiveHour hour inc) = .ok f.warnings := by
  cases wStats with
  | none => simp [forecast, pure, Except.pure] at hf
  | some w =>
    cases hrev : has inputs.revenue with
    | false => simp [forecast, hrev, pure, Except.pure] at hf
    | true =>
      simp only [forecast, hrev, Bool.not_true, Bool.false_eq_true, if_false] at hf
      cases hg : getAt w.cumCompletion.revenue (effectiveHour hour inc) with
      | none => simp [summaryAt, hg, bind, Except.bind] at hf
      | some cr =>
        simp only [summaryAt, hg, bind, Except.bind] at hf
        cases hws : warningsOf w inputs (effectiveHour hour inc) with
        | error e => simp [hws] at hf
        | ok ws =>
          simp only [hws] at hf
          cases hrows : hourRows w (div inputs.revenue cr.p50) with
          | error e => simp [hrows] at hf
          | ok rows =>
            simp only [hrows, pure, Except.pure, Except.ok.injEq, Option.some.injEq] at hf
            subst hf
            exact ⟨w, rfl, rfl, hws⟩

/-- Where the quotient is finite, `safeDiv` is the quotient; it is finite nowhere else. -/
theorem safeDiv_finite_iff (a b : JSNum) :
    (isFinite (safeDiv a b) = isFinite (div a b)) ∧
      (isFinite (div a b) = true → safeDiv a b = div a b) := by
  cases b with
  | fin q =>
    by_cases hq : q = 0
    · subst hq
      cases a with
      | fin x =>
        simp only [safeDiv, truthy, div, infOfSign, ne_eq, not_true_eq_false, decide_False,
          Bool.false_eq_true, if_false, if_true]
        split <;> [skip; split] <;> simp [isFinite]
      | nan => simp [safeDiv, truthy, div, isFinite]
      | posInf => simp [safeDiv, truthy, div, isFinite]
      | negInf => simp [safeDiv, truthy, div, isFinite]
      | undef => simp [safeDiv, truthy, div, isFinite]
    · simp [safeDiv, truthy, hq]
  | nan => cases a <;> simp [safeDiv, truthy, div, isFinite]
  | posInf => simp [safeDiv, truthy]
  | negInf => simp [safeDiv, truthy]
  | undef => cases a <;> simp [safeDiv, truthy, div, isFinite]

/-- The result of one traffic check that did not raise. -/
theorem trafficCheck_inv (w : WeekdayStats) (inputs : PerMetric JSNum) (h : JSNum)
    (m : Metric) (ws : List Warning) (hws : trafficCheck w inputs h m = .ok ws) :
    (has (inputs.get m) = false ∧ ws = []) ∨
    (has (inputs.get m) = true ∧ ∃ s, getAt (w.cumCompletion.get m) h = some s ∧
      ws =
        if isFinite (div (sub (inputs.get m) (mul (w.daily.get m).mean s.p50))
              (mul (w.daily.get m).mean s.p50)) = true ∧
            ge (JSNum.abs (div (sub (inputs.get m) (mul (w.daily.get m).mean s.p50))
              (mul (w.daily.get m).mean s.p50))) (fin (8 / 100)) = true then
          [{ tone := if lt (div (sub (inputs.get m) (mul (w.daily.get m).mean s.p50))
                (mul (w.daily.get m).mean s.p50)) (fin 0) then .bad else .good
             kind := .traffic m
             below := lt (div (sub (inputs.get m) (mul (w.daily.get m).mean s.p50))
                (mul (w.daily.get m).mean s.p50)) (fin 0)
             magnitude := JSNum.abs (mul (div (sub (inputs.get m)
                (mul (w.daily.get m).mean s.p50)) (mul (w.daily.get m).mean s.p50)) (fin 100))
             hour := h }]
        else []) := by
  unfold trafficCheck at hws
  cases hhas : has (inputs.get m) with
  | false =>
    left
    simp only [hhas, Bool.false_eq_true, if_false, pure, Except.pure, Except.ok.injEq] at hws
    exact ⟨rfl, hws.symm⟩
  | true =>
    right
    simp only [hhas, if_true] at hws
    cases hg : getAt (w.cumCompletion.get m) h with
    | none => simp [summaryAt, hg, bind, Except.bind] at hws
    | some s =>
      refine ⟨rfl, s, rfl, ?_⟩
      simp only [summaryAt, hg, bind, Except.bind] at hws
      obtain ⟨e1, e2⟩ := safeDiv_finite_iff (sub (inputs.get m) (mul (w.daily.get m).mean s.p50))
        (mul (w.daily.get m).mean s.p50)
      by_cases hfin : isFinite (div (sub (inputs.get m) (mul (w.daily.get m).mean s.p50))
          (mul (w.daily.get m).mean s.p50)) = true
      · rw [e2 hfin] at hws
        by_cases hge : ge (JSNum.abs (div (sub (inputs.get m) (mul (w.daily.get m).mean s.p50))
            (mul (w.daily.get m).mean s.p50))) (fin (8 / 100)) = true
        · simp only [hfin, hge, Bool.and_self, if_true, pure, Except.pure,
            Except.ok.injEq] at hws
          rw [if_pos ⟨hfin, hge⟩]
          exact hws.symm
        · simp only [hfin, hge, Bool.and_false, Bool.false_eq_true, if_false, pure,
            Except.pure, Except.ok.injEq] at hws
          rw [if_neg (fun c => hge c.2)]
          exact hws.symm
      · have hfin' : isFinite (safeDiv (sub (inputs.get m) (mul (w.daily.get m).mean s.p50))
            (mul (w.daily.get m).mean s.p50)) = false := by
          rw [e1]; simpa using hfin
        simp only [hfin', Bool.false_and, Bool.false_eq_true, if_false, pure, Except.pure,
          Except.ok.injEq] at hws
        rw [if_neg (fun c => hfin c.1)]
        exact hws.symm

/-- The warnings of a run that did not raise, by source. -/
theorem warningsOf_inv (w : WeekdayStats) (inputs : PerMetric JSNum) (h : JSNum)
    (ws : List Warning) (hws : warningsOf w inputs h = .ok ws) :
    ∃ w1 w2 w3, trafficCheck w inputs h .impressions = .ok w1 ∧
      trafficCheck w inputs h .clicks = .ok w2 ∧ trafficCheck w inputs h .sessions = .ok w3 ∧
      ws = w1 ++ w2 ++ w3 ++ efficiencyCheck w inputs h .sessions .revenuePerSession
        ++ efficiencyCheck w inputs h .clicks .revenuePerClick := by
  unfold warningsOf at hws
  cases h1 : trafficCheck w inputs h .impressions with
  | error e => simp [h1, bind, Except.bind] at hws
  | ok w1 =>
    cases h2 : trafficCheck w inputs h .clicks with
    | error e => simp [h1, h2, bind, Except.bind] at hws
    | ok w2 =>
      cases h3 : trafficCheck w inputs h .sessions with
      | error e => simp [h1, h2, h3, bind, Except.bind] at hws
      | ok w3 =>
        simp only [h1, h2, h3, bind, Except.bind, pure, Except.pure, Except.ok.injEq] at hws
        exact ⟨w1, w2, w3, rfl, rfl, rfl, hws.symm⟩

theorem trafficCheck_kind (w : WeekdayStats) (inputs : PerMetric JSNum) (h : JSNum)
    (m : Metric) (ws : List Warning) (hws : trafficCheck w inputs h m = .ok ws) :
    ∀ x ∈ ws, x.kind = .traffic m := by
  intro x hx
  rcases trafficCheck_inv w inputs h m ws hws with ⟨-, rfl⟩ | ⟨-, s, -, rfl⟩
  · simp at hx
  · split at hx
    · simp only [List.mem_singleton] at hx
      rw [hx]
    · simp at hx

theorem efficiencyCheck_kind (w : WeekdayStats) (inputs : PerMetric JSNum) (h : JSNum)
    (m : Metric) (k : WarningKind) : ∀ x ∈ efficiencyCheck w inputs h m k, x.kind = k := by
  intro x hx
  unfold efficiencyCheck at hx
  split at hx
  · simp only at hx
    split at hx
    · simp only [List.mem_singleton] at hx
      rw [hx]
    · simp at hx
  · simp at hx

/-- The traffic warnings of a metric within all warnings of a run. -/
theorem warnings_traffic (w : WeekdayStats) (inputs : PerMetric JSNum) (h : JSNum)
    (ws : List Warning) (hws : warningsOf w inputs h = .ok ws) (m : Metric)
    (hm : m ≠ .revenue) :
    ∃ wm, trafficCheck w inputs h m = .ok wm ∧
      ∀ x, (x ∈ ws ∧ x.kind = .traffic m) ↔ x ∈ wm := by
  obtain ⟨w1, w2, w3, h1, h2, h3, rfl⟩ := warningsOf_inv w inputs h ws hws
  have k1 := trafficCheck_kind w inputs h _ w1 h1
  have k2 := trafficCheck_kind w inputs h _ w2 h2
  have k3 := trafficCheck_kind w inputs h _ w3 h3
  have k4 := efficiencyCheck_kind w inputs h .sessions .revenuePerSession
  have k5 := efficiencyCheck_kind w inputs h .clicks .revenuePerClick
  cases m with
  | revenue => exact absurd rfl hm
  | impressions =>
    refine ⟨w1, h1, fun x => ⟨?_, fun hx => ⟨by simp [hx], k1 x hx⟩⟩⟩
    rintro ⟨hx, hk⟩
    simp only [List.mem_append] at hx
    rcases hx with (((hx | hx) | hx) | hx) | hx
    · exact hx
    · rw [k2 x hx] at hk; cases hk
    · rw [k3 x hx] at hk; cases hk
    · rw [k4 x hx] at hk; cases hk
    · rw [k5 x hx] at hk; cases hk
  | clicks =>
    refine ⟨w2, h2, fun x => ⟨?_, fun hx => ⟨by simp [hx], k2 x hx⟩⟩⟩
    rintro ⟨hx, hk⟩
    simp only [List.mem_append] at hx
    rcases hx with (((hx | hx) | hx) | hx) | hx
    · rw [k1 x hx] at hk; cases hk
    · exact hx
    · rw [k3 x hx] at hk; cases hk
    · rw [k4 x hx] at hk; cases hk
    · rw [k5 x hx] at hk; cases hk
  | sessions =>
    refine ⟨w3, h3, fun x => ⟨?_, fun hx => ⟨by simp [hx], k3 x hx⟩⟩⟩
    rintro ⟨hx, hk⟩
    simp only [List.mem_append] at hx
    rcases hx with (((hx | hx) | hx) | hx) | hx
    · rw [k1 x hx] at hk; cases hk
    · rw [k2 x hx] at hk; cases hk
    · exact hx
    · rw [k4 x hx] at hk; cases hk
    · rw [k5 x hx] at hk; cases hk

/-! ## Claims about the warnings -/

/-- C16: in every forecast and for each traffic metric `m`, a traffic warning for `m` is
emitted iff the observed value is positive and finite and `deviationPct = (observed -
expected) / expected`, with `expected = mean daily total * p50` of the metric's own
cumulative completion at the effective hour, is finite with `|deviationPct| ≥ 0.08`; the
warning reads `below` iff `deviationPct < 0`; an observed value that is not positive
and finite gives no warning. -/
theorem forecast_traffic_warning (wStats : Option WeekdayStats) (hour : JSNum) (inc : Bool)
    (inputs : PerMetric JSNum) (f : Forecast)
    (hf : forecast wStats hour inc inputs = .ok (some f)) (m : Metric) (hm : m ≠ .revenue) :
    ∃ w, wStats = some w ∧
      ((∃ x ∈ f.warnings, x.kind = .traffic m) ↔
        (∃ o : ℚ, 0 < o ∧ inputs.get m = fin o) ∧
          ∃ s, getAt (w.cumCompletion.get m) (effectiveHour hour inc) = some s ∧
            isFinite (specDeviationPct w inputs m s) = true ∧
            ge (JSNum.abs (specDeviationPct w inputs m s)) (fin (8 / 100)) = true) ∧
      (∀ x ∈ f.warnings, x.kind = .traffic m →
        ∃ s, getAt (w.cumCompletion.get m) (effectiveHour hour inc) = some s ∧
          x.below = lt (specDeviationPct w inputs m s) (fin 0) ∧
          x.tone = (if lt (specDeviationPct w inputs m s) (fin 0) then .bad else .good)) ∧
      ((¬ ∃ o : ℚ, 0 < o ∧ inputs.get m = fin o) →
        ∀ x ∈ f.warnings, x.kind ≠ .traffic m) := by
  obtain ⟨w, hw, -, hws⟩ := forecast_some_warnings wStats hour inc inputs f hf
  obtain ⟨wm, hwm, hmem⟩ := warnings_traffic w inputs _ f.warnings hws m hm
  have hinv := trafficCheck_inv w inputs (effectiveHour hour inc) m wm hwm
  refine ⟨w, hw, ?_, ?_, ?_⟩
  · rw [← has_eq_true_iff]
    constructor
    · rintro ⟨x, hx, hk⟩
      have hxm : x ∈ wm := (hmem x).1 ⟨hx, hk⟩
      rcases hinv with ⟨-, rfl⟩ | ⟨hhas, s, hs, rfl⟩
      · simp at hxm
      · refine ⟨hhas, s, hs, ?_⟩
        by_contra hc
        simp only [specDeviationPct] at hc
        rw [if_neg hc] at hxm
        simp at hxm
    · rintro ⟨hhas, s, hs, hfin, hge⟩
      rcases hinv with ⟨hno, -⟩ | ⟨-, s', hs', rfl⟩
      · rw [hhas] at hno; cases hno
      · have : s' = s := by rw [hs] at hs'; exact (Option.some.inj hs').symm
        subst this
        simp only [specDeviationPct] at hfin hge
        rw [if_pos ⟨hfin, hge⟩] at hmem
        have hW := (hmem _).2 (List.mem_singleton.2 rfl)
        exact ⟨_, hW.1, hW.2⟩
  · intro x hx hk
    have hxm : x ∈ wm := (hmem x).1 ⟨hx, hk⟩
    rcases hinv with ⟨-, rfl⟩ | ⟨-, s, hs, rfl⟩
    · simp at hxm
    · refine ⟨s, hs, ?_⟩
      split at hxm
      · simp only [List.mem_singleton] at hxm
        rw [hxm]
        exact ⟨rfl, rfl⟩
      · simp at hxm
  · intro hno x hx hk
    have hxm : x ∈ wm := (hmem x).1 ⟨hx, hk⟩
    rcases hinv with ⟨-, rfl⟩ | ⟨hhas, -, -, -⟩
    · simp at hxm
    · exact hno ((has_eq_true_iff _).1 hhas)

theorem div_nonfinite_of_not_truthy (a b : JSNum) (hb : truthy b = false) :
    isFinite (div a b) = false := by
  cases b with
  | fin q =>
    have hq : q = 0 := by simpa [truthy] using hb
    subst hq
    cases a with
    | fin x =>
      simp only [div, infOfSign, if_true]
      split <;> [skip; split] <;> simp [isFinite]
    | nan => simp [div, isFinite]
    | posInf => simp [div, isFinite]
    | negInf => simp [div, isFinite]
    | undef => simp [div, isFinite]
  | nan => cases a <;> simp [div, isFinite]
  | posInf => simp [truthy] at hb
  | negInf => simp [truthy] at hb
  | undef => cases a <;> simp [div, isFinite]

theorem div_sub_nonfinite (r x : JSNum) (hx : isFinite x = false) :
    isFinite (div (sub r x) x) = false := by
  cases x with
  | fin q => simp [isFinite] at hx
  | nan => cases r <;> simp [sub, neg, add, div, isFinite]
  | posInf => cases r <;> simp [sub, neg, add, div, isFinite]
  | negInf => cases r <;> simp [sub, neg, add, div, isFinite]
  | undef => cases r <;> simp [sub, neg, add, div, isFinite]

/-- The guarded relative difference of the efficiency checks is finite exactly where the
plain quotients are, and then equals them. -/
theorem safeDiv_nested (r a b : JSNum) :
    isFinite (safeDiv (sub r (safeDiv a b)) (safeDiv a b)) =
        isFinite (div (sub r (div a b)) (div a b)) ∧
      (isFinite (div (sub r (div a b)) (div a b)) = true →
        safeDiv (sub r (safeDiv a b)) (safeDiv a b) = div (sub r (div a b)) (div a b)) := by
  cases hb : truthy b with
  | true =>
    have h : safeDiv a b = div a b := by simp [safeDiv, hb]
    rw [h]
    exact safeDiv_finite_iff _ _
  | false =>
    have h : safeDiv a b = nan := by simp [safeDiv, hb]
    have hnf : isFinite (div (sub r (div a b)) (div a b)) = false :=
      div_sub_nonfinite r _ (div_nonfinite_of_not_truthy a b hb)
    rw [h, hnf]
    refine ⟨by simp [safeDiv, truthy, isFinite], fun c => by cases c⟩

/-- The efficiency check in terms of the plain quotients. -/
theorem efficiencyCheck_eq (w : WeekdayStats) (inputs : PerMetric JSNum) (h : JSNum)
    (m : Metric) (k : WarningKind) :
    efficiencyCheck w inputs h m k =
      if has (inputs.get m) = true ∧ isFinite (specEfficiencyDiff w inputs m) = true ∧
          ge (JSNum.abs (specEfficiencyDiff w inputs m)) (fin (10 / 100)) = true then
        [{ tone := if lt (specEfficiencyDiff w inputs m) (fin 0) then .bad else .good
           kind := k
           below := lt (specEfficiencyDiff w inputs m) (fin 0)
           magnitude := JSNum.abs (mul (specEfficiencyDiff w inputs m) (fin 100))
           hour := h }]
      else [] := by
  obtain ⟨e1, e2⟩ := safeDiv_nested (div inputs.revenue (inputs.get m)) w.daily.revenue.mean
    (w.daily.get m).mean
  unfold efficiencyCheck specEfficiencyDiff
  cases hhas : has (inputs.get m) with
  | false => simp
  | true =>
    simp only [if_true, true_and]
    by_cases hfin : isFinite (div (sub (div inputs.revenue (inputs.get m))
        (div w.daily.revenue.mean (w.daily.get m).mean))
        (div w.daily.revenue.mean (w.daily.get m).mean)) = true
    · rw [e2 hfin]
      by_cases hge : ge (JSNum.abs (div (sub (div inputs.revenue (inputs.get m))
          (div w.daily.revenue.mean (w.daily.get m).mean))
          (div w.daily.revenue.mean (w.daily.get m).mean))) (fin (10 / 100)) = true
      · simp [hfin, hge]
      · simp [hfin, hge]
    · have hfin' : isFinite (safeDiv (sub (div inputs.revenue (inputs.get m))
          (safeDiv w.daily.revenue.mean (w.daily.get m).mean))
          (safeDiv w.daily.revenue.mean (w.daily.get m).mean)) = false := by
        rw [e1]; simpa using hfin
      simp [hfin, hfin']

/-- The efficiency warnings within all warnings of a run. -/
theorem warnings_efficiency (w : WeekdayStats) (inputs : PerMetric JSNum) (h : JSNum)
    (ws : List Warning) (hws : warningsOf w inputs h = .ok ws) :
    (∀ x, (x ∈ ws ∧ x.kind = .revenuePerSession) ↔
      x ∈ efficiencyCheck w inputs h .sessions .revenuePerSession) ∧
    (∀ x, (x ∈ ws ∧ x.kind = .revenuePerClick) ↔
      x ∈ efficiencyCheck w inputs h .clicks .revenuePerClick) := by
  obtain ⟨w1, w2, w3, h1, h2, h3, rfl⟩ := warningsOf_inv w inputs h ws hws
  have k1 := trafficCheck_kind w inputs h _ w1 h1
  have k2 := trafficCheck_kind w inputs h _ w2 h2
  have k3 := trafficCheck_kind w inputs h _ w3 h3
  have k4 := efficiencyCheck_kind w inputs h .sessions .revenuePerSession
  have k5 := efficiencyCheck_kind w inputs h .clicks .revenuePerClick
  constructor
  · refine fun x => ⟨?_, fun hx => ⟨by simp [hx], k4 x hx⟩⟩
    rintro ⟨hx, hk⟩
    simp only [List.mem_append] at hx
    rcases hx with (((hx | hx) | hx) | hx) | hx
    · rw [k1 x hx] at hk; cases hk
    · rw [k2 x hx] at hk; cases hk
    · rw [k3 x hx] at hk; cases hk
    · exact hx
    · rw [k5 x hx] at hk; cases hk
  · refine fun x => ⟨?_, fun hx => ⟨by simp [hx], k5 x hx⟩⟩
    rintro ⟨hx, hk⟩
    simp only [List.mem_append] at hx
    rcases hx with (((hx | hx) | hx) | hx) | hx
    · rw [k1 x hx] at hk; cases hk
    · rw [k2 x hx] at hk; cases hk
    · rw [k3 x hx] at hk; cases hk
    · rw [k4 x hx] at hk; cases hk
    · exact hx

/-- A warning of the given kind exists in the result of an efficiency check iff the
check fires. -/
theorem exists_mem_efficiencyCheck (w : WeekdayStats) (inputs : PerMetric JSNum) (h : JSNum)
    (m : Metric) (k : WarningKind) :
    (∃ x, x ∈ efficiencyCheck w inputs h m k) ↔
      has (inputs.get m) = true ∧ isFinite (specEfficiencyDiff w inputs m) = true ∧
        ge (JSNum.abs (specEfficiencyDiff w inputs m)) (fin (10 / 100)) = true := by
  rw [efficiencyCheck_eq]
  constructor
  · rintro ⟨x, hx⟩
    by_contra hc
    rw [if_neg hc] at hx
    simp at hx
  · intro hc
    rw [if_pos hc]
    exact ⟨_, List.mem_singleton.2 rfl⟩

/-- C17: in every forecast, for sessions and for clicks, an efficiency warning is emitted
iff the metric is provided (positive and finite) and `diff = (revenueSoFar / observed -
hist) / hist`, with `hist = mean daily revenue / mean daily total` of the metric, is
finite with `|diff| ≥ 0.10`; a `diff` of exactly 0.10 warns, and a metric that is not
provided gives no efficiency warning. -/
theorem forecast_efficiency_warning (wStats : Option WeekdayStats) (hour : JSNum) (inc : Bool)
    (inputs : PerMetric JSNum) (f : Forecast)
    (hf : forecast wStats hour inc inputs = .ok (some f)) :
    ∃ w, wStats = some w ∧
      ((∃ x ∈ f.warnings, x.kind = .revenuePerSession) ↔
        (∃ o : ℚ, 0 < o ∧ inputs.sessions = fin o) ∧
          isFinite (specEfficiencyDiff w inputs .sessions) = true ∧
          ge (JSNum.abs (specEfficiencyDiff w inputs .sessions)) (fin (10 / 100)) = true) ∧
      ((∃ x ∈ f.warnings, x.kind = .revenuePerClick) ↔
        (∃ o : ℚ, 0 < o ∧ inputs.clicks = fin o) ∧
          isFinite (specEfficiencyDiff w inputs .clicks) = true ∧
          ge (JSNum.abs (specEfficiencyDiff w inputs .clicks)) (fin (10 / 100)) = true) ∧
      ((∃ o : ℚ, 0 < o ∧ inputs.sessions = fin o) →
        specEfficiencyDiff w inputs .sessions = fin (10 / 100) →
        ∃ x ∈ f.warnings, x.kind = .revenuePerSession) ∧
      ((∃ o : ℚ, 0 < o ∧ inputs.clicks = fin o) →
        specEfficiencyDiff w inputs .clicks = fin (10 / 100) →
        ∃ x ∈ f.warnings, x.kind = .revenuePerClick) := by
  obtain ⟨w, hw, -, hws⟩ := forecast_some_warnings wStats hour inc inputs f hf
  obtain ⟨hs, hc⟩ := warnings_efficiency w inputs _ f.warnings hws
  have iffS : (∃ x ∈ f.warnings, x.kind = .revenuePerSession) ↔
      (∃ o : ℚ, 0 < o ∧ inputs.sessions = fin o) ∧
        isFinite (specEfficiencyDiff w inputs .sessions) = true ∧
        ge (JSNum.abs (specEfficiencyDiff w inputs .sessions)) (fin (10 / 100)) = true := by
    rw [← has_eq_true_iff]
    rw [show inputs.sessions = inputs.get .sessions from rfl,
      ← exists_mem_efficiencyCheck w inputs (effectiveHour hour inc) .sessions
        .revenuePerSession]
    exact exists_congr fun x => hs x
  have iffC : (∃ x ∈ f.warnings, x.kind = .revenuePerClick) ↔
      (∃ o : ℚ, 0 < o ∧ inputs.clicks = fin o) ∧
        isFinite (specEfficiencyDiff w inputs .clicks) = true ∧
        ge (JSNum.abs (specEfficiencyDiff w inputs .clicks)) (fin (10 / 100)) = true := by
    rw [← has_eq_true_iff]
    rw [show inputs.clicks = inputs.get .clicks from rfl,
      ← exists_mem_efficiencyCheck w inputs (effectiveHour hour inc) .clicks .revenuePerClick]
    exact exists_congr fun x => hc x
  refine ⟨w, hw, iffS, iffC, ?_, ?_⟩
  · intro ho hd
    rw [iffS]
    refine ⟨ho, by rw [hd]; rfl, ?_⟩
    rw [hd]
    decide!
  · intro ho hd
    rw [iffC]
    refine ⟨ho, by rw [hd]; rfl, ?_⟩
    rw [hd]
    decide!

theorem trafficStats_wellFormed : trafficStats.WellFormed := by
  intro m
  cases m <;> decide!

/-- Instance of C16: 1200 impressions against an expected 1000 at hour 9 give a traffic
warning that reads `above`. -/
theorem forecast_traffic_warning_witness :
    ∃ f x, forecast (some trafficStats) (fin 9) true ⟨fin 50, fin 1200, fin 0, fin 0⟩
        = .ok (some f) ∧
      x ∈ f.warnings ∧ x.kind = .traffic .impressions ∧ x.below = false := by
  obtain ⟨cr, ws, rows, -, -, -, h4⟩ := forecast_ok trafficStats trafficStats_wellFormed
    (fin 9) true ⟨fin 50, fin 1200, fin 0, fin 0⟩ 9 (by norm_num) (by decide!) (by decide!)
  obtain ⟨w, hw, hiff, hlabel, -⟩ := forecast_traffic_warning _ _ _ _ _ h4 .impressions
    (by decide)
  have hw' : w = trafficStats := (Option.some.inj hw).symm
  subst hw'
  obtain ⟨x, hx, hk⟩ := hiff.2 ⟨⟨1200, by norm_num, rfl⟩, flatSummary (fin 1) (fin 1),
    by decide!, by decide!, by decide!⟩
  obtain ⟨s, hs, hb, -⟩ := hlabel x hx hk
  have hs' : s = flatSummary (fin 1) (fin 1) := by
    have h0 : getAt (trafficStats.cumCompletion.get .impressions) (effectiveHour (fin 9) true)
        = some (flatSummary (fin 1) (fin 1)) := by decide!
    rw [h0] at hs
    exact (Option.some.inj hs).symm
  subst hs'
  refine ⟨_, x, h4, hx, hk, ?_⟩
  rw [hb]
  decide!

/-- Instance of C17: revenue 110 over 10 sessions against a historical 10 per session is
a difference of exactly 0.10 and warns. -/
theorem forecast_efficiency_warning_witness :
    ∃ f x, forecast (some trafficStats) (fin 9) true ⟨fin 110, fin 0, fin 0, fin 10⟩
        = .ok (some f) ∧
      specEfficiencyDiff trafficStats ⟨fin 110, fin 0, fin 0, fin 10⟩ .sessions
        = fin (10 / 100) ∧
      x ∈ f.warnings ∧ x.kind = .revenuePerSession := by
  obtain ⟨cr, ws, rows, -, -, -, h4⟩ := forecast_ok trafficStats trafficStats_wellFormed
    (fin 9) true ⟨fin 110, fin 0, fin 0, fin 10⟩ 9 (by norm_num) (by decide!) (by decide!)
  obtain ⟨w, hw, -, -, hexact, -⟩ := forecast_efficiency_warning _ _ _ _ _ h4
  have hw' : w = trafficStats := (Option.some.inj hw).symm
  subst hw'
  have hd : specEfficiencyDiff trafficStats ⟨fin 110, fin 0, fin 0, fin 10⟩ .sessions
      = fin (10 / 100) := by decide!
  obtain ⟨x, hx, hk⟩ := hexact ⟨10, by norm_num, rfl⟩ hd
  exact ⟨_, x, h4, hd, hx, hk⟩

/-! ## The estimate does not depend on the traffic inputs -/

/-- C15: two forecasts over the same statistics, hour, flag and revenue so far, whose
inputs differ only in impressions, clicks and sessions, are `null` together and, when
both are objects, have the same hours, `eod`, `low`, `high`, pacing fields and
expectation table; on a well-formed entry at an hour slot neither raises. -/
theorem forecast_traffic_noninterference (wStats : Option WeekdayStats) (hour : JSNum)
    (inc : Bool) (i1 i2 : PerMetric JSNum) (hrev : i1.revenue = i2.revenue) :
    (forecast wStats hour inc i1 = .ok none ↔ forecast wStats hour inc i2 = .ok none) ∧
    (∀ f1 f2, forecast wStats hour inc i1 = .ok (some f1) →
      forecast wStats hour inc i2 = .ok (some f2) →
      f1.hourSelected = f2.hourSelected ∧ f1.hour = f2.hour ∧ f1.eod = f2.eod ∧
      f1.low = f2.low ∧ f1.high = f2.high ∧ f1.expectedByNow = f2.expectedByNow ∧
      f1.delta = f2.delta ∧ f1.deltaPct = f2.deltaPct ∧ f1.pacingTone = f2.pacingTone ∧
      f1.pacingLabel = f2.pacingLabel ∧ f1.hourRows = f2.hourRows) ∧
    (∀ (w : WeekdayStats) (n : ℕ), wStats = some w → w.WellFormed → n < 24 →
      effectiveHour hour inc = fin (n : ℚ) → has i1.revenue = true →
      ∃ f1 f2, forecast wStats hour inc i1 = .ok (some f1) ∧
        forecast wStats hour inc i2 = .ok (some f2)) := by
  refine ⟨?_, ?_, ?_⟩
  · rw [forecast_none_iff, forecast_none_iff, hrev]
  · intro f1 f2 h1 h2
    obtain ⟨w1, c1, hw1, -, hg1, a1, a2, a3, a4, a5, a6, a7, a8, a9⟩ :=
      forecast_some_inv wStats hour inc i1 f1 h1
    obtain ⟨w2, c2, hw2, -, hg2, b1, b2, b3, b4, b5, b6, b7, b8, b9⟩ :=
      forecast_some_inv wStats hour inc i2 f2 h2
    obtain ⟨-, -, s1, -⟩ := forecast_some_warnings wStats hour inc i1 f1 h1
    obtain ⟨-, -, s2, -⟩ := forecast_some_warnings wStats hour inc i2 f2 h2
    have hw : w1 = w2 := by rw [hw1] at hw2; exact Option.some.inj hw2
    subst hw
    have hc : c1 = c2 := by rw [hg1] at hg2; exact Option.some.inj hg2
    subst hc
    have e_eod : f1.eod = f2.eod := by rw [a2, b2, hrev]
    have e_exp : f1.expectedByNow = f2.expectedByNow := by rw [a5, b5]
    have e_delta : f1.delta = f2.delta := by rw [a6, b6, hrev, e_exp]
    have e_pct : f1.deltaPct = f2.deltaPct := by rw [a7, b7, e_delta, e_exp]
    have e_pace : (f1.pacingTone, f1.pacingLabel) = (f2.pacingTone, f2.pacingLabel) := by
      rw [a8, b8, e_pct]
    have e_rows : f1.hourRows = f2.hourRows := by
      rw [e_eod] at a9
      rw [a9] at b9
      exact Except.ok.inj b9
    exact ⟨by rw [s1, s2], by rw [a1, b1], e_eod, by rw [a3, b3, hrev], by rw [a4, b4, hrev],
      e_exp, e_delta, e_pct, (Prod.mk.inj e_pace).1, (Prod.mk.inj e_pace).2, e_rows⟩
  · intro w n hw hwf hn hh h1
    subst hw
    obtain ⟨_, _, _, -, -, -, g1⟩ := forecast_ok w hwf hour inc i1 n hn hh h1
    obtain ⟨_, _, _, -, -, -, g2⟩ := forecast_ok w hwf hour inc i2 n hn hh (by rw [← hrev]; exact h1)
    exact ⟨_, _, g1, g2⟩

/-- Instance of C15: the same revenue so far with and without traffic inputs; the
estimate and the table agree while the warnings differ. -/
theorem forecast_traffic_noninterference_witness :
    ∃ f1 f2, forecast (some trafficStats) (fin 9) true ⟨fin 50, fin 0, fin 0, fin 0⟩
        = .ok (some f1) ∧
      forecast (some trafficStats) (fin 9) true ⟨fin 50, fin 1200, fin 0, fin 0⟩
        = .ok (some f2) ∧
      f1.eod = f2.eod ∧ f1.low = f2.low ∧ f1.high = f2.high ∧ f1.delta = f2.delta ∧
      f1.pacingLabel = f2.pacingLabel ∧ f1.hourRows = f2.hourRows ∧
      f1.warnings = [] ∧ f2.warnings ≠ [] := by
  obtain ⟨-, hsame, hex⟩ := forecast_traffic_noninterference (some trafficStats) (fin 9) true
    ⟨fin 50, fin 0, fin 0, fin 0⟩ ⟨fin 50, fin 1200, fin 0, fin 0⟩ rfl
  obtain ⟨f1, f2, h1, h2⟩ := hex trafficStats 9 rfl trafficStats_wellFormed (by norm_num)
    (by decide!) (by decide!)
  obtain ⟨-, -, e1, e2, e3, -, e4, -, -, e5, e6⟩ := hsame f1 f2 h1 h2
  obtain ⟨w1, hw1, -, hws1⟩ := forecast_some_warnings _ _ _ _ _ h1
  obtain ⟨w2, hw2, -, hws2⟩ := forecast_some_warnings _ _ _ _ _ h2
  have hw1' : w1 = trafficStats := (Option.some.inj hw1).symm
  have hw2' : w2 = trafficStats := (Option.some.inj hw2).symm
  subst hw1'
  subst hw2'
  refine ⟨f1, f2, h1, h2, e1, e2, e3, e4, e5, e6, ?_, ?_⟩
  · have : (warningsOf trafficStats ⟨fin 50, fin 0, fin 0, fin 0⟩ (effectiveHour (fin 9) true)).toOption
        = some [] := by decide!
    rw [hws1] at this
    exact Option.some.inj this
  · intro hnil
    have : ((warningsOf trafficStats ⟨fin 50, fin 1200, fin 0, fin 0⟩
        (effectiveHour (fin 9) true)).toOption.map List.length) = some 1 := by decide!
    rw [hws2, hnil] at this
    exact absurd this (by decide)

/-! ## The backtest -/

/-- What a pushed backtest row holds. -/
theorem backtestRow_some (w : WeekdayStats) (days : List SeriesDay) (inc : Bool) (c : ℤ)
    (row : BacktestRow) (h : backtestRow w days inc c = some row) :
    row.hourSelected = c ∧ row.effectiveHour = backtestHour inc c ∧
      isFinite (medianAt w (backtestHour inc c)) = true ∧
      le (medianAt w (backtestHour inc c)) (fin 0) = false ∧
      days.filterMap (dayError (medianAt w (backtestHour inc c)) (backtestHour inc c)) ≠ [] ∧
      row.samples =
        (days.filterMap (dayError (medianAt w (backtestHour inc c))
          (backtestHour inc c))).length ∧
      row.mape = div ((days.filterMap (dayError (medianAt w (backtestHour inc c))
          (backtestHour inc c))).foldl (fun a e => add a (JSNum.abs e)) (fin 0))
        (fin ((days.filterMap (dayError (medianAt w (backtestHour inc c))
          (backtestHour inc c))).length : ℚ)) ∧
      row.bias = div ((days.filterMap (dayError (medianAt w (backtestHour inc c))
          (backtestHour inc c))).foldl add (fin 0))
        (fin ((days.filterMap (dayError (medianAt w (backtestHour inc c))
          (backtestHour inc c))).length : ℚ)) := by
  unfold backtestRow at h
  simp only at h
  split at h
  · cases h
  · rename_i hguard
    split at h
    · cases h
    · rename_i hlen
      simp only [Option.some.injEq] at h
      subst h
      simp only [Bool.or_eq_true, Bool.not_eq_true', not_or, Bool.not_eq_false,
        Bool.not_eq_true] at hguard
      refine ⟨rfl, rfl, hguard.1, hguard.2, ?_, rfl, rfl, rfl⟩
      intro e
      exact hlen (by rw [e]; rfl)

/-- A checkpoint whose median is not finite or not positive pushes no row. -/
theorem backtestRow_none_of_median (w : WeekdayStats) (days : List SeriesDay) (inc : Bool)
    (c : ℤ)
    (h : isFinite (medianAt w (backtestHour inc c)) = false ∨
      le (medianAt w (backtestHour inc c)) (fin 0) = true) :
    backtestRow w days inc c = none := by
  unfold backtestRow
  simp only
  rw [if_pos]
  rcases h with h | h <;> simp [h]

/-- The shape of a backtest result. -/
theorem backtest_some (ds : Option (List SeriesDay)) (wStats : Option WeekdayStats)
    (weekday : JSNum) (inc : Bool) (rows : List BacktestRow)
    (h : backtest ds wStats weekday inc = some rows) :
    ∃ l w, ds = some l ∧ wStats = some w ∧ 3 ≤ (qualifyingDays l weekday).length ∧
      rows = checkpoints.filterMap (backtestRow w (qualifyingDays l weekday) inc) ∧
      rows ≠ [] := by
  cases ds with
  | none => simp [backtest] at h
  | some l =>
    cases wStats with
    | none => simp [backtest] at h
    | some w =>
      simp only [backtest] at h
      split at h
      · cases h
      · rename_i h3
        split at h
        · cases h
        · rename_i hne
          simp only [Option.some.injEq] at h
          subst h
          refine ⟨l, w, rfl, rfl, by omega, rfl, ?_⟩
          intro e
          exact hne (by rw [e]; rfl)

theorem filterMap_map_sublist {α β : Type} (f : α → Option β) (g : β → α)
    (hfg : ∀ a b, f a = some b → g b = a) (l : List α) :
    ((l.filterMap f).map g).Sublist l := by
  induction l with
  | nil => simp
  | cons a t ih =>
    cases hfa : f a with
    | none =>
      rw [List.filterMap_cons_none hfa]
      exact ih.trans (List.sublist_cons_self a t)
    | some b =>
      rw [List.filterMap_cons_some hfa, List.map_cons, hfg a b hfa]
      exact ih.cons₂ a

theorem backtestHour_eq_effectiveHour (inc : Bool) (c : ℤ) (hc : c ∈ checkpoints) :
    effectiveHour (fin (c : ℚ)) inc = fin ((backtestHour inc c : ℤ) : ℚ) := by
  simp only [checkpoints, List.mem_cons, List.mem_singleton, List.not_mem_nil, or_false] at hc
  rcases hc with rfl | rfl | rfl | rfl | rfl | rfl <;> cases inc <;> decide!

/-! ## Claims about the backtest -/

/-- C14: whatever the day series, statistics and flag, the backtest is `null` when fewer
than three days of the selected weekday have positive total revenue (also when there is
no day series); no step of it can raise. -/
theorem backtest_insufficient (ds : Option (List SeriesDay)) (wStats : Option WeekdayStats)
    (weekday : JSNum) (inc : Bool)
    (h : ∀ l, ds = some l → (qualifyingDays l weekday).length < 3) :
    backtest ds wStats weekday inc = none := by
  cases ds with
  | none => rfl
  | some l =>
    cases wStats with
    | none => rfl
    | some w =>
      simp only [backtest]
      rw [if_pos (h l rfl)]

/-- Instance of C14: the day series of the first two dates of the reference scenario. -/
theorem backtest_insufficient_witness :
    backtest (daySeries (fun _ => fin 1) (some (scenarioRows.take 20))) (some trafficStats)
      (fin 1) true = none :=
  backtest_insufficient _ _ _ _ (by
    intro l hl
    have hl' : ((scenarioRows.take 20).foldl (seriesAddRow fun _ => fin 1) []).map
        (fun d => { d with totalRevenue := d.revenueByHour.foldl add (fin 0) }) = l :=
      Option.some.inj hl
    subst hl'
    decide!)

/-- C20: the rows of a backtest result have their checkpoint hours drawn from
6, 9, 12, 15, 18, 21 in increasing order without repetition; the effective hour of a row
is its checkpoint when the current hour is included and `max(0, checkpoint - 1)`
otherwise, the rule of the forecast; and a checkpoint whose revenue completion median at
its effective hour is not finite or not positive has no row. -/
theorem backtest_rows (ds : Option (List SeriesDay)) (wStats : Option WeekdayStats)
    (weekday : JSNum) (inc : Bool) (rows : List BacktestRow)
    (h : backtest ds wStats weekday inc = some rows) :
    (rows.map fun r => r.hourSelected).Sublist [6, 9, 12, 15, 18, 21] ∧
    (rows.map fun r => r.hourSelected).Sorted (· < ·) ∧
    (∀ row ∈ rows,
      row.effectiveHour = (if inc then row.hourSelected else Max.max 0 (row.hourSelected - 1)) ∧
      effectiveHour (fin (row.hourSelected : ℚ)) inc = fin (row.effectiveHour : ℚ)) ∧
    ∃ w, wStats = some w ∧
      ∀ c ∈ ([6, 9, 12, 15, 18, 21] : List ℤ),
        (isFinite (medianAt w (if inc then c else Max.max 0 (c - 1))) = false ∨
          le (medianAt w (if inc then c else Max.max 0 (c - 1))) (fin 0) = true) →
        ∀ row ∈ rows, row.hourSelected ≠ c := by
  obtain ⟨l, w, -, hw, -, hrows, -⟩ := backtest_some ds wStats weekday inc rows h
  have hsub : (rows.map fun r => r.hourSelected).Sublist checkpoints := by
    rw [hrows]
    exact filterMap_map_sublist _ _
      (fun c r hr => (backtestRow_some w _ inc c r hr).1) checkpoints
  have hsorted : checkpoints.Sorted (· < ·) := by decide
  refine ⟨hsub, hsorted.sublist hsub, ?_, w, hw, ?_⟩
  · intro row hrow
    rw [hrows, List.mem_filterMap] at hrow
    obtain ⟨c, hc, hr⟩ := hrow
    obtain ⟨h1, h2, -⟩ := backtestRow_some w _ inc c row hr
    rw [h1, h2]
    exact ⟨rfl, backtestHour_eq_effectiveHour inc c hc⟩
  · intro c _ hmed row hrow hsel
    rw [hrows, List.mem_filterMap] at hrow
    obtain ⟨c', -, hr⟩ := hrow
    have h1 := (backtestRow_some w _ inc c' row hr).1
    have hcc : c' = c := by rw [← h1, hsel]
    subst hcc
    rw [backtestRow_none_of_median w _ inc c' hmed] at hr
    cases hr

/-- Instance of C20: the four backtest days against a median of `1/2` at every hour,
with the current hour excluded. -/
theorem backtest_rows_witness :
    ∃ rows, backtest (some backtestDays) (some trafficStats) (fin 1) false = some rows ∧
      (rows.map fun r => r.hourSelected) = [6, 9, 12, 15, 18, 21] ∧
      (rows.map fun r => r.effectiveHour) = [5, 8, 11, 14, 17, 20] ∧
      (rows.map fun r => r.hourSelected).Sorted (· < ·) := by
  have h : backtest (some backtestDays) (some trafficStats) (fin 1) false =
      some (checkpoints.filterMap
        (backtestRow trafficStats (qualifyingDays backtestDays (fin 1)) false)) := by
    decide!
  obtain ⟨-, hsorted, -, -⟩ := backtest_rows _ _ _ _ _ h
  exact ⟨_, h, by decide!, by decide!, hsorted⟩

theorem eq_fin_toRat_of_finite (x : JSNum) (hx : isFinite x = true) : x = fin x.toRat := by
  cases x <;> simp [isFinite] at hx
  rfl

theorem soFar_finite (d : SeriesDay) (e : ℤ) (hfin : ∀ v ∈ d.revenueByHour, isFinite v = true) :
    isFinite (soFar d e) = true := by
  unfold soFar
  exact foldl_add_finite _ (fun v hv => hfin v (List.mem_of_mem_take hv))

/-- The error of a day with finite revenues and non-zero total, for a non-zero finite
median. -/
theorem dayError_fin (c t : ℚ) (hc : c ≠ 0) (ht : t ≠ 0) (e : ℤ) (d : SeriesDay)
    (htot : d.totalRevenue = fin t) (hfin : ∀ v ∈ d.revenueByHour, isFinite v = true) :
    dayError (fin c) e d =
      if gt (soFar d e) (fin 0) = true then
        some (fin (((soFar d e).toRat / c - t) / t))
      else none := by
  have hs := eq_fin_toRat_of_finite _ (soFar_finite d e hfin)
  unfold dayError
  by_cases hgt : gt (soFar d e) (fin 0) = true
  · rw [if_pos hgt]
    simp only [hgt, Bool.not_true, Bool.false_eq_true, if_false, htot]
    rw [hs]
    simp [div, sub, neg, add, safeDiv, truthy, hc, ht, isFinite, JSNum.toRat, sub_eq_add_neg]
  · rw [if_neg hgt]
    simp [hgt]

theorem filterMap_eq_filter_map {α β : Type} (f : α → Option β) (p : α → Bool) (g : α → β)
    (l : List α) (h : ∀ a ∈ l, f a = if p a = true then some (g a) else none) :
    l.filterMap f = (l.filter p).map g := by
  induction l with
  | nil => rfl
  | cons a t ih =>
    have ha := h a (by simp)
    have iht := ih (fun x hx => h x (by simp [hx]))
    cases hp : p a with
    | true =>
      rw [hp, if_pos rfl] at ha
      rw [List.filterMap_cons_some ha, List.filter_cons_of_pos hp, List.map_cons, iht]
    | false =>
      rw [hp, if_neg (by simp)] at ha
      rw [List.filterMap_cons_none ha, List.filter_cons_of_neg (by simp [hp]), iht]

theorem foldl_add_abs_map_fin (vs : List ℚ) :
    ∀ a : ℚ, (vs.map fin).foldl (fun acc e => add acc (JSNum.abs e)) (fin a) =
      fin (a + (vs.map fun v => |v|).sum) := by
  have hstep : ∀ a v : ℚ, add (fin a) (JSNum.abs (fin v)) = fin (a + |v|) := fun _ _ => rfl
  induction vs with
  | nil => intro a; simp
  | cons v t ih =>
    intro a
    simp only [List.map_cons, List.foldl_cons, hstep, ih, List.sum_cons]
    congr 1
    ring

/-! ## Invalid dates -/

/-- A day without a weekday `0..6` among the grouped days makes `buildStats` raise. -/
theorem buildStats_raises (dw : String → JSNum) (sqrtQ : ℚ → ℚ) (rows : List RawRow) (d : Day)
    (hd : d ∈ groupDays dw rows) (hwd : ¬ ∃ w : ℕ, w < 7 ∧ d.weekday = fin (w : ℚ)) :
    buildStats dw sqrtQ rows = .error .typeError := by
  rw [buildStats_eq, if_neg]
  intro h
  exact hwd (h d hd)

/-- C22 at the failing input: a Monday record followed by a record whose date is the text
`not a date`, from which no weekday can be derived.  The claim has `buildStats` complete
without throwing on every row sequence, such dates included; here both records pass the
filter and `buildStats` raises a `TypeError`, whatever `Math.sqrt` is. -/
theorem buildStats_invalid_date_throws (sqrtQ : ℚ → ℚ) :
    (∀ r ∈ invalidDateRows, keepRow (normalize r) = true) ∧
    mondayUnlessInvalid "2024-01-01" = fin 1 ∧
    mondayUnlessInvalid "not a date" = nan ∧
    buildStats mondayUnlessInvalid sqrtQ invalidDateRows = .error .typeError := by
  refine ⟨by decide!, by decide!, by decide!, ?_⟩
  refine buildStats_raises _ _ _ (dayOf mondayUnlessInvalid (retained invalidDateRows)
    "not a date") ?_ (by decide!)
  rw [groupDays_eq]
  decide!

/-! ## Bounds on the backtest metrics -/

theorem dayError_finite (cr50 : JSNum) (e : ℤ) (d : SeriesDay) (x : JSNum)
    (h : dayError cr50 e d = some x) : isFinite x = true := by
  unfold dayError at h
  split at h
  · exact absurd h (by simp)
  · simp only at h
    split at h
    · rename_i hfin
      rw [← Option.some.inj h]
      exact hfin
    · exact absurd h (by simp)

theorem div_fin_natCast (a : ℚ) (n : ℕ) (hn : n ≠ 0) :
    div (fin a) (fin (n : ℚ)) = fin (a / n) := by
  have : (n : ℚ) ≠ 0 := by exact_mod_cast hn
  simp [div, this]

theorem sum_map_abs_of_nonneg (vs : List ℚ) (h : ∀ v ∈ vs, 0 ≤ v) :
    (vs.map fun v => |v|).sum = vs.sum := by
  congr 1
  conv_rhs => rw [← List.map_id vs]
  exact List.map_congr_left fun v hv => abs_of_nonneg (h v hv)

theorem sum_map_abs_of_nonpos (vs : List ℚ) (h : ∀ v ∈ vs, v ≤ 0) :
    (vs.map fun v => |v|).sum = -vs.sum := by
  induction vs with
  | nil => simp
  | cons v t ih =>
    have hv : v ≤ 0 := h v (List.mem_cons_self _ _)
    simp only [List.map_cons, List.sum_cons, ih fun x hx => h x (List.mem_cons_of_mem _ hx),
      abs_of_nonpos hv]
    ring

theorem abs_sum_le_sum_map_abs (vs : List ℚ) : |vs.sum| ≤ (vs.map fun v => |v|).sum := by
  induction vs with
  | nil => simp
  | cons v t ih =>
    simp only [List.map_cons, List.sum_cons]
    exact (abs_add v t.sum).trans (add_le_add_left ih _)


/-- C24: for every backtest result row, the sample count is at least 1 and at most the
number of days of the selected weekday with positive total revenue; MAPE and bias are
finite numbers with `MAPE ≥ 0` and `|bias| ≤ MAPE`, and `|bias| = MAPE` when the errors
of the included days are all `≥ 0` or all `≤ 0`. -/
theorem backtest_row_bounds (ds : Option (List SeriesDay)) (wStats : Option WeekdayStats)
    (weekday : JSNum) (inc : Bool) (rows : List BacktestRow) (row : BacktestRow)
    (h : backtest ds wStats weekday inc = some rows) (hrow : row ∈ rows) :
    ∃ l w, ∃ mape bias : ℚ, ds = some l ∧ wStats = some w ∧
      1 ≤ row.samples ∧ row.samples ≤ (qualifyingDays l weekday).length ∧
      row.mape = fin mape ∧ row.bias = fin bias ∧ 0 ≤ mape ∧ |bias| ≤ mape ∧
      (((∀ e ∈ (qualifyingDays l weekday).filterMap
            (dayError (medianAt w row.effectiveHour) row.effectiveHour),
          ge e (fin 0) = true) ∨
        (∀ e ∈ (qualifyingDays l weekday).filterMap
            (dayError (medianAt w row.effectiveHour) row.effectiveHour),
          le e (fin 0) = true)) →
        |bias| = mape) := by
  obtain ⟨l, w, hl, hw, -, hrows, -⟩ := backtest_some ds wStats weekday inc rows h
  rw [hrows] at hrow
  obtain ⟨c, -, hc⟩ := List.mem_filterMap.1 hrow
  obtain ⟨-, heff, -, -, hne, hs, hmape, hbias⟩ := backtestRow_some w _ inc c row hc
  rw [← heff] at hne hs hmape hbias
  generalize herrs : (qualifyingDays l weekday).filterMap
    (dayError (medianAt w row.effectiveHour) row.effectiveHour) = errs at hne hs hmape hbias
  have hfin : ∀ x ∈ errs, isFinite x = true := by
    intro x hx
    rw [← herrs] at hx
    obtain ⟨d, -, hd⟩ := List.mem_filterMap.1 hx
    exact dayError_finite _ _ _ _ hd
  have hvs := eq_map_fin_of_finite errs hfin
  generalize errs.map JSNum.toRat = vs at hvs
  subst hvs
  have hlen : (vs.map fin).length = vs.length := List.length_map _ _
  have hpos : 0 < vs.length := by
    rw [← hlen]
    exact List.length_pos.2 hne
  have hn : (0 : ℚ) < (vs.length : ℚ) := by exact_mod_cast hpos
  rw [foldl_add_abs_map_fin, hlen, div_fin_natCast _ _ hpos.ne', zero_add] at hmape
  rw [foldl_add_map_fin, hlen, div_fin_natCast _ _ hpos.ne', zero_add] at hbias
  refine ⟨l, w, _, _, hl, hw, ?_, ?_, hmape, hbias, ?_, ?_, ?_⟩
  · rw [hs, hlen]
    exact hpos
  · rw [hs, ← herrs]
    exact List.length_filterMap_le _ _
  · exact div_nonneg (List.sum_nonneg fun x hx => by
      obtain ⟨v, -, rfl⟩ := List.mem_map.1 hx
      exact abs_nonneg v) hn.le
  · rw [abs_div, abs_of_pos hn]
    exact div_le_div_of_nonneg_right (abs_sum_le_sum_map_abs vs) hn.le
  · intro hdir
    rw [abs_div, abs_of_pos hn]
    congr 1
    rw [herrs] at hdir
    rcases hdir with hge | hle
    · have hv : ∀ v ∈ vs, 0 ≤ v := fun v hv => by
        have := hge (fin v) (List.mem_map_of_mem _ hv)
        simpa [ge, le] using this
      rw [sum_map_abs_of_nonneg vs hv, abs_of_nonneg (List.sum_nonneg hv)]
    · have hv : ∀ v ∈ vs, v ≤ 0 := fun v hv => by
        have := hle (fin v) (List.mem_map_of_mem _ hv)
        simpa [le] using this
      have habs := sum_map_abs_of_nonpos vs hv
      have hs0 : vs.sum ≤ 0 := by
        have := List.sum_nonneg (l := vs.map fun v => |v|) fun x hx => by
          obtain ⟨v, -, rfl⟩ := List.mem_map.1 hx
          exact abs_nonneg v
        linarith
      rw [habs, abs_of_nonpos hs0]

/-- Instance of C24: at checkpoint 6 with the current hour included and a median of
`1/2`, three of the four qualifying days are included, each with error `2/5`, so the
errors have one direction and `|bias| = MAPE = 2/5`. -/
theorem backtest_row_bounds_witness :
    ∃ rows row, ∃ mape bias : ℚ,
      backtest (some backtestDays) (some trafficStats) (fin 1) true = some rows ∧
      row ∈ rows ∧ row.samples = 3 ∧ (qualifyingDays backtestDays (fin 1)).length = 4 ∧
      row.mape = fin mape ∧ row.bias = fin bias ∧ 0 ≤ mape ∧ |bias| ≤ mape := by
  have h : backtest (some backtestDays) (some trafficStats) (fin 1) true =
      some (checkpoints.filterMap
        (backtestRow trafficStats (qualifyingDays backtestDays (fin 1)) true)) := by
    decide!
  have hrow : (⟨6, 6, 3, fin (2 / 5), fin (2 / 5)⟩ : BacktestRow) ∈ checkpoints.filterMap
        (backtestRow trafficStats (qualifyingDays backtestDays (fin 1)) true) := by
    decide!
  obtain ⟨l, w, mape, bias, -, -, -, -, hm, hb, h0, hle, -⟩ :=
    backtest_row_bounds _ _ _ _ _ _ h hrow
  exact ⟨_, _, mape, bias, h, hrow, rfl, by decide!, hm, hb, h0, hle⟩

/-! ## Monotonicity of `quantile` -/

theorem quantile_eq_quantileQ (qs : List ℚ) (hne : qs ≠ []) (q : ℚ) (h0 : 0 ≤ q) (h1 : q ≤ 1) :
    quantile (qs.map fin) q = fin (quantileQ (qs.insertionSort (· ≤ ·)) q) := by
  rw [(quantile_map_fin qs (qs.insertionSort (· ≤ ·)) hne (List.perm_insertionSort _ _)
    (List.sorted_insertionSort _ _) q h0 h1).2]
  unfold quantileQ
  rw [List.length_insertionSort]

theorem sorted_getD_mono (s : List ℚ) (hs : s.Sorted (· ≤ ·)) (i j : ℕ) (hij : i ≤ j)
    (hj : j < s.length) : s.getD i 0 ≤ s.getD j 0 := by
  rw [List.getD_eq_getElem _ _ (lt_of_le_of_lt hij hj), List.getD_eq_getElem _ _ hj]
  rcases hij.eq_or_lt with rfl | hlt
  · exact le_refl _
  · exact (List.pairwise_iff_getElem.1 hs) i j (lt_of_le_of_lt hij hj) hj hlt

theorem getD_mem_of_lt (s : List ℚ) (k : ℕ) (hk : k < s.length) : s.getD k 0 ∈ s := by
  rw [List.getD_eq_getElem _ _ hk]
  exact List.getElem_mem hk

/-- The position `(n - 1) q` of a quantile in a non-empty list: its floor is an index of
the list and its fractional part lies in `[0, 1)`. -/
theorem quantile_pos_facts (n : ℕ) (hn : 0 < n) (q : ℚ) (h0 : 0 ≤ q) (h1 : q ≤ 1) :
    0 ≤ ((n : ℚ) - 1) * q ∧ ⌊((n : ℚ) - 1) * q⌋₊ < n ∧
    0 ≤ ((n : ℚ) - 1) * q - (⌊((n : ℚ) - 1) * q⌋₊ : ℚ) ∧
    ((n : ℚ) - 1) * q - (⌊((n : ℚ) - 1) * q⌋₊ : ℚ) < 1 := by
  have hn1 : (1 : ℚ) ≤ (n : ℚ) := by exact_mod_cast hn
  have hpos : 0 ≤ ((n : ℚ) - 1) * q := mul_nonneg (by linarith) h0
  have hle : ((n : ℚ) - 1) * q ≤ ((n - 1 : ℕ) : ℚ) := by
    rw [Nat.cast_sub hn, Nat.cast_one]
    nlinarith
  have hb : ⌊((n : ℚ) - 1) * q⌋₊ ≤ n - 1 := Nat.floor_le_of_le hle
  refine ⟨hpos, by omega, ?_, ?_⟩
  · linarith [Nat.floor_le hpos]
  · linarith [Nat.lt_floor_add_one (((n : ℚ) - 1) * q)]

/-- The value of a quantile as a weighted mean of two neighbouring elements. -/
theorem quantileQ_eq (s : List ℚ) (hne : s ≠ []) (q : ℚ) (h0 : 0 ≤ q) (h1 : q ≤ 1) :
    quantileQ s q =
      (1 - (((s.length : ℚ) - 1) * q - (⌊((s.length : ℚ) - 1) * q⌋₊ : ℚ))) *
          s.getD ⌊((s.length : ℚ) - 1) * q⌋₊ 0 +
        (((s.length : ℚ) - 1) * q - (⌊((s.length : ℚ) - 1) * q⌋₊ : ℚ)) *
          s.getD (Min.min (⌊((s.length : ℚ) - 1) * q⌋₊ + 1) (s.length - 1)) 0 := by
  obtain ⟨-, hb, -, -⟩ := quantile_pos_facts s.length (List.length_pos.2 hne) q h0 h1
  unfold quantileQ
  by_cases hlt : ⌊((s.length : ℚ) - 1) * q⌋₊ + 1 < s.length
  · rw [if_pos hlt, Nat.min_eq_left (by omega)]
    ring
  · rw [if_neg hlt, Nat.min_eq_right (by omega)]
    have : s.length - 1 = ⌊((s.length : ℚ) - 1) * q⌋₊ := by omega
    rw [this]
    ring

theorem quantileQ_mem_Icc (s : List ℚ) (hne : s ≠ []) (q : ℚ) (h0 : 0 ≤ q) (h1 : q ≤ 1)
    (lo hi : ℚ) (hb : ∀ x ∈ s, lo ≤ x ∧ x ≤ hi) : lo ≤ quantileQ s q ∧ quantileQ s q ≤ hi := by
  obtain ⟨-, hlt, hr0, hr1⟩ := quantile_pos_facts s.length (List.length_pos.2 hne) q h0 h1
  rw [quantileQ_eq s hne q h0 h1]
  have hlen : 0 < s.length := List.length_pos.2 hne
  have hm : Min.min (⌊((s.length : ℚ) - 1) * q⌋₊ + 1) (s.length - 1) < s.length :=
    lt_of_le_of_lt (Nat.min_le_right _ _) (by omega)
  have ha := hb _ (getD_mem_of_lt s _ hlt)
  have hc := hb _ (getD_mem_of_lt s _ hm)
  constructor <;> nlinarith [ha.1, ha.2, hc.1, hc.2]

/-- The quantile does not decrease with `q`. -/
theorem quantileQ_mono (s : List ℚ) (hs : s.Sorted (· ≤ ·)) (hne : s ≠ []) (q1 q2 : ℚ)
    (h0 : 0 ≤ q1) (h12 : q1 ≤ q2) (h1 : q2 ≤ 1) : quantileQ s q1 ≤ quantileQ s q2 := by
  have hlen : 0 < s.length := List.length_pos.2 hne
  have hn1 : (1 : ℚ) ≤ (s.length : ℚ) := by exact_mod_cast hlen
  obtain ⟨hp1, hb1, hr1, hr1'⟩ := quantile_pos_facts s.length hlen q1 h0 (h12.trans h1)
  obtain ⟨hp2, hb2, hr2, hr2'⟩ := quantile_pos_facts s.length hlen q2 (h0.trans h12) h1
  have hpp : ((s.length : ℚ) - 1) * q1 ≤ ((s.length : ℚ) - 1) * q2 :=
    mul_le_mul_of_nonneg_left h12 (by linarith)
  have hbb : ⌊((s.length : ℚ) - 1) * q1⌋₊ ≤ ⌊((s.length : ℚ) - 1) * q2⌋₊ := Nat.floor_mono hpp
  rw [quantileQ_eq s hne q1 h0 (h12.trans h1), quantileQ_eq s hne q2 (h0.trans h12) h1]
  generalize ((s.length : ℚ) - 1) * q1 = p1 at *
  generalize ((s.length : ℚ) - 1) * q2 = p2 at *
  generalize hB1 : ⌊p1⌋₊ = b1 at *
  generalize hB2 : ⌊p2⌋₊ = b2 at *
  have hm1 : Min.min (b1 + 1) (s.length - 1) < s.length :=
    lt_of_le_of_lt (Nat.min_le_right _ _) (by omega)
  have hm2 : Min.min (b2 + 1) (s.length - 1) < s.length :=
    lt_of_le_of_lt (Nat.min_le_right _ _) (by omega)
  have e1 : s.getD b1 0 ≤ s.getD (Min.min (b1 + 1) (s.length - 1)) 0 :=
    sorted_getD_mono s hs _ _ (Nat.le_min.2 ⟨by omega, by omega⟩) hm1
  have e2 : s.getD b2 0 ≤ s.getD (Min.min (b2 + 1) (s.length - 1)) 0 :=
    sorted_getD_mono s hs _ _ (Nat.le_min.2 ⟨by omega, by omega⟩) hm2
  rcases hbb.eq_or_lt with heq | hlt
  · subst heq
    nlinarith
  · have e3 : s.getD (Min.min (b1 + 1) (s.length - 1)) 0 ≤ s.getD b2 0 :=
      sorted_getD_mono s hs _ _ ((Nat.min_le_left _ _).trans (by omega)) hb2
    nlinarith

/-- Pointwise smaller values have at least as many elements below a bound. -/
theorem countP_le_of_map_le {α : Type} (B : List α) (f g : α → ℚ)
    (hfg : ∀ d ∈ B, f d ≤ g d) (t : ℚ) :
    (B.map g).countP (fun x => decide (x ≤ t)) ≤ (B.map f).countP (fun x => decide (x ≤ t)) := by
  induction B with
  | nil => simp
  | cons d B ih =>
    have hd := hfg d (List.mem_cons_self _ _)
    have ih' := ih fun x hx => hfg x (List.mem_cons_of_mem _ hx)
    simp only [List.map_cons, List.countP_cons]
    by_cases hg : g d ≤ t
    · have hf : f d ≤ t := hd.trans hg
      simp only [hg, hf, decide_True, if_true]
      omega
    · simp only [hg, decide_False, Bool.false_eq_true, if_false]
      omega

/-- In an ascending list, at least `k + 1` elements are at most the element at index `k`. -/
theorem succ_le_countP_sorted (s : List ℚ) (hs : s.Sorted (· ≤ ·)) (k : ℕ) (hk : k < s.length) :
    k + 1 ≤ s.countP (fun x => decide (x ≤ s.getD k 0)) := by
  have hsub : (s.take (k + 1)).Sublist s := List.take_sublist _ _
  have hall : (s.take (k + 1)).countP (fun x => decide (x ≤ s.getD k 0)) =
      (s.take (k + 1)).length := by
    rw [List.countP_eq_length]
    intro x hx
    obtain ⟨i, hi, rfl⟩ := List.getElem_of_mem hx
    rw [List.length_take] at hi
    rw [List.getElem_take]
    have hik : i ≤ k := by omega
    have := sorted_getD_mono s hs i k hik hk
    rw [List.getD_eq_getElem _ _ (by omega)] at this
    simpa using this
  have := hsub.countP_le (fun x => decide (x ≤ s.getD k 0))
  rw [hall, List.length_take] at this
  omega

/-- In an ascending list, at most `k` elements are below a bound that the element at
index `k` exceeds. -/
theorem countP_sorted_le (s : List ℚ) (hs : s.Sorted (· ≤ ·)) (k : ℕ) (hk : k < s.length)
    (t : ℚ) (ht : t < s.getD k 0) : s.countP (fun x => decide (x ≤ t)) ≤ k := by
  have hsplit : s = s.take k ++ s.drop k := (List.take_append_drop k s).symm
  have hdrop : (s.drop k).countP (fun x => decide (x ≤ t)) = 0 := by
    rw [List.countP_eq_zero]
    intro x hx
    obtain ⟨i, hi, rfl⟩ := List.getElem_of_mem hx
    rw [List.length_drop] at hi
    rw [List.getElem_drop]
    have := sorted_getD_mono s hs k (k + i) (by omega) (by omega)
    rw [List.getD_eq_getElem s 0 (show k + i < s.length by omega)] at this
    have h2 : t < s[k + i] := lt_of_lt_of_le ht this
    simpa using h2
  calc s.countP (fun x => decide (x ≤ t))
      = (s.take k ++ s.drop k).countP (fun x => decide (x ≤ t)) := by rw [← hsplit]
    _ = (s.take k).countP (fun x => decide (x ≤ t)) := by rw [List.countP_append, hdrop]; rfl
    _ ≤ (s.take k).length := List.countP_le_length _
    _ ≤ k := by rw [List.length_take]; omega

/-- Order statistics respect the pointwise order: sorting the values `f d` and the values
`g d` of the same days, with `f d ≤ g d` for every day, gives pointwise ordered lists. -/
theorem sort_getD_le_of_map_le {α : Type} (B : List α) (f g : α → ℚ)
    (hfg : ∀ d ∈ B, f d ≤ g d) (k : ℕ) (hk : k < B.length) :
    ((B.map f).insertionSort (· ≤ ·)).getD k 0 ≤ ((B.map g).insertionSort (· ≤ ·)).getD k 0 := by
  by_contra hlt
  rw [not_le] at hlt
  have hsf := List.sorted_insertionSort (· ≤ ·) (B.map f)
  have hsg := List.sorted_insertionSort (· ≤ ·) (B.map g)
  have hlf : k < ((B.map f).insertionSort (· ≤ ·)).length := by
    rw [List.length_insertionSort, List.length_map]; exact hk
  have hlg : k < ((B.map g).insertionSort (· ≤ ·)).length := by
    rw [List.length_insertionSort, List.length_map]; exact hk
  have h1 := succ_le_countP_sorted _ hsg k hlg
  have h2 := countP_sorted_le _ hsf k hlf _ hlt
  have h3 := countP_le_of_map_le B f g hfg (((B.map g).insertionSort (· ≤ ·)).getD k 0)
  rw [(List.perm_insertionSort (· ≤ ·) (B.map g)).countP_eq] at h1
  rw [(List.perm_insertionSort (· ≤ ·) (B.map f)).countP_eq] at h2
  omega

/-- The quantile respects the pointwise order of the values. -/
theorem quantileQ_mono_pointwise {α : Type} (B : List α) (hne : B ≠ []) (f g : α → ℚ)
    (hfg : ∀ d ∈ B, f d ≤ g d) (q : ℚ) (h0 : 0 ≤ q) (h1 : q ≤ 1) :
    quantileQ ((B.map f).insertionSort (· ≤ ·)) q ≤
      quantileQ ((B.map g).insertionSort (· ≤ ·)) q := by
  have hlen : 0 < B.length := List.length_pos.2 hne
  have hnf : (B.map f).insertionSort (· ≤ ·) ≠ [] := by
    intro h
    have := congrArg List.length h
    rw [List.length_insertionSort, List.length_map] at this
    simp at this
    exact hne this
  have hng : (B.map g).insertionSort (· ≤ ·) ≠ [] := by
    intro h
    have := congrArg List.length h
    rw [List.length_insertionSort, List.length_map] at this
    simp at this
    exact hne this
  rw [quantileQ_eq _ hnf q h0 h1, quantileQ_eq _ hng q h0 h1]
  simp only [List.length_insertionSort, List.length_map]
  obtain ⟨-, hb, hr0, hr1⟩ := quantile_pos_facts B.length hlen q h0 h1
  have ha := sort_getD_le_of_map_le B f g hfg _ hb
  have hm : Min.min (⌊((B.length : ℚ) - 1) * q⌋₊ + 1) (B.length - 1) < B.length :=
    lt_of_le_of_lt (Nat.min_le_right _ _) (by omega)
  have hc := sort_getD_le_of_map_le B f g hfg _ hm
  nlinarith

/-! ## The range brackets the estimate -/

theorem get?_cumCompletion_revenue (sqrtQ : ℚ → ℚ) (c : Container) (k : ℕ) (hk : k < 24) :
    (summarizeContainer sqrtQ c).cumCompletion.revenue.get? k =
      some (summarize sqrtQ (c.cumCompletion.revenue.getD k [])) :=
  get?_summarizeTable sqrtQ c.cumCompletion.revenue k hk

/-- C23: for a positive finite revenue so far and a weekday bucket whose revenue
completion ratios at the effective hour are finite numbers `xs` with `p25 > 0`, the
forecast exists, the three quantiles are finite with `0 < p25 ≤ p50 ≤ p75`, and
`low = r / p75`, `eod = r / p50`, `high = r / p25` satisfy `0 < low ≤ eod ≤ high`. -/
theorem forecast_bracket (sqrtQ : ℚ → ℚ) (c : Container) (hour : JSNum) (inc : Bool)
    (inputs : PerMetric JSNum) (n : ℕ) (xs : List ℚ) (r : ℚ)
    (hr : 0 < r) (hin : inputs.revenue = fin r) (hn : n < 24)
    (hh : effectiveHour hour inc = fin (n : ℚ))
    (hxs : c.cumCompletion.revenue.getD n [] = xs.map fin)
    (hp : gt (quantile (xs.map fin) (1 / 4)) (fin 0) = true) :
    ∃ (cr : Summary) (f : Forecast) (p25 p50 p75 : ℚ),
      (summarizeContainer sqrtQ c).cumCompletion.revenue.get? n = some cr ∧
      cr.p25 = fin p25 ∧ cr.p50 = fin p50 ∧ cr.p75 = fin p75 ∧
      0 < p25 ∧ p25 ≤ p50 ∧ p50 ≤ p75 ∧
      forecast (some (summarizeContainer sqrtQ c)) hour inc inputs = .ok (some f) ∧
      f.low = fin (r / p75) ∧ f.eod = fin (r / p50) ∧ f.high = fin (r / p25) ∧
      0 < r / p75 ∧ r / p75 ≤ r / p50 ∧ r / p50 ≤ r / p25 := by
  have hne : xs ≠ [] := by
    rintro rfl
    rw [List.map_nil, quantile_nil] at hp
    exact absurd hp (by decide)
  have hs := List.sorted_insertionSort (· ≤ ·) xs
  have hsne : xs.insertionSort (· ≤ ·) ≠ [] := by
    intro h
    have := congrArg List.length h
    rw [List.length_insertionSort] at this
    exact hne (List.length_eq_zero.1 this)
  have e25 := quantile_eq_quantileQ xs hne (1 / 4) (by norm_num) (by norm_num)
  have e50 := quantile_eq_quantileQ xs hne (1 / 2) (by norm_num) (by norm_num)
  have e75 := quantile_eq_quantileQ xs hne (3 / 4) (by norm_num) (by norm_num)
  have m1 := quantileQ_mono _ hs hsne (1 / 4) (1 / 2) (by norm_num) (by norm_num) (by norm_num)
  have m2 := quantileQ_mono _ hs hsne (1 / 2) (3 / 4) (by norm_num) (by norm_num) (by norm_num)
  rw [e25] at hp
  have h25 : 0 < quantileQ (xs.insertionSort (· ≤ ·)) (1 / 4) := by
    simpa [gt, lt] using hp
  generalize quantileQ (xs.insertionSort (· ≤ ·)) (1 / 4) = p25 at *
  generalize quantileQ (xs.insertionSort (· ≤ ·)) (1 / 2) = p50 at *
  generalize quantileQ (xs.insertionSort (· ≤ ·)) (3 / 4) = p75 at *
  have h50 : 0 < p50 := lt_of_lt_of_le h25 m1
  have h75 : 0 < p75 := lt_of_lt_of_le h50 m2
  obtain ⟨cr, ws, rows, g1, -, -, g4⟩ := forecast_ok (summarizeContainer sqrtQ c)
    (summarizeContainer_wellFormed sqrtQ c) hour inc inputs n hn hh
    (by rw [hin]; simpa [has, isFinite, gt, lt] using hr)
  have hcr : cr = summarize sqrtQ (xs.map fin) := by
    rw [get?_cumCompletion_revenue sqrtQ c n hn, hxs] at g1
    exact (Option.some.inj g1).symm
  have c25 : cr.p25 = fin p25 := by rw [hcr]; exact e25
  have c50 : cr.p50 = fin p50 := by rw [hcr]; exact e50
  have c75 : cr.p75 = fin p75 := by rw [hcr]; exact e75
  refine ⟨cr, _, p25, p50, p75, g1, c25, c50, c75, h25, m1, m2, g4, ?_, ?_, ?_,
    div_pos hr h75, ?_, ?_⟩
  · show div inputs.revenue cr.p75 = _
    rw [hin, c75]
    simp [div, h75.ne']
  · show div inputs.revenue cr.p50 = _
    rw [hin, c50]
    simp [div, h50.ne']
  · show div inputs.revenue cr.p25 = _
    rw [hin, c25]
    simp [div, h25.ne']
  · exact div_le_div_of_nonneg_left hr.le h50 m2
  · exact div_le_div_of_nonneg_left hr.le h25 m1

/-- Instance of C23: three days that have earned all, half and a quarter of their revenue
by hour 4.  The quantiles of the completion ratio are `3/8`, `1/2` and `3/4`, so revenue
so far 30 gives the range `40 ≤ 60 ≤ 80`. -/
theorem forecast_bracket_witness :
    ∃ f, forecast (some (summarizeContainer Rat.sqrt
        (containerOf (groupDays (fun _ => fin 1) rampRows)))) (fin 4) true
        (revenueOnly (fin 30)) = .ok (some f) ∧
      f.low = fin 40 ∧ f.eod = fin 60 ∧ f.high = fin 80 := by
  obtain ⟨cr, f, p25, p50, p75, h1, h25, h50, h75, -, -, -, hf, hlow, heod, hhigh, -⟩ :=
    forecast_bracket Rat.sqrt (containerOf (groupDays (fun _ => fin 1) rampRows)) (fin 4) true
      (revenueOnly (fin 30)) 4 [1, 1 / 2, 1 / 4] 30 (by norm_num) rfl (by norm_num)
      (by decide!) (by decide!) (by decide!)
  rw [get?_cumCompletion_revenue _ _ 4 (by norm_num)] at h1
  have hcr := Option.some.inj h1
  have hxs : (containerOf (groupDays (fun _ => fin 1) rampRows)).cumCompletion.revenue.getD 4 []
      = [fin 1, fin (1 / 2), fin (1 / 4)] := by decide!
  rw [hxs] at hcr
  have q25 : quantile [fin 1, fin (1 / 2), fin (1 / 4)] (1 / 4) = fin (3 / 8) := by decide!
  have q50 : quantile [fin 1, fin (1 / 2), fin (1 / 4)] (1 / 2) = fin (1 / 2) := by decide!
  have q75 : quantile [fin 1, fin (1 / 2), fin (1 / 4)] (3 / 4) = fin (3 / 4) := by decide!
  have e25 : p25 = 3 / 8 := by
    have := h25; rw [← hcr] at this
    exact (JSNum.fin.inj (this.symm.trans q25))
  have e50 : p50 = 1 / 2 := by
    have := h50; rw [← hcr] at this
    exact (JSNum.fin.inj (this.symm.trans q50))
  have e75 : p75 = 3 / 4 := by
    have := h75; rw [← hcr] at this
    exact (JSNum.fin.inj (this.symm.trans q75))
  subst e25 e50 e75
  refine ⟨f, hf, ?_, ?_, ?_⟩
  · rw [hlow]; norm_num
  · rw [heod]; norm_num
  · rw [hhigh]; norm_num

/-! ## The expectation table -/

/-- The rows of a forecast over a well-formed entry, field by field as the code computes
them. -/
theorem forecast_rows (w : WeekdayStats) (hw : w.WellFormed) (hour : JSNum) (inc : Bool)
    (inputs : PerMetric JSNum) (f : Forecast)
    (hf : forecast (some w) hour inc inputs = .ok (some f)) :
    f.hourRows.length = 24 ∧
    ∀ hh, hh < 24 → ∃ row cumR shareR,
      f.hourRows.get? hh = some row ∧ w.cumCompletion.revenue.get? hh = some cumR ∧
      w.share.revenue.get? hh = some shareR ∧ row.hour = hh ∧
      row.expCumRev = mul f.eod cumR.p50 ∧ row.expHourRev = mul f.eod shareR.p50 ∧
      row.cumLow = mul f.eod (clamp01 (sub cumR.mean (finiteOrZero cumR.std))) ∧
      row.cumHigh = mul f.eod (clamp01 (add cumR.mean (finiteOrZero cumR.std))) ∧
      row.hourLow = mul f.eod (clamp01 (sub shareR.mean (finiteOrZero shareR.std))) ∧
      row.hourHigh = mul f.eod (clamp01 (add shareR.mean (finiteOrZero shareR.std))) := by
  obtain ⟨w', cr, hw', -, -, -, -, -, -, -, -, -, -, hrows⟩ :=
    forecast_some_inv _ hour inc inputs f hf
  obtain rfl := Option.some.inj hw'
  obtain ⟨rows, h1, hlen, hall⟩ := hourRows_ok w hw f.eod
  rw [hrows] at h1
  obtain rfl : f.hourRows = rows := Except.ok.inj h1
  refine ⟨hlen, fun hh hh24 => ?_⟩
  obtain ⟨cumR, shareR, sI, sC, sS, cum1, g1, g2, -, -, -, g6⟩ := hall hh hh24
  exact ⟨_, cumR, shareR, g6, g1, g2, rfl, rfl, rfl, rfl, rfl, rfl, rfl⟩

/-- The entry of weekday `w` in a result of `buildStats` summarises the container of the
days of that weekday. -/
theorem buildStats_get? (dw : String → JSNum) (sqrtQ : ℚ → ℚ) (rows : List RawRow)
    (out : List WeekdayStats) (hb : buildStats dw sqrtQ rows = .ok out) (w : ℕ)
    (entry : WeekdayStats) (hw : out.get? w = some entry) :
    w < 7 ∧ entry = summarizeContainer sqrtQ (containerOf (bucket (groupDays dw rows) w)) := by
  rw [buildStats_eq] at hb
  split at hb
  · obtain rfl := Except.ok.inj hb
    have hlen : w < 7 := by
      by_contra hge
      have : ((statsOf (groupDays dw rows)).map (summarizeContainer sqrtQ)).get? w = none := by
        rw [List.get?_eq_none]
        rw [List.length_map, length_statsOf]
        omega
      rw [this] at hw
      exact absurd hw (by simp)
    refine ⟨hlen, ?_⟩
    simp only [statsOf, List.get?_eq_getElem?, List.getElem?_map, List.getElem?_range hlen,
      Option.map_some'] at hw
    exact (Option.some.inj hw).symm
  · exact absurd hb (by simp)

theorem buildStats_mem (dw : String → JSNum) (sqrtQ : ℚ → ℚ) (rows : List RawRow)
    (out : List WeekdayStats) (hb : buildStats dw sqrtQ rows = .ok out)
    (entry : WeekdayStats) (he : entry ∈ out) :
    ∃ w, w < 7 ∧ entry = summarizeContainer sqrtQ (containerOf (bucket (groupDays dw rows) w)) := by
  obtain ⟨w, hw⟩ := List.mem_iff_get?.1 he
  exact ⟨w, buildStats_get? dw sqrtQ rows out hb w entry hw⟩

theorem bucket_subset (days : List Day) (w : ℕ) : ∀ d ∈ bucket days w, d ∈ days :=
  fun _ hd => List.mem_of_mem_filter hd

theorem safeDiv_finite_or_nan (a b : JSNum) (ha : isFinite a = true) (hb : isFinite b = true) :
    isFinite (safeDiv a b) = true ∨ safeDiv a b = nan := by
  by_cases ht : truthy b = true
  · exact Or.inl (safeDiv_finite a b ha hb ht)
  · right
    unfold safeDiv
    rw [if_neg ht]

theorem foldl_add_nan_left (l : List JSNum) : l.foldl add nan = nan := by
  induction l with
  | nil => rfl
  | cons x t ih =>
    have : add nan x = nan := by cases x <;> rfl
    rw [List.foldl_cons, this, ih]

theorem foldl_add_of_mem_nan (l : List JSNum) (h : nan ∈ l) : ∀ a, l.foldl add a = nan := by
  induction l with
  | nil => exact absurd h (List.not_mem_nil _)
  | cons x t ih =>
    intro a
    rw [List.foldl_cons]
    rcases List.mem_cons.1 h with hx | ht
    · have : add a x = nan := by rw [← hx]; cases a <;> rfl
      rw [this, foldl_add_nan_left]
    · exact ih ht _

/-- The mean and the standard deviation of a non-empty array of finite numbers. -/
theorem summarize_mean_std (sqrtQ : ℚ → ℚ) (qs : List ℚ) (hne : qs ≠ []) :
    ∃ μ v : ℚ, 0 ≤ v ∧ (summarize sqrtQ (qs.map fin)).mean = fin μ ∧
      (summarize sqrtQ (qs.map fin)).std = fin (sqrtQ v) := by
  have hpos : 0 < qs.length := List.length_pos.mpr hne
  have hn : (qs.length : ℚ) ≠ 0 := by exact_mod_cast hpos.ne'
  have hlen : ¬ (qs.map fin).length = 0 := by simpa using hne
  have hmean : div ((qs.map fin).foldl add (fin 0)) (fin (qs.map fin).length)
      = fin (qs.sum / qs.length) := by
    rw [foldl_add_map_fin]
    simp [div, hn]
  have hstep : ∀ a v μ : ℚ,
      add (fin a) (pow2 (sub (fin v) (fin μ))) = fin (a + (v - μ) ^ 2) := by
    intro a v μ
    simp only [sub, neg, add, pow2]
    congr 1
    ring
  have hfold : ∀ (l : List ℚ) (μ a : ℚ),
      (l.map fin).foldl (fun a b => add a (pow2 (sub b (fin μ)))) (fin a)
        = fin (a + (l.map fun x => (x - μ) ^ 2).sum) := by
    intro l μ
    induction l with
    | nil => intro a; simp
    | cons v t ih =>
      intro a
      simp only [List.map_cons, List.foldl_cons, hstep, ih, List.sum_cons]
      congr 1
      ring
  have hvar0 : (0 : ℚ) ≤
      (qs.map fun x => (x - qs.sum / qs.length) ^ 2).sum / (qs.length : ℚ) := by
    apply div_nonneg
    · apply List.sum_nonneg
      intro x hx
      obtain ⟨y, -, rfl⟩ := List.mem_map.1 hx
      positivity
    · positivity
  refine ⟨qs.sum / qs.length, _, hvar0, ?_, ?_⟩
  · unfold summarize
    simp only [ne_eq, hlen, not_false_eq_true, if_true, hmean]
  · unfold summarize
    simp only [ne_eq, hlen, not_false_eq_true, if_true, hmean, hfold]
    simp only [List.length_map, div, hn, if_false, zero_add, isFinite, if_true, JSNum.sqrt,
      not_lt.mpr hvar0]

/-- The mean of an array of finite numbers and `NaN`s is `NaN`, or it is finite together
with the standard deviation, which is `Math.sqrt` of a non-negative number. -/
theorem summarize_mean_cases (sqrtQ : ℚ → ℚ) (arr : List JSNum)
    (h : ∀ x ∈ arr, isFinite x = true ∨ x = nan) :
    (summarize sqrtQ arr).mean = nan ∨
      ∃ μ v : ℚ, 0 ≤ v ∧ (summarize sqrtQ arr).mean = fin μ ∧
        (summarize sqrtQ arr).std = fin (sqrtQ v) := by
  by_cases hnan : nan ∈ arr
  · left
    have hlen : arr.length ≠ 0 := by
      intro h0
      rw [List.length_eq_zero.1 h0] at hnan
      exact absurd hnan (List.not_mem_nil _)
    unfold summarize
    simp only [ne_eq, hlen, not_false_eq_true, if_true, foldl_add_of_mem_nan arr hnan]
    rfl
  · by_cases hnil : arr = []
    · left
      subst hnil
      rfl
    · right
      have hfin : ∀ x ∈ arr, isFinite x = true := fun x hx =>
        (h x hx).resolve_right fun hx' => hnan (hx' ▸ hx)
      have hmap := eq_map_fin_of_finite arr hfin
      rw [hmap]
      exact summarize_mean_std sqrtQ _ (by
        intro h0
        rw [h0, List.map_nil] at hmap
        exact hnil hmap)

/-- The code's band argument `mean ∓ (isFinite(std) ? std : 0)` is `mean ∓ std` on a
summary whose mean is `NaN` or whose standard deviation is finite. -/
theorem band_arg_eq (s : Summary) (h : s.mean = nan ∨ isFinite s.std = true) :
    sub s.mean (finiteOrZero s.std) = sub s.mean s.std ∧
    add s.mean (finiteOrZero s.std) = add s.mean s.std := by
  rcases h with h | h
  · rw [h]
    exact ⟨rfl, rfl⟩
  · unfold finiteOrZero
    rw [if_pos h]
    exact ⟨rfl, rfl⟩

/-- Order of a band for a finite non-negative estimate, a finite mean and a finite
non-negative standard deviation. -/
theorem band_order (e μ σ : ℚ) (he : 0 ≤ e) (hσ : 0 ≤ σ) :
    le (fin 0) (mul (fin e) (clamp01 (sub (fin μ) (fin σ)))) = true ∧
    le (mul (fin e) (clamp01 (sub (fin μ) (fin σ))))
      (mul (fin e) (clamp01 (add (fin μ) (fin σ)))) = true ∧
    le (mul (fin e) (clamp01 (add (fin μ) (fin σ)))) (fin e) = true := by
  have h1 : clamp01 (sub (fin μ) (fin σ)) = fin (Max.max 0 (Min.min 1 (μ - σ))) := by
    simp [clamp01, sub, neg, add, JSNum.max, JSNum.min, sub_eq_add_neg]
  have h2 : clamp01 (add (fin μ) (fin σ)) = fin (Max.max 0 (Min.min 1 (μ + σ))) := by
    simp [clamp01, add, JSNum.max, JSNum.min]
  rw [h1, h2]
  have a0 : (0 : ℚ) ≤ Max.max 0 (Min.min 1 (μ - σ)) := le_max_left _ _
  have a1 : Max.max 0 (Min.min 1 (μ + σ)) ≤ (1 : ℚ) :=
    max_le (by norm_num) (min_le_left _ _)
  have a2 : Max.max 0 (Min.min 1 (μ - σ)) ≤ Max.max 0 (Min.min 1 (μ + σ)) :=
    max_le_max (le_refl _) (min_le_min (le_refl _) (by linarith))
  simp only [mul, le, decide_eq_true_eq]
  refine ⟨mul_nonneg he a0, mul_le_mul_of_nonneg_left a2 he, ?_⟩
  calc e * Max.max 0 (Min.min 1 (μ + σ)) ≤ e * 1 := mul_le_mul_of_nonneg_left a1 he
    _ = e := mul_one e


theorem get?_share_revenue (sqrtQ : ℚ → ℚ) (c : Container) (k : ℕ) (hk : k < 24) :
    (summarizeContainer sqrtQ c).share.revenue.get? k =
      some (summarize sqrtQ (c.share.revenue.getD k [])) :=
  get?_summarizeTable sqrtQ c.share.revenue k hk

theorem containerOf_cumCompletion_getD (ds : List Day) (k : ℕ) (hk : k < 24) :
    (containerOf ds).cumCompletion.revenue.getD k [] =
      ds.map fun d =>
        safeDiv (sumSlots (d.hours.take (k + 1))).revenue (sumSlots d.hours).revenue := by
  simp only [containerOf, PerMetric.ofFn]
  exact getD_range_map _ 24 k hk

theorem containerOf_share_getD (ds : List Day) (k : ℕ) (hk : k < 24) :
    (containerOf ds).share.revenue.getD k [] =
      ds.map fun d => safeDiv (d.slot k).revenue (sumSlots d.hours).revenue := by
  simp only [containerOf, PerMetric.ofFn]
  exact getD_range_map _ 24 k hk

/-- The revenue completion and share summaries of the days of a weekday, for days whose
slots hold finite numbers: the mean is `NaN`, or the mean is finite and the standard
deviation is `Math.sqrt` of a non-negative number. -/
theorem summaries_mean_cases (sqrtQ : ℚ → ℚ) (ds : List Day)
    (hfin : ∀ d ∈ ds, ∀ x ∈ d.hours, ∀ m : Metric, isFinite (x.get m) = true)
    (k : ℕ) (hk : k < 24) (cumR shareR : Summary)
    (hc : (summarizeContainer sqrtQ (containerOf ds)).cumCompletion.revenue.get? k = some cumR)
    (hs : (summarizeContainer sqrtQ (containerOf ds)).share.revenue.get? k = some shareR) :
    (cumR.mean = nan ∨ ∃ μ v : ℚ, 0 ≤ v ∧ cumR.mean = fin μ ∧ cumR.std = fin (sqrtQ v)) ∧
    (shareR.mean = nan ∨ ∃ μ v : ℚ, 0 ≤ v ∧ shareR.mean = fin μ ∧ shareR.std = fin (sqrtQ v)) := by
  rw [get?_cumCompletion_revenue sqrtQ _ k hk, containerOf_cumCompletion_getD ds k hk] at hc
  rw [get?_share_revenue sqrtQ _ k hk, containerOf_share_getD ds k hk] at hs
  rw [← Option.some.inj hc, ← Option.some.inj hs]
  constructor
  · apply summarize_mean_cases
    intro x hx
    obtain ⟨d, hd, rfl⟩ := List.mem_map.1 hx
    exact safeDiv_finite_or_nan _ _
      (sumSlots_finite _ (fun y hy => hfin d hd y (List.mem_of_mem_take hy)) .revenue)
      (sumSlots_finite _ (hfin d hd) .revenue)
  · apply summarize_mean_cases
    intro x hx
    obtain ⟨d, hd, rfl⟩ := List.mem_map.1 hx
    exact safeDiv_finite_or_nan _ _ (slot_finite d (hfin d hd) k .revenue)
      (sumSlots_finite _ (hfin d hd) .revenue)

/-- C21: for every forecast over an entry that `buildStats` returned, with `Math.sqrt`
non-negative, the table has 24 rows for the hours 0..23 in order; row `n` has expected
cumulative revenue `eod * cum50` and expected hourly revenue `eod * hour50` of hour `n`
and the bands `eod * clamp01(mean - std)` and `eod * clamp01(mean + std)` of the
completion and of the share summary of hour `n`, the clamp applied before the product;
for a finite `eod ≥ 0` and a finite mean each band has `0 ≤ low ≤ high ≤ eod`. -/
theorem forecast_table (dw : String → JSNum) (sqrtQ : ℚ → ℚ)
    (hsqrt : ∀ q : ℚ, 0 ≤ q → 0 ≤ sqrtQ q) (rows : List RawRow) (out : List WeekdayStats)
    (entry : WeekdayStats) (hb : buildStats dw sqrtQ rows = .ok out) (he : entry ∈ out)
    (hour : JSNum) (inc : Bool) (inputs : PerMetric JSNum) (f : Forecast)
    (hf : forecast (some entry) hour inc inputs = .ok (some f)) :
    (f.hourRows.map fun r => r.hour) = List.range 24 ∧
    ∀ n, n < 24 → ∃ row cumR shareR,
      f.hourRows.get? n = some row ∧ entry.cumCompletion.revenue.get? n = some cumR ∧
      entry.share.revenue.get? n = some shareR ∧ row.hour = n ∧
      row.expCumRev = mul f.eod cumR.p50 ∧ row.expHourRev = mul f.eod shareR.p50 ∧
      row.cumLow = mul f.eod (clamp01 (sub cumR.mean cumR.std)) ∧
      row.cumHigh = mul f.eod (clamp01 (add cumR.mean cumR.std)) ∧
      row.hourLow = mul f.eod (clamp01 (sub shareR.mean shareR.std)) ∧
      row.hourHigh = mul f.eod (clamp01 (add shareR.mean shareR.std)) ∧
      ∀ e : ℚ, f.eod = fin e → 0 ≤ e →
        (isFinite cumR.mean = true →
          le (fin 0) row.cumLow = true ∧ le row.cumLow row.cumHigh = true ∧
            le row.cumHigh f.eod = true) ∧
        (isFinite shareR.mean = true →
          le (fin 0) row.hourLow = true ∧ le row.hourLow row.hourHigh = true ∧
            le row.hourHigh f.eod = true) := by
  obtain ⟨w, -, rfl⟩ := buildStats_mem dw sqrtQ rows out hb entry he
  obtain ⟨hlen, hall⟩ := forecast_rows _ (summarizeContainer_wellFormed sqrtQ _) hour inc
    inputs f hf
  have hfin : ∀ d ∈ bucket (groupDays dw rows) w, ∀ x ∈ d.hours, ∀ m : Metric,
      isFinite (x.get m) = true := fun d hd =>
    slot_finite_groupDays dw rows d (bucket_subset _ _ d hd)
  constructor
  · apply List.ext_get?
    intro n
    by_cases hn : n < 24
    · obtain ⟨row, -, -, g1, -, -, g4, -⟩ := hall n hn
      simp only [List.get?_eq_getElem?] at g1
      simp [List.getElem?_map, g1, g4, List.getElem?_range hn]
    · rw [List.get?_eq_none.2 (by rw [List.length_map, hlen]; omega),
        List.get?_eq_none.2 (by rw [List.length_range]; omega)]
  · intro n hn
    obtain ⟨row, cumR, shareR, g1, g2, g3, g4, g5, g6, g7, g8, g9, g10⟩ := hall n hn
    obtain ⟨hc, hs⟩ := summaries_mean_cases sqrtQ _ hfin n hn cumR shareR g2 g3
    have hc' : cumR.mean = nan ∨ isFinite cumR.std = true :=
      hc.imp id fun ⟨_, _, _, _, h⟩ => by rw [h]; rfl
    have hs' : shareR.mean = nan ∨ isFinite shareR.std = true :=
      hs.imp id fun ⟨_, _, _, _, h⟩ => by rw [h]; rfl
    obtain ⟨bc1, bc2⟩ := band_arg_eq cumR hc'
    obtain ⟨bs1, bs2⟩ := band_arg_eq shareR hs'
    rw [bc1] at g7
    rw [bc2] at g8
    rw [bs1] at g9
    rw [bs2] at g10
    refine ⟨row, cumR, shareR, g1, g2, g3, g4, g5, g6, g7, g8, g9, g10, ?_⟩
    intro e heod he0
    constructor
    · intro hmean
      rcases hc with hnan | ⟨μ, v, hv, hμ, hσ⟩
      · rw [hnan] at hmean
        exact absurd hmean (by decide)
      · rw [g7, g8, heod, hμ, hσ]
        exact band_order e μ (sqrtQ v) he0 (hsqrt v hv)
    · intro hmean
      rcases hs with hnan | ⟨μ, v, hv, hμ, hσ⟩
      · rw [hnan] at hmean
        exact absurd hmean (by decide)
      · rw [g9, g10, heod, hμ, hσ]
        exact band_order e μ (sqrtQ v) he0 (hsqrt v hv)

/-- The statistics of the three ramp days and the forecast at hour 4 for revenue so far
30: the estimate is 60 and the mean completion at hour 4 is `7/12`. -/
theorem ramp_forecast (sqrtQ : ℚ → ℚ) :
    ∃ out entry f cumR, buildStats (fun _ => fin 1) sqrtQ rampRows = .ok out ∧
      out.get? 1 = some entry ∧ entry ∈ out ∧
      forecast (some entry) (fin 4) true (revenueOnly (fin 30)) = .ok (some f) ∧
      f.eod = fin 60 ∧ entry.cumCompletion.revenue.get? 4 = some cumR ∧
      cumR.mean = fin (7 / 12) := by
  have hall : ∀ d ∈ groupDays (fun _ => fin 1) rampRows,
      ∃ w : ℕ, w < 7 ∧ d.weekday = fin (w : ℚ) := by
    intro d hd
    obtain ⟨h1, -⟩ := weekday_groupDays (fun _ => fin 1) rampRows d hd
    exact ⟨1, by norm_num, by rw [h1]; norm_num⟩
  have hb : buildStats (fun _ => fin 1) sqrtQ rampRows =
      .ok ((statsOf (groupDays (fun _ => fin 1) rampRows)).map (summarizeContainer sqrtQ)) := by
    rw [buildStats_eq, if_pos hall]
  have hentry : ((statsOf (groupDays (fun _ => fin 1) rampRows)).map
      (summarizeContainer sqrtQ)).get? 1 =
      some (summarizeContainer sqrtQ (containerOf
        (bucket (groupDays (fun _ => fin 1) rampRows) 1))) := by
    simp [statsOf, List.getElem?_range (show 1 < 7 by norm_num)]
  have hxs : (containerOf (bucket (groupDays (fun _ => fin 1) rampRows) 1)).cumCompletion.revenue.getD
      4 [] = [fin 1, fin (1 / 2), fin (1 / 4)] := by decide!
  have h4 := get?_cumCompletion_revenue sqrtQ
    (containerOf (bucket (groupDays (fun _ => fin 1) rampRows) 1)) 4 (by norm_num)
  rw [hxs] at h4
  obtain ⟨cr, ws, rs, g1, -, -, g4⟩ := forecast_ok
    (summarizeContainer sqrtQ (containerOf (bucket (groupDays (fun _ => fin 1) rampRows) 1)))
    (summarizeContainer_wellFormed sqrtQ _) (fin 4) true (revenueOnly (fin 30)) 4
    (by norm_num) (by decide!) (by decide!)
  have hcr : cr = summarize sqrtQ [fin 1, fin (1 / 2), fin (1 / 4)] := by
    rw [h4] at g1
    exact (Option.some.inj g1).symm
  have q50 : quantile [fin 1, fin (1 / 2), fin (1 / 4)] (1 / 2) = fin (1 / 2) := by decide!
  refine ⟨_, _, _, _, hb, hentry, List.mem_iff_get?.2 ⟨1, hentry⟩, g4, ?_, h4, ?_⟩
  · show div (revenueOnly (fin 30)).revenue cr.p50 = fin 60
    rw [hcr]
    show div (fin 30) (quantile [fin 1, fin (1 / 2), fin (1 / 4)] (1 / 2)) = fin 60
    rw [q50]
    decide!
  · show (if [fin 1, fin (1 / 2), fin (1 / 4)].length ≠ 0 then
        div ([fin 1, fin (1 / 2), fin (1 / 4)].foldl add (fin 0))
          (fin ([fin 1, fin (1 / 2), fin (1 / 4)].length : ℚ)) else nan) = fin (7 / 12)
    decide!

/-- Instance of C21: the forecast at hour 4 over the three ramp days, with revenue so far
30.  The table has the hours 0..23 and the cumulative band of hour 4 lies between 0 and
the estimate 60. -/
theorem forecast_table_witness :
    ∃ (out : List WeekdayStats) (entry : WeekdayStats) (f : Forecast) (row : HourRow),
      buildStats (fun _ => fin 1) Rat.sqrt rampRows = .ok out ∧ entry ∈ out ∧
      forecast (some entry) (fin 4) true (revenueOnly (fin 30)) = .ok (some f) ∧
      (f.hourRows.map fun r => r.hour) = List.range 24 ∧
      f.eod = fin 60 ∧ f.hourRows.get? 4 = some row ∧
      le (fin 0) row.cumLow = true ∧ le row.cumLow row.cumHigh = true ∧
      le row.cumHigh (fin 60) = true := by
  obtain ⟨out, entry, f, cumR, hb, -, he, hf, heod, hc, hmean⟩ := ramp_forecast Rat.sqrt
  obtain ⟨h24, hall⟩ := forecast_table (fun _ => fin 1) Rat.sqrt (fun q _ => Rat.sqrt_nonneg q)
    rampRows out entry hb he (fin 4) true (revenueOnly (fin 30)) f hf
  obtain ⟨row, cumR', shareR, g1, g2, -, -, -, -, -, -, -, -, hband⟩ := hall 4 (by norm_num)
  rw [hc] at g2
  obtain rfl := Option.some.inj g2
  obtain ⟨b1, b2, b3⟩ := (hband 60 heod (by norm_num)).1 (by rw [hmean]; rfl)
  rw [heod] at b3
  exact ⟨out, entry, f, row, hb, he, hf, h24, heod, g1, b1, b2, b3⟩

/-! ## The completion median over the hours -/

theorem sum_take_mono (vs : List ℚ) (h : ∀ v ∈ vs, 0 ≤ v) :
    ∀ i j : ℕ, i ≤ j → (vs.take i).sum ≤ (vs.take j).sum := by
  induction vs with
  | nil => intro i j _; simp
  | cons v t ih =>
    intro i j hij
    have hv : 0 ≤ v := h v (List.mem_cons_self _ _)
    have ht : ∀ x ∈ t, 0 ≤ x := fun x hx => h x (List.mem_cons_of_mem _ hx)
    cases i with
    | zero =>
      simp only [List.take_zero, List.sum_nil]
      exact List.sum_nonneg fun x hx => h x (List.mem_of_mem_take hx)
    | succ i =>
      cases j with
      | zero => omega
      | succ j =>
        simp only [List.take_succ_cons, List.sum_cons]
        exact add_le_add_left (ih ht i j (by omega)) v

/-- The cumulative completion ratios of revenue of a day with 24 finite slots,
non-negative hourly revenue and positive total revenue: finite, within `[0, 1]`,
non-decreasing in the hour, and `1` at hour 23. -/
theorem completion_day (d : Day) (hlen : d.hours.length = 24)
    (hfin : ∀ x ∈ d.hours, ∀ m : Metric, isFinite (x.get m) = true)
    (hnn : ∀ x ∈ d.hours, ge x.revenue (fin 0) = true)
    (hpos : gt (sumSlots d.hours).revenue (fin 0) = true) :
    (∀ k, safeDiv (sumSlots (d.hours.take (k + 1))).revenue (sumSlots d.hours).revenue =
      fin (completionOf d k)) ∧
    (∀ k, 0 ≤ completionOf d k ∧ completionOf d k ≤ 1) ∧
    (∀ k k', k ≤ k' → completionOf d k ≤ completionOf d k') ∧
    completionOf d 23 = 1 := by
  have hvs := eq_map_fin_of_finite (d.hours.map fun x => x.get .revenue) (by
    intro x hx
    obtain ⟨y, hy, rfl⟩ := List.mem_map.1 hx
    exact hfin y hy .revenue)
  generalize hV : (d.hours.map fun x => x.get .revenue).map JSNum.toRat = vs at hvs
  have hvlen : vs.length = 24 := by
    rw [← hV, List.length_map, List.length_map, hlen]
  have hv0 : ∀ v ∈ vs, 0 ≤ v := by
    intro v hv
    rw [← hV] at hv
    obtain ⟨x, hx, rfl⟩ := List.mem_map.1 hv
    obtain ⟨y, hy, rfl⟩ := List.mem_map.1 hx
    have h1 := hnn y hy
    have h2 := eq_fin_toRat_of_finite _ (hfin y hy .revenue)
    change ge (y.get .revenue) (fin 0) = true at h1
    rw [h2] at h1
    simpa [ge, le] using h1
  have htot : (sumSlots d.hours).revenue = fin vs.sum := sumSlots_get_fin d.hours .revenue vs hvs
  have hpart : ∀ n, (sumSlots (d.hours.take n)).revenue = fin (vs.take n).sum := fun n =>
    sumSlots_take_get_fin d.hours .revenue vs hvs n
  have hsum : 0 < vs.sum := by
    rw [htot] at hpos
    simpa [gt, lt] using hpos
  have hc : ∀ k, completionOf d k = (vs.take (k + 1)).sum / vs.sum := by
    intro k
    unfold completionOf
    rw [hpart, htot]
    simp [safeDiv, truthy, div, hsum.ne', JSNum.toRat]
  have hfull : (vs.take 24).sum = vs.sum := by
    rw [List.take_of_length_le (by omega)]
  refine ⟨?_, ?_, ?_, ?_⟩
  · intro k
    rw [hc, hpart, htot]
    simp [safeDiv, truthy, div, hsum.ne']
  · intro k
    rw [hc]
    constructor
    · exact div_nonneg (List.sum_nonneg fun x hx => hv0 x (List.mem_of_mem_take hx)) hsum.le
    · rw [div_le_one hsum]
      by_cases hk : k + 1 ≤ 24
      · rw [← hfull]
        exact sum_take_mono vs hv0 _ _ hk
      · rw [List.take_of_length_le (by omega)]
  · intro k k' hkk
    rw [hc, hc]
    exact div_le_div_of_nonneg_right (sum_take_mono vs hv0 _ _ (by omega)) hsum.le
  · rw [hc, hfull]
    exact div_self hsum.ne'

/-- The revenue completion median of a bucket of such days, hour by hour. -/
theorem completion_median (sqrtQ : ℚ → ℚ) (ds : List Day) (hne : ds ≠ [])
    (hlen : ∀ d ∈ ds, d.hours.length = 24)
    (hfin : ∀ d ∈ ds, ∀ x ∈ d.hours, ∀ m : Metric, isFinite (x.get m) = true)
    (hnn : ∀ d ∈ ds, ∀ x ∈ d.hours, ge x.revenue (fin 0) = true)
    (hpos : ∀ d ∈ ds, gt (sumSlots d.hours).revenue (fin 0) = true) (k : ℕ) (hk : k < 24) :
    ∃ s, (summarizeContainer sqrtQ (containerOf ds)).cumCompletion.revenue.get? k = some s ∧
      s.p50 = fin (quantileQ ((ds.map fun d => completionOf d k).insertionSort (· ≤ ·))
        (1 / 2)) := by
  refine ⟨_, get?_cumCompletion_revenue sqrtQ _ k hk, ?_⟩
  rw [containerOf_cumCompletion_getD ds k hk]
  have harr : (ds.map fun d =>
      safeDiv (sumSlots (d.hours.take (k + 1))).revenue (sumSlots d.hours).revenue) =
      (ds.map fun d => completionOf d k).map fin := by
    rw [List.map_map]
    exact List.map_congr_left fun d hd =>
      (completion_day d (hlen d hd) (hfin d hd) (hnn d hd) (hpos d hd)).1 k
  rw [harr]
  exact quantile_eq_quantileQ _ (by simpa using hne) (1 / 2) (by norm_num) (by norm_num)

theorem insertionSort_map_ne_nil {α : Type} (B : List α) (hne : B ≠ []) (f : α → ℚ) :
    (B.map f).insertionSort (· ≤ ·) ≠ [] := by
  intro h
  have := congrArg List.length h
  rw [List.length_insertionSort, List.length_map] at this
  exact hne (List.length_eq_zero.1 this)


/-! ## Claims about the completion median and the expected cumulative revenue -/

/-- C25 as stated fails for an infinite estimate.  One day earns its revenue of 10 at
hour 5, so the completion median is 0 at hour 0 and 1 from hour 5 on; the forecast at
hour 0 for revenue so far 5 has `eod = 5 / 0 = +Infinity`, which is `≥ 0`, and the
expected cumulative revenue is `NaN` in row 0 and `+Infinity` in row 5: not
non-decreasing. -/
theorem expected_cumulative_not_monotone :
    ∃ out entry f r0 r5, buildStats (fun _ => fin 1) Rat.sqrt lateRevenueRows = .ok out ∧
      out.get? 1 = some entry ∧
      bucket (groupDays (fun _ => fin 1) lateRevenueRows) 1 ≠ [] ∧
      (∀ d ∈ bucket (groupDays (fun _ => fin 1) lateRevenueRows) 1,
        (∀ x ∈ d.hours, ge x.revenue (fin 0) = true) ∧
          gt (sumSlots d.hours).revenue (fin 0) = true) ∧
      forecast (some entry) (fin 0) true (revenueOnly (fin 5)) = .ok (some f) ∧
      f.eod = posInf ∧ ge f.eod (fin 0) = true ∧
      f.hourRows.get? 0 = some r0 ∧ f.hourRows.get? 5 = some r5 ∧
      r0.expCumRev = nan ∧ r5.expCumRev = posInf ∧
      le r0.expCumRev r5.expCumRev = false := by
  have hall : ∀ d ∈ groupDays (fun _ => fin 1) lateRevenueRows,
      ∃ w : ℕ, w < 7 ∧ d.weekday = fin (w : ℚ) := by
    intro d hd
    obtain ⟨h1, -⟩ := weekday_groupDays (fun _ => fin 1) lateRevenueRows d hd
    exact ⟨1, by norm_num, by rw [h1]; norm_num⟩
  have hb : buildStats (fun _ => fin 1) Rat.sqrt lateRevenueRows =
      .ok ((statsOf (groupDays (fun _ => fin 1) lateRevenueRows)).map
        (summarizeContainer Rat.sqrt)) := by
    rw [buildStats_eq, if_pos hall]
  have hentry : ((statsOf (groupDays (fun _ => fin 1) lateRevenueRows)).map
      (summarizeContainer Rat.sqrt)).get? 1 =
      some (summarizeContainer Rat.sqrt (containerOf
        (bucket (groupDays (fun _ => fin 1) lateRevenueRows) 1))) := by
    simp [statsOf, List.getElem?_range (show 1 < 7 by norm_num)]
  have hx0 : (containerOf (bucket (groupDays (fun _ => fin 1) lateRevenueRows)
      1)).cumCompletion.revenue.getD 0 [] = [fin 0] := by decide!
  have hx5 : (containerOf (bucket (groupDays (fun _ => fin 1) lateRevenueRows)
      1)).cumCompletion.revenue.getD 5 [] = [fin 1] := by decide!
  have h0 := get?_cumCompletion_revenue Rat.sqrt
    (containerOf (bucket (groupDays (fun _ => fin 1) lateRevenueRows) 1)) 0 (by norm_num)
  have h5 := get?_cumCompletion_revenue Rat.sqrt
    (containerOf (bucket (groupDays (fun _ => fin 1) lateRevenueRows) 1)) 5 (by norm_num)
  rw [hx0] at h0
  rw [hx5] at h5
  have q0 : (summarize Rat.sqrt [fin 0]).p50 = fin 0 := by
    show quantile [fin 0] (1 / 2) = fin 0
    decide!
  have q5 : (summarize Rat.sqrt [fin 1]).p50 = fin 1 := by
    show quantile [fin 1] (1 / 2) = fin 1
    decide!
  obtain ⟨cr, ws, rs, g1, -, -, g4⟩ := forecast_ok
    (summarizeContainer Rat.sqrt
      (containerOf (bucket (groupDays (fun _ => fin 1) lateRevenueRows) 1)))
    (summarizeContainer_wellFormed Rat.sqrt _) (fin 0) true (revenueOnly (fin 5)) 0
    (by norm_num) (by decide!) (by decide!)
  have hcr : cr = summarize Rat.sqrt [fin 0] := by
    rw [h0] at g1
    exact (Option.some.inj g1).symm
  have heod : div (revenueOnly (fin 5)).revenue cr.p50 = posInf := by
    rw [hcr, q0]
    decide!
  obtain ⟨-, hrows⟩ := forecast_rows _ (summarizeContainer_wellFormed Rat.sqrt _) (fin 0) true
    (revenueOnly (fin 5)) _ g4
  obtain ⟨r0, c0, -, a1, a2, -, -, a5, -⟩ := hrows 0 (by norm_num)
  obtain ⟨r5, c5, -, b1, b2, -, -, b5, -⟩ := hrows 5 (by norm_num)
  rw [h0] at a2
  rw [h5] at b2
  have e0 : r0.expCumRev = nan := by
    rw [a5, ← Option.some.inj a2, q0]
    show mul (div (revenueOnly (fin 5)).revenue cr.p50) (fin 0) = nan
    rw [heod]
    decide!
  have e5 : r5.expCumRev = posInf := by
    rw [b5, ← Option.some.inj b2, q5]
    show mul (div (revenueOnly (fin 5)).revenue cr.p50) (fin 1) = posInf
    rw [heod]
    decide!
  refine ⟨_, _, _, r0, r5, hb, hentry, by decide!, by decide!, g4, heod, ?_, a1, b1, e0, e5, ?_⟩
  · show ge (div (revenueOnly (fin 5)).revenue cr.p50) (fin 0) = true
    rw [heod]
    rfl
  · rw [e0, e5]
    rfl

/-- C25, amended: for every entry of `buildStats` whose weekday has at least one day, all
of its days with non-negative hourly revenue and positive total revenue, the revenue
completion median lies in `[0, 1]` at every hour, is non-decreasing in the hour over
0..23 and is 1 at hour 23; hence for a finite `eod ≥ 0` the expected cumulative revenue
of the table is non-decreasing across the 24 rows and its row 23 equals `eod`. -/
theorem completion_median_monotone (dw : String → JSNum) (sqrtQ : ℚ → ℚ) (rows : List RawRow)
    (out : List WeekdayStats) (w : ℕ) (entry : WeekdayStats)
    (hb : buildStats dw sqrtQ rows = .ok out) (hw : out.get? w = some entry)
    (hne : bucket (groupDays dw rows) w ≠ [])
    (hrev : ∀ d ∈ bucket (groupDays dw rows) w,
      (∀ x ∈ d.hours, ge x.revenue (fin 0) = true) ∧
        gt (sumSlots d.hours).revenue (fin 0) = true) :
    (∀ h, h < 24 → ∃ s, entry.cumCompletion.revenue.get? h = some s ∧
        ge s.p50 (fin 0) = true ∧ le s.p50 (fin 1) = true) ∧
    (∀ h h' s s', h ≤ h' → h' < 24 → entry.cumCompletion.revenue.get? h = some s →
        entry.cumCompletion.revenue.get? h' = some s' → le s.p50 s'.p50 = true) ∧
    (∃ s, entry.cumCompletion.revenue.get? 23 = some s ∧ s.p50 = fin 1) ∧
    ∀ (hour : JSNum) (inc : Bool) (inputs : PerMetric JSNum) (f : Forecast) (e : ℚ),
      forecast (some entry) hour inc inputs = .ok (some f) → f.eod = fin e → 0 ≤ e →
      f.hourRows.length = 24 ∧
      (∀ h h' r r', h ≤ h' → h' < 24 → f.hourRows.get? h = some r →
        f.hourRows.get? h' = some r' → le r.expCumRev r'.expCumRev = true) ∧
      ∃ r, f.hourRows.get? 23 = some r ∧ r.expCumRev = f.eod := by
  obtain ⟨-, rfl⟩ := buildStats_get? dw sqrtQ rows out hb w entry hw
  generalize hB : bucket (groupDays dw rows) w = B at hne hrev
  have hsub : ∀ d ∈ B, d ∈ groupDays dw rows := fun d hd =>
    bucket_subset _ w d (hB ▸ hd)
  have hlen : ∀ d ∈ B, d.hours.length = 24 := fun d hd =>
    length_hours_groupDays dw rows d (hsub d hd)
  have hfin : ∀ d ∈ B, ∀ x ∈ d.hours, ∀ m : Metric, isFinite (x.get m) = true := fun d hd =>
    slot_finite_groupDays dw rows d (hsub d hd)
  have hday := fun d (hd : d ∈ B) =>
    completion_day d (hlen d hd) (hfin d hd) (hrev d hd).1 (hrev d hd).2
  have hmed := completion_median sqrtQ B hne hlen hfin (fun d hd => (hrev d hd).1)
    (fun d hd => (hrev d hd).2)
  have hmem : ∀ k x, x ∈ (B.map fun d => completionOf d k).insertionSort (· ≤ ·) →
      ∃ d ∈ B, completionOf d k = x := fun k x hx =>
    List.mem_map.1 ((List.perm_insertionSort _ _).mem_iff.1 hx)
  have hP01 : ∀ k, 0 ≤ quantileQ ((B.map fun d => completionOf d k).insertionSort (· ≤ ·))
        (1 / 2) ∧
      quantileQ ((B.map fun d => completionOf d k).insertionSort (· ≤ ·)) (1 / 2) ≤ 1 :=
    fun k => quantileQ_mem_Icc _ (insertionSort_map_ne_nil B hne _) (1 / 2) (by norm_num)
      (by norm_num) 0 1 fun x hx => by
        obtain ⟨d, hd, rfl⟩ := hmem k x hx
        exact (hday d hd).2.1 k
  have hPmono : ∀ k k', k ≤ k' →
      quantileQ ((B.map fun d => completionOf d k).insertionSort (· ≤ ·)) (1 / 2) ≤
        quantileQ ((B.map fun d => completionOf d k').insertionSort (· ≤ ·)) (1 / 2) :=
    fun k k' hkk => quantileQ_mono_pointwise B hne _ _
      (fun d hd => (hday d hd).2.2.1 k k' hkk) (1 / 2) (by norm_num) (by norm_num)
  have hP23 : quantileQ ((B.map fun d => completionOf d 23).insertionSort (· ≤ ·)) (1 / 2)
      = 1 := by
    have := quantileQ_mem_Icc _ (insertionSort_map_ne_nil B hne fun d => completionOf d 23)
      (1 / 2) (by norm_num) (by norm_num) 1 1 fun x hx => by
        obtain ⟨d, hd, rfl⟩ := hmem 23 x hx
        rw [(hday d hd).2.2.2]
        exact ⟨le_refl _, le_refl _⟩
    exact le_antisymm this.2 this.1
  have hmono : ∀ h h' s s', h ≤ h' → h' < 24 →
      (summarizeContainer sqrtQ (containerOf B)).cumCompletion.revenue.get? h = some s →
      (summarizeContainer sqrtQ (containerOf B)).cumCompletion.revenue.get? h' = some s' →
      ∃ p p' : ℚ, s.p50 = fin p ∧ s'.p50 = fin p' ∧ p ≤ p' := by
    intro h h' s s' hhh hh' hs hs'
    obtain ⟨t, ht, htp⟩ := hmed h (by omega)
    obtain ⟨t', ht', htp'⟩ := hmed h' hh'
    rw [hs] at ht
    rw [hs'] at ht'
    obtain rfl := Option.some.inj ht
    obtain rfl := Option.some.inj ht'
    exact ⟨_, _, htp, htp', hPmono h h' hhh⟩
  refine ⟨?_, ?_, ?_, ?_⟩
  · intro h hh
    obtain ⟨s, hs, hp⟩ := hmed h hh
    refine ⟨s, hs, ?_, ?_⟩
    · rw [hp]
      simpa [ge, le] using (hP01 h).1
    · rw [hp]
      simpa [le] using (hP01 h).2
  · intro h h' s s' hhh hh' hs hs'
    obtain ⟨p, p', e1, e2, hpp⟩ := hmono h h' s s' hhh hh' hs hs'
    rw [e1, e2]
    simpa [le] using hpp
  · obtain ⟨s, hs, hp⟩ := hmed 23 (by norm_num)
    exact ⟨s, hs, by rw [hp, hP23]⟩
  · intro hour inc inputs f e hf heod he0
    obtain ⟨h24, hrows⟩ := forecast_rows _ (summarizeContainer_wellFormed sqrtQ _) hour inc
      inputs f hf
    refine ⟨h24, ?_, ?_⟩
    · intro h h' r r' hhh hh' hr hr'
      obtain ⟨x, c, -, a1, a2, -, -, a5, -⟩ := hrows h (by omega)
      obtain ⟨x', c', -, b1, b2, -, -, b5, -⟩ := hrows h' hh'
      rw [hr] at a1
      rw [hr'] at b1
      obtain rfl := Option.some.inj a1
      obtain rfl := Option.some.inj b1
      obtain ⟨p, p', e1, e2, hpp⟩ := hmono h h' c c' hhh hh' a2 b2
      rw [a5, b5, heod, e1, e2]
      simpa [mul, le] using mul_le_mul_of_nonneg_left hpp he0
    · obtain ⟨x, c, -, a1, a2, -, -, a5, -⟩ := hrows 23 (by norm_num)
      obtain ⟨s, hs, hp⟩ := hmed 23 (by norm_num)
      rw [hs] at a2
      obtain rfl := Option.some.inj a2
      refine ⟨x, a1, ?_⟩
      rw [a5, heod, hp, hP23]
      simp [mul]

/-- Instance of the amended C25: the three ramp days and the forecast at hour 4 for
revenue so far 30, whose estimate is 60; the median at hour 23 is 1 and row 23 of the
table expects 60. -/
theorem completion_median_monotone_witness :
    ∃ out entry f r s, buildStats (fun _ => fin 1) Rat.sqrt rampRows = .ok out ∧
      out.get? 1 = some entry ∧
      forecast (some entry) (fin 4) true (revenueOnly (fin 30)) = .ok (some f) ∧
      f.eod = fin 60 ∧ f.hourRows.get? 23 = some r ∧ r.expCumRev = fin 60 ∧
      entry.cumCompletion.revenue.get? 23 = some s ∧ s.p50 = fin 1 := by
  obtain ⟨out, entry, f, cumR, hb, hentry, -, hf, heod, -, -⟩ := ramp_forecast Rat.sqrt
  obtain ⟨-, -, ⟨s, hs, hp⟩, htab⟩ := completion_median_monotone (fun _ => fin 1) Rat.sqrt
    rampRows out 1 entry hb hentry (by decide!) (by decide!)
  obtain ⟨-, -, r, hr, he⟩ := htab (fin 4) true (revenueOnly (fin 30)) f 60 hf heod
    (by norm_num)
  exact ⟨out, entry, f, r, s, hb, hentry, hf, heod, hr, by rw [he, heod], hs, hp⟩

/-! ## The days a backtest row is computed from -/

theorem dayError_eq (cr50 : JSNum) (e : ℤ) (d : SeriesDay) :
    dayError cr50 e d =
      if (gt (soFar d e) (fin 0) && isFinite (relativeError cr50 e d)) = true then
        some (relativeError cr50 e d)
      else none := by
  unfold dayError relativeError
  by_cases hs : gt (soFar d e) (fin 0) = true
  · by_cases hf : isFinite (safeDiv (sub (div (soFar d e) cr50) d.totalRevenue)
        d.totalRevenue) = true
    · simp [hs, hf]
    · simp [hs, hf]
  · simp [hs]

/-- The relative error for a positive finite median, a positive total `T` and a positive
revenue so far `S`: finite exactly when `T` and `S` are finite, and then the quotient
`(S / c - T) / T`. -/
theorem relativeError_cases (S T : JSNum) (c : ℚ) (hc : 0 < c) (hT : gt T (fin 0) = true)
    (hS : gt S (fin 0) = true) :
    (isFinite (safeDiv (sub (div S (fin c)) T) T) = true ↔
      isFinite T = true ∧ isFinite S = true) ∧
    (isFinite (safeDiv (sub (div S (fin c)) T) T) = true →
      safeDiv (sub (div S (fin c)) T) T = fin ((S.toRat / c - T.toRat) / T.toRat)) := by
  cases S with
  | fin s =>
    cases T with
    | fin t =>
      have ht : 0 < t := by simpa [gt, lt] using hT
      simp [safeDiv, truthy, div, sub, neg, add, isFinite, hc.ne', ht.ne', JSNum.toRat,
        sub_eq_add_neg]
    | posInf => simp [safeDiv, truthy, div, sub, neg, add, isFinite, hc.ne']
    | nan => simp [gt, lt] at hT
    | negInf => simp [gt, lt] at hT
    | undef => simp [gt, lt] at hT
  | posInf =>
    cases T with
    | fin t =>
      have ht : 0 < t := by simpa [gt, lt] using hT
      simp [safeDiv, truthy, div, sub, neg, add, isFinite, hc.le, ht.ne', ht.le]
    | posInf => simp [safeDiv, truthy, div, sub, neg, add, isFinite, hc.le]
    | nan => simp [gt, lt] at hT
    | negInf => simp [gt, lt] at hT
    | undef => simp [gt, lt] at hT
  | nan => simp [gt, lt] at hS
  | negInf => simp [gt, lt] at hS
  | undef => simp [gt, lt] at hS

/-- C13 as stated fails on a day series with an infinite revenue.  The four days of
`infiniteRevenueRows` are of the selected weekday with total revenue `> 0` and revenue
so far `> 0` at effective hour 6, but the row of checkpoint 6 counts 3 samples: the
day whose total is `+Infinity` has the error `(20 - Infinity) / Infinity = NaN` and is
left out. -/
theorem backtest_drops_infinite_day :
    ∃ rows row, daySeries (fun _ => fin 1) (some infiniteRevenueRows) =
        some infiniteRevenueDays ∧
      backtest (some infiniteRevenueDays) (some trafficStats) (fin 1) true = some rows ∧
      row ∈ rows ∧ row.hourSelected = 6 ∧ row.effectiveHour = 6 ∧ row.samples = 3 ∧
      (infiniteRevenueDays.filter fun d => strictEq d.weekday (fin 1) &&
        gt d.totalRevenue (fin 0) && gt (soFar d 6) (fin 0)).length = 4 := by
  refine ⟨checkpoints.filterMap
    (backtestRow trafficStats (qualifyingDays infiniteRevenueDays (fin 1)) true),
    ⟨6, 6, 3, fin (2 / 5), fin (2 / 5)⟩, by decide!, by decide!, by decide!, rfl, rfl, rfl,
    by decide!⟩

/-- C13, amended: for every backtest result row with effective hour `e` and median
`cr50`, the included days are exactly the days of the selected weekday with total
revenue `> 0`, `soFar > 0` (the sum of revenue over the hours `0..e`) and a finite
relative error, which such a day has exactly when its total and its `soFar` are finite;
`samples` is their number, MAPE the mean over them of `|soFar / cr50 / total - 1|` and
bias the mean over them of `(soFar / cr50 - total) / total`. -/
theorem backtest_row_metrics (ds : List SeriesDay) (w : WeekdayStats) (weekday : JSNum)
    (inc : Bool) (rows : List BacktestRow) (row : BacktestRow)
    (h : backtest (some ds) (some w) weekday inc = some rows) (hrow : row ∈ rows) :
    ∃ c50 : ℚ, medianAt w row.effectiveHour = fin c50 ∧ 0 < c50 ∧
      (∀ d, d ∈ includedDays ds weekday (fin c50) row.effectiveHour ↔
          d ∈ ds ∧ strictEq d.weekday weekday = true ∧ gt d.totalRevenue (fin 0) = true ∧
            gt (soFar d row.effectiveHour) (fin 0) = true ∧
            isFinite (relativeError (fin c50) row.effectiveHour d) = true) ∧
      (∀ d, gt d.totalRevenue (fin 0) = true → gt (soFar d row.effectiveHour) (fin 0) = true →
          (isFinite (relativeError (fin c50) row.effectiveHour d) = true ↔
            isFinite d.totalRevenue = true ∧ isFinite (soFar d row.effectiveHour) = true)) ∧
      row.samples = (includedDays ds weekday (fin c50) row.effectiveHour).length ∧
      0 < row.samples ∧
      row.mape = fin (((includedDays ds weekday (fin c50) row.effectiveHour).map
            fun d => |(soFar d row.effectiveHour).toRat / c50 / d.totalRevenue.toRat - 1|).sum
          / (row.samples : ℚ)) ∧
      row.bias = fin (((includedDays ds weekday (fin c50) row.effectiveHour).map
            fun d => ((soFar d row.effectiveHour).toRat / c50 - d.totalRevenue.toRat)
              / d.totalRevenue.toRat).sum
          / (row.samples : ℚ)) := by
  obtain ⟨l, w', hl, hw, -, hrows, -⟩ := backtest_some _ _ weekday inc rows h
  cases hl
  cases hw
  rw [hrows, List.mem_filterMap] at hrow
  obtain ⟨c, -, hr⟩ := hrow
  obtain ⟨-, he, hmfin, hmle, hne, hsamples, hmape, hbias⟩ :=
    backtestRow_some w _ inc c row hr
  rw [← he] at hmfin hmle hne hsamples hmape hbias
  have hmed := eq_fin_toRat_of_finite _ hmfin
  have hc0 : 0 < (medianAt w row.effectiveHour).toRat := by
    rw [hmed] at hmle
    simpa [le] using hmle
  generalize (medianAt w row.effectiveHour).toRat = c50 at hmed hc0
  rw [hmed] at hne hsamples hmape hbias
  generalize row.effectiveHour = e at *
  have hqT : ∀ d ∈ qualifyingDays ds weekday, gt d.totalRevenue (fin 0) = true := by
    intro d hd
    have := (List.mem_filter.1 hd).2
    simp only [Bool.and_eq_true] at this
    exact this.2
  have hq : ∀ d ∈ qualifyingDays ds weekday,
      dayError (fin c50) e d =
        if (gt (soFar d e) (fin 0) && isFinite (relativeError (fin c50) e d)) = true then
          some (fin (((soFar d e).toRat / c50 - d.totalRevenue.toRat) / d.totalRevenue.toRat))
        else none := by
    intro d hd
    rw [dayError_eq]
    by_cases hp : (gt (soFar d e) (fin 0) && isFinite (relativeError (fin c50) e d)) = true
    · rw [if_pos hp, if_pos hp]
      simp only [Bool.and_eq_true] at hp
      exact congrArg some ((relativeError_cases _ _ c50 hc0 (hqT d hd) hp.1).2 hp.2)
    · rw [if_neg hp, if_neg hp]
  have herrs := filterMap_eq_filter_map _
    (fun d => gt (soFar d e) (fin 0) && isFinite (relativeError (fin c50) e d))
    (fun d => fin (((soFar d e).toRat / c50 - d.totalRevenue.toRat) / d.totalRevenue.toRat))
    (qualifyingDays ds weekday) hq
  change (qualifyingDays ds weekday).filterMap (dayError (fin c50) e) =
    (includedDays ds weekday (fin c50) e).map _ at herrs
  rw [herrs] at hne hsamples hmape hbias
  have hlen : row.samples = (includedDays ds weekday (fin c50) e).length := by
    rw [hsamples, List.length_map]
  have hpos : 0 < row.samples := by
    rw [hlen]
    apply List.length_pos.2
    intro e0
    exact hne (by rw [e0]; rfl)
  have hn0 : (row.samples : ℚ) ≠ 0 := by exact_mod_cast hpos.ne'
  have hmapfin : (includedDays ds weekday (fin c50) e).map
      (fun d => fin (((soFar d e).toRat / c50 - d.totalRevenue.toRat) / d.totalRevenue.toRat)) =
      ((includedDays ds weekday (fin c50) e).map
        fun d => ((soFar d e).toRat / c50 - d.totalRevenue.toRat) / d.totalRevenue.toRat).map
        fin := by
    rw [List.map_map]
    rfl
  refine ⟨c50, hmed, hc0, ?_, ?_, hlen, hpos, ?_, ?_⟩
  · intro d
    simp only [includedDays, qualifyingDays, List.mem_filter, Bool.and_eq_true, and_assoc]
  · intro d hT hS
    exact (relativeError_cases _ _ c50 hc0 hT hS).1
  · rw [hmape, List.length_map, ← hlen, hmapfin, foldl_add_abs_map_fin]
    simp only [div, hn0, if_false, zero_add, List.map_map]
    congr 2
    apply congrArg
    apply List.map_congr_left
    intro d hd
    obtain ⟨hdq, hcond⟩ := List.mem_filter.1 hd
    simp only [Bool.and_eq_true] at hcond
    have hTS := (relativeError_cases _ _ c50 hc0 (hqT d hdq) hcond.1).1.1 hcond.2
    have htot := eq_fin_toRat_of_finite _ hTS.1
    have htne : d.totalRevenue.toRat ≠ 0 := by
      have := hqT d hdq
      rw [htot] at this
      have : 0 < d.totalRevenue.toRat := by simpa [gt, lt] using this
      exact this.ne'
    simp only [Function.comp]
    congr 1
    field_simp
  · rw [hbias, List.length_map, ← hlen, hmapfin, foldl_add_map_fin]
    simp [div, hn0]

/-- Instance of the amended C13: on the day series with an infinite revenue, at
checkpoint 6 with the current hour included and a median of `1/2`, the included days
are the three days with revenue so far 70 of 100, each with error `2/5`. -/
theorem backtest_row_metrics_witness :
    ∃ rows row c50,
      backtest (some infiniteRevenueDays) (some trafficStats) (fin 1) true = some rows ∧
      row ∈ rows ∧ row.hourSelected = 6 ∧ row.samples = 3 ∧ row.mape = fin (2 / 5) ∧
      row.bias = fin (2 / 5) ∧ medianAt trafficStats row.effectiveHour = fin c50 ∧
      row.samples = (includedDays infiniteRevenueDays (fin 1) (fin c50) row.effectiveHour).length ∧
      row.mape = fin (((includedDays infiniteRevenueDays (fin 1) (fin c50)
          row.effectiveHour).map
            fun d => |(soFar d row.effectiveHour).toRat / c50 / d.totalRevenue.toRat - 1|).sum
          / (row.samples : ℚ)) := by
  have h : backtest (some infiniteRevenueDays) (some trafficStats) (fin 1) true =
      some (checkpoints.filterMap
        (backtestRow trafficStats (qualifyingDays infiniteRevenueDays (fin 1)) true)) := by
    decide!
  have hrow : (⟨6, 6, 3, fin (2 / 5), fin (2 / 5)⟩ : BacktestRow) ∈ checkpoints.filterMap
        (backtestRow trafficStats (qualifyingDays infiniteRevenueDays (fin 1)) true) := by
    decide!
  obtain ⟨c50, hm, -, -, -, hs, -, hmape, -⟩ := backtest_row_metrics infiniteRevenueDays
    trafficStats (fin 1) true _ _ h hrow
  exact ⟨_, _, c50, h, hrow, rfl, rfl, rfl, rfl, hm, hs, hmape⟩

end PacingForecaster
